import Mathlib

set_option maxRecDepth 600000

/-!
# Verification of the `astdocs` documentation extractor

A shallow embedding, in Lean, of the core of `astdocs/astdocs.py`: the
docstring formatter (`format_docstring`), the annotation formatter
(`parse_annotation`), the per-kind parsers (`parse_function`, `parse_class`,
`parse_import`, `parse`), and the renderers (`render_function`,
`render_class`, `render_module`, `render`, `render_recursively`).

Python strings are modelled as `List Char` (wrapped in `String` at the API
boundary); Python's insertion-ordered `dict`s as association lists; the
regular expressions of the source as explicit, position-by-position matcher
functions fed to a leftmost, non-overlapping substitution driver that mirrors
`re.sub` / `re.finditer`.  Functions whose Python counterparts loop over
shrinking strings take an explicit fuel argument; every wrapper passes a fuel
that is provably sufficient (the string length plus one).

External machinery that the Python code calls but that is not part of the
repository (the `ast` parser producing syntax trees, `glob` producing file
lists, `os.getcwd`) is represented by explicit inputs: the syntax tree, the
file list and the working directory name are parameters of the embedded
functions.
-/

namespace Astdocs

/-! ## Basic character classes (Python semantics) -/

/-- Python `str.strip()` / `\s` whitespace, over the character range exercised
here (ASCII plus the C1 controls Python's `str.isspace` accepts).  Further
Unicode space code points accepted by Python are not produced by any input in
this development. -/
def pySpace (c : Char) : Bool :=
  c == ' ' || c == '\t' || c == '\n' || c == '\r' || c == '\x0b' || c == '\x0c' ||
  c == '\x1c' || c == '\x1d' || c == '\x1e' || c == '\x1f' || c == '\x85'

/-- The regex class `[A-Za-z]` (rule `\n([A-Za-z ]+)\n-{3,}` of
`format_docstring`). -/
def azClass (c : Char) : Bool := c.isAlpha

/-- The regex class `[A-Za-z0-9_ ]` (argument-list rules of
`format_docstring`). -/
def wordClass (c : Char) : Bool := c.isAlphanum || c == '_' || c == ' '

/-- The regex class `[A-Za-z0-9_\[\],\.| ]` (type text in the argument-list
rules of `format_docstring`). -/
def typeClass (c : Char) : Bool :=
  c.isAlphanum || c == '_' || c == '[' || c == ']' || c == ',' || c == '.' ||
  c == '|' || c == ' '

/-! ## Python string primitives -/

/-- Python `str.strip()`: remove leading and trailing whitespace. -/
def pyStripL (s : List Char) : List Char :=
  ((s.dropWhile pySpace).reverse.dropWhile pySpace).reverse

/-- Python `str.lstrip(".")`: remove leading dots. -/
def lstripDots (s : List Char) : List Char := s.dropWhile (· == '.')

/-- Python `str.replace(old, new, 1)` for a non-empty `old`: replace the
leftmost occurrence only. -/
def replFirst (pat rep : List Char) : List Char → List Char
  | [] => []
  | c :: cs =>
    if pat.isPrefixOf (c :: cs) && !pat.isEmpty then
      rep ++ (c :: cs).drop pat.length
    else
      c :: replFirst pat rep cs

/-- Python `str.replace(old, new)` for a non-empty `old`: replace every
occurrence, scanning left to right without rescanning replacements. -/
def replAll (pat rep : List Char) (s : List Char) : List Char :=
  go s.length s
where
  go : Nat → List Char → List Char
  | 0, s => s
  | _ + 1, [] => []
  | fuel + 1, c :: cs =>
    if pat.isPrefixOf (c :: cs) && !pat.isEmpty then
      rep ++ go fuel ((c :: cs).drop pat.length)
    else
      c :: go fuel cs

/-- Python `sep.join(strings)`. -/
def pyJoin (sep : String) : List String → String
  | [] => ""
  | [x] => x
  | x :: xs => x ++ sep ++ pyJoin sep xs

/-- Whether `pat` occurs as a contiguous substring of `s` (Python `in`). -/
def substrOf (pat : List Char) : List Char → Bool
  | [] => pat.isEmpty
  | c :: cs => pat.isPrefixOf (c :: cs) || substrOf pat cs

/-! ## The `re.sub` driver

`reSubF m fuel s` scans `s` from the left; wherever the matcher `m` produces
`some (replacement, rest)` the replacement is emitted and scanning resumes at
`rest` (the text after the match), mirroring a global, leftmost,
non-overlapping `re.sub`.  All matchers used here consume at least one
character when they fire, so `fuel := s.length` is always sufficient. -/

def reSubF (m : List Char → Option (List Char × List Char)) :
    Nat → List Char → List Char
  | 0, s => s
  | _ + 1, [] => []
  | fuel + 1, c :: cs =>
    match m (c :: cs) with
    | some (rep, rest) => rep ++ reSubF m fuel rest
    | none => c :: reSubF m fuel cs

def reSub (m : List Char → Option (List Char × List Char)) (s : List Char) :
    List Char :=
  reSubF m s.length s

/-! ## The matchers of `format_docstring`

One matcher per regular expression of the source, tried at a single position;
each returns the replacement text (capture substitution already performed)
and the text following the match.  Greedy/backtracking behaviour is resolved
statically, as justified in each comment.  -/

/-- `re.sub(r" {1,}\n", r"\n", s)` — trailing spaces before a newline.
` {1,}` is greedy; a shorter run of spaces would have to be followed by `\n`
but is followed by a space, so taking the maximal run is exact. -/
def mTrail (s : List Char) : Option (List Char × List Char) :=
  let spaces := s.takeWhile (· == ' ')
  if spaces.isEmpty then none
  else
    match s.drop spaces.length with
    | '\n' :: rest => some (['\n'], rest)
    | _ => none

/-- `re.sub(r"\n#+\s*(.*)", r"\n**\1**", s)` — hash headings.  `#+` and `\s*`
are greedy and `(.*)` (which cannot match `\n`) always succeeds, so no
backtracking arises.  Note that `\s` also matches newlines. -/
def mHash (s : List Char) : Option (List Char × List Char) :=
  match s with
  | '\n' :: t =>
    if t.head? == some '#' then
      let afterH := t.dropWhile (· == '#')
      let afterW := afterH.dropWhile pySpace
      let cap := afterW.takeWhile (· != '\n')
      some ('\n' :: ('*' :: '*' :: cap ++ ['*', '*']), afterW.drop cap.length)
    else none
  | _ => none

/-- `re.sub(r"\n([A-Za-z ]+)\n-{3,}", r"\n**\1**\n", s)` — dash-underlined
section titles.  The group's class excludes `\n`, so after the maximal run
the following character either is `\n` or no split of the group can succeed;
`-{3,}` greedy consumes the whole dash run. -/
def mDashes (s : List Char) : Option (List Char × List Char) :=
  match s with
  | '\n' :: t =>
    let cap := t.takeWhile azSpace
    if cap.isEmpty then none
    else
      match t.drop cap.length with
      | '\n' :: u =>
        let dashes := u.takeWhile (· == '-')
        if dashes.length ≥ 3 then
          some ('\n' :: ('*' :: '*' :: cap ++ ['*', '*', '\n']), u.drop dashes.length)
        else none
      | _ => none
  | _ => none
where
  azSpace (c : Char) : Bool := azClass c || c == ' '

/-- `re.sub(r"\n([A-Za-z0-9_ ]+)\n {2,}(.*)", r"\n* \`\1\`: \2", s)` —
untyped argument entries.  Same maximal-run justification as for the dash
rule; ` {2,}` greedy then `(.*)` to the end of the line. -/
def mNoType (s : List Char) : Option (List Char × List Char) :=
  match s with
  | '\n' :: t =>
    let cap1 := t.takeWhile wordClass
    if cap1.isEmpty then none
    else
      match t.drop cap1.length with
      | '\n' :: u =>
        let spaces := u.takeWhile (· == ' ')
        if spaces.length ≥ 2 then
          let cap2 := (u.drop spaces.length).takeWhile (· != '\n')
          some ('\n' :: ('*' :: ' ' :: '`' :: cap1 ++ '`' :: ':' :: ' ' :: cap2),
                (u.drop spaces.length).drop cap2.length)
        else none
      | _ => none
  | _ => none

/-- `re.sub(r"\n([A-Za-z0-9_ ]+) : ([A-Za-z0-9_\[\],\.| ]+)\n {2,}(.*)",
r"\n* \`\1\` [\`\2\`]: \3", s)` — typed argument entries.  The first group's
class contains the space but not the colon, so the only split the engine can
accept puts the literal `" : "` at the colon that ends the maximal run, with
the group giving up exactly its last space; both groups exclude `\n`, so no
other backtracking succeeds. -/
def mTyped (s : List Char) : Option (List Char × List Char) :=
  match s with
  | '\n' :: t =>
    let raw := t.takeWhile wordClass
    if raw.length < 2 then none
    else if raw.getLast? != some ' ' then none
    else
      let cap1 := raw.dropLast
      match t.drop raw.length with
      | ':' :: ' ' :: u =>
        let cap2 := u.takeWhile typeClass
        if cap2.isEmpty then none
        else
          match u.drop cap2.length with
          | '\n' :: v =>
            let spaces := v.takeWhile (· == ' ')
            if spaces.length ≥ 2 then
              let cap3 := (v.drop spaces.length).takeWhile (· != '\n')
              some ('\n' :: ('*' :: ' ' :: '`' :: cap1 ++ '`' :: ' ' :: '[' :: '`' :: cap2 ++
                      '`' :: ']' :: ':' :: ' ' :: cap3),
                    (v.drop spaces.length).drop cap3.length)
            else none
          | _ => none
      | _ => none
  | _ => none

/-- `re.sub(r"\n: ([A-Za-z0-9_\[\],\.| ]+)\n {2,}(.*)", r"\n* [\`\1\`]: \2",
s)` — return-value entries. -/
def mRet (s : List Char) : Option (List Char × List Char) :=
  match s with
  | '\n' :: ':' :: ' ' :: t =>
    let cap := t.takeWhile typeClass
    if cap.isEmpty then none
    else
      match t.drop cap.length with
      | '\n' :: u =>
        let spaces := u.takeWhile (· == ' ')
        if spaces.length ≥ 2 then
          let cap2 := (u.drop spaces.length).takeWhile (· != '\n')
          some ('\n' :: ('*' :: ' ' :: '[' :: '`' :: cap ++ '`' :: ']' :: ':' :: ' ' :: cap2),
                (u.drop spaces.length).drop cap2.length)
        else none
      | _ => none
  | _ => none

/-! ## Fenced code block extraction (`format_docstring`, first loop)

The source builds the patterns ``([`]{i}.*?[`]{i})`` for `i = 7, 6, 5, 4, 3`
(`re.DOTALL`), collects the matches of each pattern over the string as it
stood when that pattern's `finditer` was created, and replaces each matched
text, first occurrence only, by `%%%BLOCK<i>` with a running counter. -/

/-- A run of `k` backticks. -/
def ticks (k : Nat) : List Char := List.replicate k '`'

/-- Non-greedy scan for the closing `k`-backtick run: the body is the
shortest prefix after which `k` backticks follow. -/
def scanClose (k : Nat) : Nat → List Char → Option (List Char × List Char)
  | 0, _ => none
  | fuel + 1, s =>
    if (ticks k).isPrefixOf s then some ([], s.drop k)
    else
      match s with
      | [] => none
      | c :: cs =>
        match scanClose k fuel cs with
        | some (body, rest) => some (c :: body, rest)
        | none => none

/-- One attempted match of ``[`]{k}.*?[`]{k}`` at the current position,
returning the full matched text and the remainder. -/
def matchTicks (k : Nat) (s : List Char) : Option (List Char × List Char) :=
  if (ticks k).isPrefixOf s then
    match scanClose k (s.drop k).length.succ (s.drop k) with
    | some (body, rest) => some (ticks k ++ body ++ ticks k, rest)
    | none => none
  else none

/-- `re.finditer` for the backtick pattern: all leftmost, non-overlapping
matched texts in order. -/
def finditerTicks (k : Nat) (s : List Char) : List (List Char) :=
  go s.length s
where
  go : Nat → List Char → List (List Char)
  | 0, _ => []
  | _ + 1, [] => []
  | fuel + 1, c :: cs =>
    match matchTicks k (c :: cs) with
    | some (text, rest) => text :: go fuel rest
    | none => go fuel cs

/-- The placeholder `f"%%%BLOCK{i}"`. -/
def placeholderL (i : Nat) : List Char := ("%%%BLOCK" ++ Nat.repr i).data

/-- Replace each matched text in turn (first occurrence only) by its
numbered placeholder, as the inner loop of the source does. -/
def replaceMatches : List (List Char) → List Char → Nat → List Char × Nat
  | [], s, i => (s, i)
  | m :: ms, s, i => replaceMatches ms (replFirst m (placeholderL i) s) (i + 1)

/-- The whole extraction loop over the five patterns; returns the string with
placeholders, and the recorded blocks in order. -/
def extractBlocks : List Nat → List Char → List (List Char) → Nat →
    List Char × List (List Char)
  | [], s, blocks, _ => (s, blocks)
  | k :: ks, s, blocks, i =>
    let ms := finditerTicks k s
    let (s', i') := replaceMatches ms s i
    extractBlocks ks s' (blocks ++ ms) i'

/-- The restoration loop: `s = s.replace(f"%%%BLOCK{i}", b)` for each
recorded block, in order (every occurrence is replaced). -/
def restoreBlocks : List (List Char) → Nat → List Char → List Char
  | [], _, s => s
  | b :: bs, i, s => restoreBlocks bs (i + 1) (replAll (placeholderL i) b s)

/-! ## `format_docstring` -/

/-- `format_docstring` of `astdocs/astdocs.py`, acting on the text that
`ast.get_docstring(node) or ""` yields (the `Option.getD ""` below): extract
fenced code blocks, apply the six rewrites, restore the blocks, strip. -/
def formatDocstringL (s0 : List Char) : List Char :=
  let (s1, blocks) := extractBlocks [7, 6, 5, 4, 3] s0 [] 0
  let s2 := reSub mTrail s1
  let s3 := reSub mHash s2
  let s4 := reSub mDashes s3
  let s5 := reSub mNoType s4
  let s6 := reSub mTyped s5
  let s7 := reSub mRet s6
  pyStripL (restoreBlocks blocks 0 s7)

/-- String-level wrapper; the argument stands for `ast.get_docstring(node)`. -/
def format_docstring (doc : Option String) : String :=
  ⟨formatDocstringL (doc.getD "").data⟩

/-! ## Expression nodes (`ast` module, the kinds `parse_annotation` inspects)

`PyConst` carries the payload of an `ast.Constant`; `PyConst.other` stands
for any non-`str`/`int`/`bool`/`None` payload and records its Python
`str(...)` text.  `PyExpr.unsupported` stands for every node kind that has no
branch in `parse_annotation` (`ast.Lambda`, `ast.UnaryOp`, ...), and
`PyExpr.noneNode` for Python `None` supplied in place of a node.  A `**`
entry of a dict display has key `noneNode` (the `ast` key is `None`); a `**`
keyword of a call has name `none`.  `ast.Dict` carries two aligned lists
`keys`/`values` (always of equal length) which `parse_annotation` walks with
`zip`; the `dict` constructor carries them already zipped. -/

inductive PyConst where
  | str (s : String)
  | int (n : Int)
  | bool (b : Bool)
  | noneV
  | other (reprText : String)
deriving DecidableEq, Repr

/-- Python `str(value)` for a constant payload (the `else` branch of the
`ast.Constant` case). -/
def constStr : PyConst → String
  | .str s => s
  | .int n => toString n
  | .bool b => if b then "True" else "False"
  | .noneV => "None"
  | .other r => r

inductive PyExpr where
  | attribute (value : PyExpr) (attr : String)
  | binOp (left : PyExpr) (right : PyExpr)
  | call (func : PyExpr) (args : List PyExpr) (keywords : List (Option String × PyExpr))
  | constant (c : PyConst)
  | dict (pairs : List (PyExpr × PyExpr))
  | listE (elts : List PyExpr)
  | name (id : String)
  | subscript (value : PyExpr) (slice : PyExpr)
  | setE (elts : List PyExpr)
  | tuple (elts : List PyExpr)
  | unsupported
  | noneNode

/-- `f"{a_.arg}"` for a keyword argument name (which is `None` for `**`). -/
def kwNameStr : Option String → String
  | some s => s
  | none => "None"

mutual

/-- `parse_annotation` of `astdocs/astdocs.py`: format an annotation
(object type or decorator) with no evaluation; unrecognized nodes (and an
absent node) yield the empty string. -/
def parse_annotation : PyExpr → String
  | .attribute v a => parse_annotation v ++ "." ++ a
  | .binOp l r => parse_annotation l ++ " | " ++ parse_annotation r
  | .call f _ kws => parse_annotation f ++ "(" ++ pyJoin ", " (annKws kws) ++ ")"
  | .constant c =>
    match c with
    | .str s => "\"" ++ s ++ "\""
    | c => constStr c
  | .dict pairs => "\x7b" ++ pyJoin ", " (annPairs pairs) ++ "\x7d"
  | .listE elts => "[" ++ pyJoin ", " (annList elts) ++ "]"
  | .name id => id
  | .subscript v sl =>
    let vs := parse_annotation sl
    let inner :=
      if vs.data.head? == some '(' && vs.data.getLast? == some ')' then
        (⟨(vs.data.drop 1).dropLast⟩ : String)
      else vs
    parse_annotation v ++ "[" ++ inner ++ "]"
  | .setE elts => "\x7b" ++ pyJoin ", " (annList elts) ++ "\x7d"
  | .tuple elts => "(" ++ pyJoin ", " (annList elts) ++ ")"
  | .unsupported => ""
  | .noneNode => ""
termination_by structural e => e

/-- The comprehension over `a.elts`. -/
def annList : List PyExpr → List String
  | [] => []
  | e :: es => parse_annotation e :: annList es
termination_by structural l => l

/-- The comprehension over `zip(a.keys, a.values)`. -/
def annPairs : List (PyExpr × PyExpr) → List String
  | [] => []
  | (k, v) :: kvs =>
    ( parse_annotation k ++ ": " ++ parse_annotation v) :: annPairs kvs
termination_by structural l => l

/-- The comprehension over `a.keywords`. -/
def annKws : List (Option String × PyExpr) → List String
  | [] => []
  | (k, v) :: kws => (kwNameStr k ++ "=" ++ parse_annotation v) :: annKws kws
termination_by structural l => l

end

/-! ## Statement nodes and registries -/

/-- An `ast.arg`: name plus optional annotation (the `ast` field is called
`annotation`; abbreviated here). -/
structure PyArg where
  arg : String
  annot : Option PyExpr

/-- The `ast.arguments` of a function definition. -/
structure PyArguments where
  args : List PyArg
  defaults : List PyExpr
  vararg : Option String
  kwonlyargs : List PyArg
  kw_defaults : List (Option PyExpr)
  kwarg : Option String

/-- The fields of an `ast.FunctionDef` / `ast.AsyncFunctionDef` that
`parse_function` consumes (the two kinds are handled identically);
`docstring` stands for `ast.get_docstring(node)`. -/
structure PyFunc where
  name : String
  args : PyArguments
  returns : Option PyExpr
  decorator_list : List PyExpr
  docstring : Option String
  lineno : Nat
  end_lineno : Nat

/-- Body statements, as far as `parse` distinguishes them.  `exprOther`
covers every statement kind with no registered handler and no `.name`
attribute (so the recursive `parse` call raises `AttributeError` and the
node's children are skipped). -/
inductive PyStmt where
  | classdef (name : String) (decorator_list : List PyExpr) (docstring : Option String)
      (lineno end_lineno : Nat) (body : List PyStmt)
  | funcdef (fn : PyFunc) (body : List PyStmt)
  | importE (names : List (String × Option String))
  | importFrom (module : Option String) (level : Nat) (names : List (String × Option String))
  | exprOther

/-- An `ast.Module`: the result of `ast.parse` on a source file. -/
structure PyModule where
  docstring : Option String
  body : List PyStmt

/-- A Python `dict[str, α]`, with its insertion order. -/
abbrev Reg (α : Type) := List (String × α)

def regGet {α : Type} (r : Reg α) (k : String) : Option α :=
  (r.find? (·.1 == k)).map (·.2)

/-- `d[k] = v`: overwrite in place, or append. -/
def regSet {α : Type} (r : Reg α) (k : String) (v : α) : Reg α :=
  if (r.find? (·.1 == k)).isSome then
    r.map (fun p => if p.1 == k then (k, v) else p)
  else r ++ [(k, v)]

/-- `d.pop(k)`'s effect on the mapping. -/
def regPop {α : Type} (r : Reg α) (k : String) : Reg α :=
  r.eraseP (·.1 == k)

def regKeys {α : Type} (r : Reg α) : List String := r.map (·.1)

/-- The value dictionaries of the `functions` registry. -/
structure FuncInfo where
  ancestry : String
  params : String
  decoration : String
  endlineno : String
  funcdocs : String
  funcname : String
  hashtags : String
  lineno : String
  output : String
  path : String
deriving DecidableEq, Repr

/-- The value dictionaries of the `classes` registry (fields after `lineno`
are filled in by `render_class`). -/
structure ClassInfo where
  ancestry : String
  classname : String
  classdocs : String
  decoration : String
  endlineno : String
  hashtags : String
  lineno : String
  params : String
  constdocs : String
  functions : String
  funcnames : String
  path : String
deriving DecidableEq, Repr

/-- One module's entry of the global `objects` index. -/
structure ObjEntry where
  classes : Reg String
  functions : Reg String
  imports : Reg String
deriving DecidableEq, Repr

abbrev Objects := Reg ObjEntry

def objEmpty : ObjEntry := ⟨[], [], []⟩

def objSetClass (o : Objects) (m lp ap : String) : Objects :=
  match regGet o m with
  | some e => regSet o m ⟨regSet e.classes lp ap, e.functions, e.imports⟩
  | none => o

def objSetFunc (o : Objects) (m lp ap : String) : Objects :=
  match regGet o m with
  | some e => regSet o m ⟨e.classes, regSet e.functions lp ap, e.imports⟩
  | none => o

def objSetImport (o : Objects) (m lp ap : String) : Objects :=
  match regGet o m with
  | some e => regSet o m ⟨e.classes, e.functions, regSet e.imports lp ap⟩
  | none => o

/-- The configuration dictionary (environment handling aside). -/
structure Config where
  bound_objects : Bool
  fold_args_after : Nat
  show_private : Bool
  split_by : String
  with_linenos : Bool
deriving DecidableEq, Repr

/-- The module-level defaults of `config`. -/
def config : Config := ⟨false, 88, false, "", false⟩

/-! ## Small string helpers used by the parsers/renderers -/

/-- `s.split(".")[-1]`. -/
def lastSegment (s : String) : String :=
  ⟨(s.data.reverse.takeWhile (· != '.')).reverse⟩

/-- `s.split("/")[-1]` (and `s.rsplit("/", 1)[-1]`). -/
def lastSlashComp (s : String) : String :=
  ⟨(s.data.reverse.takeWhile (· != '/')).reverse⟩

/-- `s.split("\n")[0]`. -/
def firstLine (s : String) : String := ⟨s.data.takeWhile (· != '\n')⟩

/-- `s.count(".")`. -/
def countDot (s : String) : Nat := s.data.count '.'

/-- `s.replace(".", "").lower()` — the GitHub anchor of a qualified name. -/
def anchorOf (s : String) : String :=
  ⟨(s.data.filter (· != '.')).map Char.toLower⟩

/-- `ap.replace(module, "", 1).lstrip(".")` — the local path of an object. -/
def localPath (module ap : String) : String :=
  ⟨lstripDots (replFirst module.data [] ap.data)⟩

/-- `re.sub(r"self[\s,]*", "", params, 1)`: delete the first occurrence of
`self` together with the following run of whitespace/commas. -/
def subSelfOnce : List Char → List Char
  | [] => []
  | c :: cs =>
    if "self".data.isPrefixOf (c :: cs) then
      ((c :: cs).drop 4).dropWhile (fun c => pySpace c || c == ',')
    else c :: subSelfOnce cs

def pyStrip (s : String) : String := ⟨pyStripL s.data⟩

/-! ## The per-kind parsers -/

/-- `parse_class`: record one `class` statement.  Returns the updated
`classes` registry and `objects` index. -/
def parse_class (name : String) (decorator_list : List PyExpr)
    (docstring : Option String) (lineno end_lineno : Nat)
    (module ancestry : String) (classes : Reg ClassInfo) (objects : Objects)
    (cfg : Config) : Reg ClassInfo × Objects :=
  let ap := ancestry ++ "." ++ name
  let lp := localPath module ap
  let objects := objSetClass objects module lp ap
  let dc := decorator_list.map (fun d => "`@" ++ parse_annotation d ++ "`")
  let info : ClassInfo :=
    ⟨ancestry, name, format_docstring docstring,
     (if dc.isEmpty then "" else "**Decoration** via " ++ pyJoin ", " dc ++ "."),
     toString end_lineno,
     (if cfg.split_by.data.contains 'c' then "#" else "###"),
     toString lineno, "", "", "", "", ""⟩
  (regSet classes ap info, objects)

/-- ` -> {parse_annotation(node.returns)}` or the empty string. -/
def outputStr (fn : PyFunc) : String :=
  match fn.returns with
  | some r => " -> " ++ parse_annotation r
  | none => ""

/-- `itertools.zip_longest` with `None` fill. -/
def zipLongest {α β : Type} : List α → List β → List (Option α × Option β)
  | [], bs => bs.map (fun b => (none, some b))
  | a :: as, [] => (some a, none) :: zipLongest as []
  | a :: as, b :: bs => (some a, some b) :: zipLongest as bs

/-- `list(itertools.zip_longest(xs[::-1], ds[::-1]))[::-1]` — align default
values with the last arguments. -/
def alignRev {α β : Type} (xs : List α) (ds : List β) : List (Option α × Option β) :=
  (zipLongest xs.reverse ds.reverse).reverse

/-- `_parse_format_argument(ann, val)`.  A `none` argument cannot arise from
parser-produced trees (Python would raise there); it maps to the empty
string. -/
def pfArg (a : Option PyArg) (val : Option PyExpr) : String :=
  match a with
  | none => ""
  | some a =>
    a.arg
    ++ (match a.annot with
        | some t => ": " ++ parse_annotation t
        | none => "")
    ++ (match val with
        | some v => " = " ++ parse_annotation v
        | none => "")

/-- The `params` list assembled by `parse_function`: positional arguments
with aligned defaults, `*args`, keyword-only arguments with aligned
defaults, `**kwargs`. -/
def paramStrings (fn : PyFunc) : List String :=
  ((alignRev fn.args.args fn.args.defaults).map (fun p => pfArg p.1 p.2))
  ++ (match fn.args.vararg with
      | some v => ["*" ++ v]
      | none => [])
  ++ ((alignRev fn.args.kwonlyargs fn.args.kw_defaults).map
        (fun p => pfArg p.1 p.2.join))
  ++ (match fn.args.kwarg with
      | some k => ["**" ++ k]
      | none => [])

/-- The single-line pre-render whose length is measured against
`fold_args_after`. -/
def unfoldedRender (fn : PyFunc) : String :=
  fn.name ++ "(" ++ pyJoin ", " (paramStrings fn) ++ ")" ++ outputStr fn

/-- The `params` field stored by `parse_function`: folded (one parameter per
line, trailing comma) when the pre-render exceeds the threshold, single-line
otherwise. -/
def paramsField (fn : PyFunc) (cfg : Config) : String :=
  let ps := paramStrings fn
  if (unfoldedRender fn).length > cfg.fold_args_after then
    pyJoin "," (ps.map (fun p => "\n    " ++ p)) ++ ",\n"
  else
    pyJoin ", " ps

/-- `parse_function`: record one `def` statement. -/
def parse_function (fn : PyFunc) (module ancestry : String)
    (functions : Reg FuncInfo) (objects : Objects) (cfg : Config) :
    Reg FuncInfo × Objects :=
  let ap := ancestry ++ "." ++ fn.name
  let lp := localPath module ap
  let objects := objSetFunc objects module lp ap
  let dc := fn.decorator_list.map (fun d => "`@" ++ parse_annotation d ++ "`")
  let info : FuncInfo :=
    ⟨ancestry, paramsField fn cfg,
     (if dc.isEmpty then "" else "**Decoration** via " ++ pyJoin ", " dc ++ "."),
     toString fn.end_lineno, format_docstring fn.docstring, fn.name,
     (if cfg.split_by.data.contains 'f' then "#" else "###"),
     toString fn.lineno, outputStr fn, ""⟩
  (regSet functions ap info, objects)

/-- `parse_import`: record import statements in the `objects` index (the
`imports` dictionary itself is returned untouched, as in the source). -/
def parse_import (st : PyStmt) (module ancestry : String)
    (imports : Reg String) (objects : Objects) : Reg String × Objects :=
  match st with
  | .importE names =>
    (imports,
     names.foldl (fun os p =>
       objSetImport os module (p.2.getD p.1) (ancestry ++ "." ++ p.1)) objects)
  | .importFrom m level names =>
    let mdot := match m with
      | some mm => mm ++ "."
      | none => ""
    let v := if level > 0 then level + 1 else 0
    (imports,
     names.foldl (fun os p =>
       objSetImport os module (p.2.getD p.1)
         (ancestry ++ "." ++ ⟨List.replicate v '.'⟩ ++ mdot ++ p.1)) objects)
  | _ => (imports, objects)

mutual

/-- `parse`: depth-first traversal of the statement list, dispatching on the
node kind and recursing into `class`/`def` bodies with an extended ancestry
(other nodes have no `.name`, so the recursive call is skipped).
`parseStmt` is the body of the `for` loop, for a single statement. -/
def parse : List PyStmt → String → String → Reg ClassInfo → Reg FuncInfo →
    Reg String → Objects → Config →
    Reg ClassInfo × Reg FuncInfo × Reg String × Objects
  | [], _, _, cs, fs, is, os, _ => (cs, fs, is, os)
  | n :: rest, module, ancestry, cs, fs, is, os, cfg =>
    let next := parseStmt n module ancestry cs fs is os cfg
    parse rest module ancestry next.1 next.2.1 next.2.2.1 next.2.2.2 cfg

def parseStmt : PyStmt → String → String → Reg ClassInfo → Reg FuncInfo →
    Reg String → Objects → Config →
    Reg ClassInfo × Reg FuncInfo × Reg String × Objects
  | .classdef name decs doc l el body, module, ancestry, cs, fs, is, os, cfg =>
    match parse_class name decs doc l el module ancestry cs os cfg with
    | (cs, os) => parse body module (ancestry ++ "." ++ name) cs fs is os cfg
  | .funcdef fn body, module, ancestry, cs, fs, is, os, cfg =>
    match parse_function fn module ancestry fs os cfg with
    | (fs, os) => parse body module (ancestry ++ "." ++ fn.name) cs fs is os cfg
  | n@(.importE _), module, ancestry, cs, fs, is, os, _ =>
    match parse_import n module ancestry is os with
    | (is, os) => (cs, fs, is, os)
  | n@(.importFrom _ _ _), module, ancestry, cs, fs, is, os, _ =>
    match parse_import n module ancestry is os with
    | (is, os) => (cs, fs, is, os)
  | .exprOther, _, _, cs, fs, is, os, _ => (cs, fs, is, os)

end

/-! ## Templates

`_update_templates` rewrites the module-level template strings according to
the configuration; each `tpl*` function below produces the substituted text
of the corresponding template as it stands after a first `_update_templates`
call on the pristine module-level value: the `%%%START`/`%%%END` lines are
kept only under `bound_objects`, a `%%%BEGIN` line is prepended under the
matching `split_by` letter, the `%%%SOURCE` line is kept only under
`with_linenos`. -/

def tplFunctiondef (cfg : Config) (e : FuncInfo) : String :=
  let qn := e.ancestry ++ "." ++ e.funcname
  (if cfg.split_by.data.contains 'f' then "%%%BEGIN FUNCTIONDEF " ++ qn else "")
  ++ (if cfg.bound_objects then "\n%%%START FUNCTIONDEF " ++ qn else "")
  ++ "\n" ++ e.hashtags ++ " `" ++ qn ++ "`"
  ++ "\n\n```python\n" ++ e.funcname ++ "(" ++ e.params ++ ")" ++ e.output ++ ":\n```"
  ++ "\n\n" ++ e.funcdocs ++ "\n\n" ++ e.decoration
  ++ (if cfg.with_linenos then
        "\n\n%%%SOURCE " ++ e.path ++ ":" ++ e.lineno ++ ":" ++ e.endlineno
      else "")
  ++ (if cfg.bound_objects then "\n%%%END FUNCTIONDEF " ++ qn else "")

def tplClassdef (cfg : Config) (e : ClassInfo) : String :=
  let qn := e.ancestry ++ "." ++ e.classname
  (if cfg.split_by.data.contains 'c' then "%%%BEGIN CLASSDEF " ++ qn else "")
  ++ (if cfg.bound_objects then "\n%%%START CLASSDEF " ++ qn else "")
  ++ "\n" ++ e.hashtags ++ " `" ++ qn ++ "`"
  ++ "\n\n" ++ e.classdocs ++ "\n\n" ++ e.decoration ++ "\n\n" ++ e.funcnames ++ "\n"
  ++ (if cfg.with_linenos then
        "\n%%%SOURCE " ++ e.path ++ ":" ++ e.lineno ++ ":" ++ e.endlineno ++ "\n"
      else "")
  ++ "\n" ++ e.hashtags ++ "# Constructor"
  ++ "\n\n```python\n" ++ e.classname ++ "(" ++ e.params ++ ")\n```"
  ++ "\n\n" ++ e.constdocs ++ "\n\n" ++ e.functions
  ++ (if cfg.bound_objects then "\n%%%END CLASSDEF " ++ qn else "")

def tplModule (cfg : Config) (module docstring funcnames classnames : String) :
    String :=
  (if cfg.split_by.data.contains 'm' then "%%%BEGIN MODULE " ++ module else "")
  ++ (if cfg.bound_objects then "\n%%%START MODULE " ++ module else "")
  ++ "\n# Module `" ++ module ++ "`"
  ++ "\n\n" ++ docstring ++ "\n\n" ++ funcnames ++ "\n\n" ++ classnames
  ++ (if cfg.bound_objects then "\n%%%END MODULE " ++ module else "")

/-! ## The renderers -/

/-- `render_function`: set `path` and substitute the function template. -/
def render_function (filepath name : String) (functions : Reg FuncInfo)
    (cfg : Config) : String × Reg FuncInfo :=
  match regGet functions name with
  | some e =>
    let e' : FuncInfo :=
      ⟨e.ancestry, e.params, e.decoration, e.endlineno, e.funcdocs, e.funcname,
       e.hashtags, e.lineno, e.output, filepath⟩
    (pyStrip (tplFunctiondef cfg e'), regSet functions name e')
  | none => ("", functions)

/-- The method keys of a class: the function-registry keys that start with
`f"{name}."`. -/
def classMethodKeys (name : String) (functions : Reg FuncInfo) : List String :=
  (regKeys functions).filter (fun f => (name ++ ".").data.isPrefixOf f.data)

/-- The visibility filter shared by the renderers: keep a key unless its
last path segment starts with an underscore and `show_private` is off. -/
def visibleKeys (cfg : Config) (keys : List String) : List String :=
  keys.filter (fun f => !((lastSegment f).data.head? == some '_') || cfg.show_private)

/-- The bullet-list entry for one method/function key. -/
def funcBullet (functions : Reg FuncInfo) (f : String) : String :=
  let n := lastSegment f
  let desc := firstLine (match regGet functions f with
    | some e => e.funcdocs
    | none => "")
  "* [`" ++ n ++ "()`](#" ++ anchorOf f ++ ")"
  ++ (if desc.data.isEmpty then "" else ": " ++ desc)

/-- The bullet-list entry for one class key. -/
def classBullet (classes : Reg ClassInfo) (c : String) : String :=
  let n := lastSegment c
  let desc := firstLine (match regGet classes c with
    | some e => e.classdocs
    | none => "")
  "* [`" ++ n ++ "`](#" ++ anchorOf c ++ ")"
  ++ (if desc.data.isEmpty then "" else ": " ++ desc)

/-- The constructor parameter string: `self` (with trailing
whitespace/commas) stripped from the `__init__` parameters, then `strip`. -/
def constructorParams (d : FuncInfo) : String :=
  pyStrip ⟨subSelfOnce d.params.data⟩

/-- The constructor docstring: the `__init__` docstring, plus a `%%%SOURCE`
marker under `with_linenos`. -/
def constructorDocs (filepath : String) (cfg : Config) (d : FuncInfo) : String :=
  d.funcdocs
  ++ (if cfg.with_linenos then
        "\n\n%%%SOURCE " ++ filepath ++ ":" ++ d.lineno ++ ":" ++ d.endlineno
      else "")

/-- The first loop of `render_class` over the selected methods: set the
deeper heading level, strip `self`, render each with `render_function`. -/
def renderMethods (filepath ht : String) (cfg : Config) (sel : List String)
    (functions : Reg FuncInfo) : List String × Reg FuncInfo :=
  match sel with
  | [] => ([], functions)
  | f :: rest =>
    match regGet functions f with
    | some e =>
      let e' : FuncInfo :=
        ⟨e.ancestry, pyStrip ⟨subSelfOnce e.params.data⟩, e.decoration,
         e.endlineno, e.funcdocs, e.funcname, ht ++ "##", e.lineno, e.output,
         e.path⟩
      let fns := regSet functions f e'
      let (s, fns) := render_function filepath f fns cfg
      let (ms, fns) := renderMethods filepath ht cfg rest fns
      (s :: ms, fns)
    | none => renderMethods filepath ht cfg rest functions

/-- `render_class`: pull out `__init__` for the constructor section, render
the remaining visible methods one level deeper with their `self` stripped,
build the methods bullet list, substitute the class template.  Returns the
rendered text and the updated registries. -/
def render_class (filepath name : String) (classes : Reg ClassInfo)
    (functions : Reg FuncInfo) (cfg : Config) :
    String × Reg ClassInfo × Reg FuncInfo :=
  match regGet classes name with
  | none => ("", classes, functions)
  | some cinfo =>
    let ht := cinfo.hashtags
    let fs := classMethodKeys name functions
    let initKey := name ++ ".__init__"
    let hasInit := fs.contains initKey
    let fs := if hasInit then fs.erase initKey else fs
    let init? := if hasInit then regGet functions initKey else none
    let params := match init? with
      | some d => constructorParams d
      | none => ""
    let constdocs := match init? with
      | some d => constructorDocs filepath cfg d
      | none => ""
    let functions := if hasInit then regPop functions initKey else functions
    let sel := visibleKeys cfg fs
    let (fsr, functions) := renderMethods filepath ht cfg sel functions
    let fsl := sel.map (funcBullet functions)
    let cinfo' : ClassInfo :=
      ⟨cinfo.ancestry, cinfo.classname, cinfo.classdocs, cinfo.decoration,
       cinfo.endlineno, cinfo.hashtags, cinfo.lineno, params, constdocs,
       (if fsr.isEmpty then "" else ht ++ "# Methods\n\n" ++ pyJoin "\n\n" fsr),
       (if fsl.isEmpty then "" else "**Methods**\n\n" ++ pyJoin "\n" fsl),
       filepath⟩
    let classes := regSet classes name cinfo'
    (pyStrip (tplClassdef cfg cinfo'), classes, functions)

/-- The keys one path segment below `name` (`f.count(".") == name.count(".")
+ 1`). -/
def rootKeys (name : String) (keys : List String) : List String :=
  keys.filter (fun f => countDot f == countDot name + 1)

/-- `render_module`: the module summary with its two bullet lists. -/
def render_module (name docstring : String) (classes : Reg ClassInfo)
    (functions : Reg FuncInfo) (cfg : Config) : String :=
  let fs := (visibleKeys cfg (rootKeys name (regKeys functions))).map
    (funcBullet functions)
  let cs := (visibleKeys cfg (rootKeys name (regKeys classes))).map
    (classBullet classes)
  let funcnames :=
    if cfg.split_by.data.contains 'f' then ""
    else if fs.isEmpty then ""
    else "**Functions**\n\n" ++ pyJoin "\n" fs
  let classnames :=
    if cfg.split_by.data.contains 'c' then ""
    else if cs.isEmpty then ""
    else "**Classes**\n\n" ++ pyJoin "\n" cs
  pyStrip (tplModule cfg name docstring funcnames classnames)

/-- `re.sub(r"\n{3,}", "\n\n", s)`: a run of three or more newlines becomes
two (greedy, so the whole maximal run is consumed). -/
def mNL3 (s : List Char) : Option (List Char × List Char) :=
  let run := s.takeWhile (· == '\n')
  if run.length ≥ 3 then some (['\n', '\n'], s.drop run.length) else none

/-- One attempted match of `re.sub(r"\n{2,}%%%(^SOURCE[A-Z]*)", r"\n%%%\1",
s)` at absolute position `pos`.  The group's `^` (no `re.MULTILINE`) asserts
the start of the whole string, but the engine stands at
`pos + (newlines consumed) + 3 ≥ 5` there — for the greedy take below and
for every shorter backtrack of `\n{2,}` alike — so the branch below it is
unreachable (proved later). -/
def mMarker (pos : Nat) (s : List Char) : Option (List Char × List Char) :=
  let nls := s.takeWhile (· == '\n')
  if nls.length ≥ 2 && "%%%".data.isPrefixOf (s.drop nls.length) then
    if pos + nls.length + 3 == 0 then
      let rest := s.drop (nls.length + 3)
      if "SOURCE".data.isPrefixOf rest then
        let caps := (rest.drop 6).takeWhile (fun c => 'A' ≤ c && c ≤ 'Z')
        some ('\n' :: '%' :: '%' :: '%' :: ("SOURCE".data ++ caps),
              (rest.drop 6).drop caps.length)
      else none
    else none
  else none

/-- The position-tracking substitution driver for `mMarker`. -/
def collapseMarkersF : Nat → Nat → List Char → List Char
  | 0, _, s => s
  | _ + 1, _, [] => []
  | fuel + 1, pos, c :: cs =>
    match mMarker pos (c :: cs) with
    | some (rep, rest) =>
      rep ++ collapseMarkersF fuel (pos + ((c :: cs).length - rest.length)) rest
    | none => c :: collapseMarkersF fuel (pos + 1) cs

def collapseMarkers (s : List Char) : List Char := collapseMarkersF s.length 0 s

/-- `render`: the whole pipeline.  `tree` stands for the `ast.parse` result
on whichever source text the branch taken would parse (the file's content,
or `code`); `cwd` stands for `os.getcwd()`.  Returns the rendered text and
the updated `objects` index. -/
def render (filepath remove_from_path code module : String) (tree : PyModule)
    (cwd : String) (cfg : Config) (objects : Objects) : String × Objects :=
  if filepath.length > 0 then
    let filepath :=
      if remove_from_path.length > 0 then
        (⟨replAll remove_from_path.data [] filepath.data⟩ : String)
      else filepath
    let dotted : String := ⟨filepath.data.map (fun c => if c == '/' then '.' else c)⟩
    let m1 : String :=
      if ".py".data.isSuffixOf dotted.data then ⟨dotted.data.dropLast.dropLast.dropLast⟩
      else dotted
    let m2 : String := ⟨lstripDots m1.data⟩
    let m3 : String := ⟨replAll ".__init__".data [] m2.data⟩
    let module := if m3.length > 0 then m3 else lastSlashComp cwd
    renderCore filepath module tree cfg objects
  else if code.length > 0 && module.length > 0 then
    renderCore (module ++ ".py") module tree cfg objects
  else
    ("Nothing to do.", objects)
where
  renderCore (filepath module : String) (tree : PyModule) (cfg : Config)
      (objects : Objects) : String × Objects :=
    let objects := regSet objects module objEmpty
    let parsed := parse tree.body module module [] [] [] objects cfg
    let classes := parsed.1
    let functions := parsed.2.1
    let objects := parsed.2.2.2
    let rootFuncs := visibleKeys cfg (rootKeys module (regKeys functions))
    let (fs, functions) := rootFuncs.foldl (fun acc f =>
      let (s, fns) := render_function filepath f acc.2 cfg
      (acc.1 ++ [s], fns)) (([] : List String), functions)
    let rootClasses := visibleKeys cfg (rootKeys module (regKeys classes))
    let step := rootClasses.foldl (fun acc c =>
      let (s, cls, fns) := render_class filepath c acc.2.1 acc.2.2 cfg
      (acc.1 ++ [s], cls, fns)) (([] : List String), classes, functions)
    let cs := step.1
    let classes := step.2.1
    let functions := step.2.2
    let subFunctions :=
      (if !cfg.split_by.data.contains 'f' && !fs.isEmpty then "## Functions" else "")
      ++ "\n\n" ++ (if fs.isEmpty then "" else pyJoin "\n\n" fs)
    let subClasses :=
      (if !cfg.split_by.data.contains 'c' && !cs.isEmpty then "## Classes" else "")
      ++ "\n\n" ++ (if cs.isEmpty then "" else pyJoin "\n\n" cs)
    let moduleStr :=
      render_module module (format_docstring tree.docstring) classes functions cfg
    let s := pyStrip (moduleStr ++ "\n\n" ++ subFunctions ++ "\n\n" ++ subClasses)
    let s : String := ⟨collapseMarkers (reSub mNL3 s.data)⟩
    (s, objects)

/-- Python string comparison (`sorted`), code point by code point. -/
def pyStrLeB : List Char → List Char → Bool
  | [], _ => true
  | _ :: _, [] => false
  | a :: as, b :: bs => if a == b then pyStrLeB as bs else decide (a < b)

def sortInsert (x : String × PyModule) :
    List (String × PyModule) → List (String × PyModule)
  | [] => [x]
  | y :: ys => if pyStrLeB x.1.data y.1.data then x :: y :: ys else y :: sortInsert x ys

/-- `sorted(...)` over file paths. -/
def sortFiles : List (String × PyModule) → List (String × PyModule)
  | [] => []
  | x :: xs => sortInsert x (sortFiles xs)

/-- The selection test of `render_recursively`: skip underscore-prefixed
basenames unless `show_private` or the file is exactly `__init__.py`. -/
def recurseKeep (cfg : Config) (filepath : String) : Bool :=
  let name := lastSlashComp filepath
  !(name.data.head? == some '_') || cfg.show_private || name == "__init__.py"

/-- The rendering loop of `render_recursively`: one `render` call per
selected file, in order, threading the `objects` index. -/
def renderEach (remove_from_path cwd : String) (cfg : Config) :
    List (String × PyModule) → Objects → List String × Objects
  | [], os => ([], os)
  | fp :: rest, os =>
    let (s, os) := render fp.1 remove_from_path "" "" fp.2 cwd cfg os
    let (ms, os) := renderEach remove_from_path cwd cfg rest os
    (s :: ms, os)

/-- `render_recursively`: render every selected module in sorted path order
and join with blank lines.  `files` stands for the
`glob.glob(f"{path}/**/*.py", recursive=True)` result, each path paired with
the `ast.parse` of that file's content. -/
def render_recursively (files : List (String × PyModule))
    (remove_from_path cwd : String) (cfg : Config) (objects : Objects) :
    String × Objects :=
  let sel := (sortFiles files).filter (fun fp => recurseKeep cfg fp.1)
  let step := renderEach remove_from_path cwd cfg sel objects
  ((⟨collapseMarkers (pyJoin "\n\n" step.1).data⟩ : String), step.2)

/-! ## Concrete inputs used in the theorems below -/

/-- A docstring holding eleven fenced code blocks (more than ten placeholders
`%%%BLOCK0` … `%%%BLOCK10`). -/
def elevenBlocksDoc : String :=
  "```a``` . ```b``` . ```c``` . ```d``` . ```e``` . ```f``` . ```g``` . " ++
  "```h``` . ```i``` . ```j``` . ```k```"

/-- What `format_docstring` actually produces on `elevenBlocksDoc`: restoring
`%%%BLOCK1` also rewrites the prefix of `%%%BLOCK10`, so the eleventh block
comes out as the second block followed by a stray `0`. -/
def elevenBlocksOut : String :=
  "```a``` . ```b``` . ```c``` . ```d``` . ```e``` . ```f``` . ```g``` . " ++
  "```h``` . ```i``` . ```j``` . ```b```0"

/-- `ast.parse("def f():\n    pass\n")`. -/
def oneFuncTree : PyModule :=
  PyModule.mk none
    [PyStmt.funcdef (PyFunc.mk "f" (PyArguments.mk [] [] none [] [] none)
      none [] none 1 2) [PyStmt.exprOther]]

/-- The default configuration with `with_linenos` switched on. -/
def cfgLinenos : Config := Config.mk false 88 false "" true

/-- The `render` output for `oneFuncTree` under `cfgLinenos`: the blank line
before `%%%SOURCE` survives. -/
def oneFuncOut : String :=
  "# Module `m`\n\n**Functions**\n\n* [`f()`](#mf)\n\n## Functions\n\n" ++
  "### `m.f`\n\n```python\nf():\n```\n\n%%%SOURCE m.py:1:2"

/-- Spec-side description of the newline cleanup, following the words of the
specification: every maximal run of three or more newline characters becomes
exactly two (one blank line); shorter runs are untouched. -/
def collapseNewlinesSpec (s : List Char) : List Char :=
  go s 0
where
  emit (n : Nat) : List Char :=
    if n ≥ 3 then ['\n', '\n'] else List.replicate n '\n'
  /-- Scan with a pending count of newlines just read. -/
  go : List Char → Nat → List Char
  | [], n => emit n
  | c :: cs, n =>
    if c = '\n' then go cs (n + 1)
    else emit n ++ c :: go cs 0

/-- Whether three consecutive newlines occur anywhere in the text. -/
def hasTripleNL : List Char → Bool
  | [] => false
  | c :: cs => (c == '\n' && cs.take 2 == ['\n', '\n']) || hasTripleNL cs

/-- A concrete class entry for exercising `render_class`. -/
def c3CInfo : ClassInfo :=
  ⟨"m", "C", "A class.", "", "12", "#", "10", "", "", "", "", ""⟩

/-- Its concrete `__init__` entry. -/
def c3Init : FuncInfo :=
  ⟨"m.C", "self, x: int", "", "16", "Init doc.", "__init__", "##", "14", "", ""⟩

/-- A one-class registry: class `m.C`. -/
def c3Classes : Reg ClassInfo := [("m.C", c3CInfo)]

/-- Its method registry: `__init__` and `go`. -/
def c3Functions : Reg FuncInfo :=
  [("m.C.__init__", c3Init),
   ("m.C.go",
    ⟨"m.C", "self", "", "20", "Go doc.", "go", "##", "18", "", ""⟩)]

/-! ## A model of `ast.parse` on annotation expressions

`parse_annotation` claims idempotence through a round trip over CPython's
parser.  The parser is external machinery, so the fragment of Python's
expression grammar that `parse_annotation` can emit is modelled here: bitwise
`|` chains over postfix expressions (attribute access, calls with keyword
arguments, subscripts) over atoms (identifiers, `True`/`False`/`None`,
nonnegative integer literals, double-quoted strings without escapes, list /
set / dict / tuple displays, parenthesised expressions).  Whitespace is fixed
to the canonical shapes the formatter prints (`", "`, `" | "`, `": "`).
The functions are fuelled; `pyParseExpr` supplies ample fuel. -/

def isIdentStart (c : Char) : Bool := c.isAlpha || c == '_'

def isIdentChar (c : Char) : Bool := c.isAlphanum || c == '_'

/-- Python's keywords: not usable as identifiers. -/
def kwList : List String :=
  ["False", "None", "True", "and", "as", "assert", "async", "await", "break",
   "class", "continue", "def", "del", "elif", "else", "except", "finally",
   "for", "from", "global", "if", "import", "in", "is", "lambda", "nonlocal",
   "not", "or", "pass", "raise", "return", "try", "while", "with", "yield"]

/-- One identifier token (rejecting keywords). -/
def parseIdent (s : List Char) : Option (String × List Char) :=
  match s with
  | c :: _ =>
    if isIdentStart c then
      let tk := s.takeWhile isIdentChar
      if kwList.contains (⟨tk⟩ : String) then none
      else some ((⟨tk⟩ : String), s.drop tk.length)
    else none
  | [] => none

/-- Decimal value of a digit run. -/
def digitsVal (l : List Char) : Nat :=
  l.foldl (fun a c => 10 * a + (c.toNat - 48)) 0

mutual

/-- A `|` chain (Python `BinOp` with `BitOr`), left-associative. -/
def parseBor : Nat → List Char → Option (PyExpr × List Char)
  | 0, _ => none
  | f + 1, s =>
    match parsePost f s with
    | none => none
    | some (e, rest) => parseBorTail f e rest

def parseBorTail : Nat → PyExpr → List Char → Option (PyExpr × List Char)
  | 0, _, _ => none
  | f + 1, e, s =>
    if s.take 3 = [' ', '|', ' '] then
      match parsePost f (s.drop 3) with
      | none => none
      | some (e2, rest) => parseBorTail f (.binOp e e2) rest
    else some (e, s)

/-- An atom followed by its trailers. -/
def parsePost : Nat → List Char → Option (PyExpr × List Char)
  | 0, _ => none
  | f + 1, s =>
    match parseAtom f s with
    | none => none
    | some (a, rest) => parseTrailers f a rest

/-- `.attr`, `(...)` (keyword arguments only) and `[...]` trailers. -/
def parseTrailers : Nat → PyExpr → List Char → Option (PyExpr × List Char)
  | 0, _, _ => none
  | f + 1, a, s =>
    match s with
    | [] => some (a, [])
    | c :: rest =>
      if c = '.' then
        match parseIdent rest with
        | none => none
        | some (id, rest2) => parseTrailers f (.attribute a id) rest2
      else if c = '(' then
        match rest with
        | [] => none
        | c2 :: rest2 =>
          if c2 = ')' then parseTrailers f (.call a [] []) rest2
          else
            match parseKwList f rest with
            | none => none
            | some (kws, rest3) =>
              match rest3 with
              | ')' :: rest4 => parseTrailers f (.call a [] kws) rest4
              | _ => none
      else if c = '[' then
        match parseExprList f rest with
        | none => none
        | some (es, rest2) =>
          match rest2 with
          | ']' :: rest3 =>
            (match es with
             | [e] => parseTrailers f (.subscript a e) rest3
             | _ => parseTrailers f (.subscript a (.tuple es)) rest3)
          | _ => none
      else some (a, c :: rest)

def parseAtom : Nat → List Char → Option (PyExpr × List Char)
  | 0, _ => none
  | f + 1, s =>
    match s with
    | [] => none
    | c :: rest =>
      if c = '"' then
        let tk := rest.takeWhile (· != '"')
        match rest.drop tk.length with
        | '"' :: rest2 => some (.constant (.str (⟨tk⟩ : String)), rest2)
        | _ => none
      else if c = '[' then
        match rest with
        | [] => none
        | c2 :: rest2 =>
          if c2 = ']' then some (.listE [], rest2)
          else
            match parseExprList f rest with
            | some (es, ']' :: rest3) => some (.listE es, rest3)
            | _ => none
      else if c = '{' then
        match rest with
        | [] => none
        | c2 :: rest2 =>
          if c2 = '}' then some (.dict [], rest2)
          else
            match parseBor f rest with
            | none => none
            | some (k, rest3) =>
              match rest3 with
              | ':' :: ' ' :: rest4 =>
                (match parseBor f rest4 with
                 | none => none
                 | some (v, rest5) => parseDictTail f [(k, v)] rest5)
              | _ => parseSetTail f [k] rest3
      else if c = '(' then
        match rest with
        | [] => none
        | c2 :: rest2 =>
          if c2 = ')' then some (.tuple [], rest2)
          else
            match parseExprList f rest with
            | some ([e], ')' :: rest3) => some (e, rest3)
            | some (es, ')' :: rest3) => some (.tuple es, rest3)
            | _ => none
      else if c.isDigit then
        let ds := (c :: rest).takeWhile (·.isDigit)
        some (.constant (.int (digitsVal ds)), (c :: rest).drop ds.length)
      else if isIdentStart c then
        let tk := (c :: rest).takeWhile isIdentChar
        let id : String := ⟨tk⟩
        let rest2 := (c :: rest).drop tk.length
        if id = "True" then some (.constant (.bool true), rest2)
        else if id = "False" then some (.constant (.bool false), rest2)
        else if id = "None" then some (.constant .noneV, rest2)
        else if kwList.contains id then none
        else some (.name id, rest2)
      else none

/-- One or more `", "`-separated expressions. -/
def parseExprList : Nat → List Char → Option (List PyExpr × List Char)
  | 0, _ => none
  | f + 1, s =>
    match parseBor f s with
    | none => none
    | some (e, rest) => parseExprListTail f [e] rest

def parseExprListTail :
    Nat → List PyExpr → List Char → Option (List PyExpr × List Char)
  | 0, _, _ => none
  | f + 1, acc, s =>
    match s with
    | ',' :: ' ' :: rest =>
      (match parseBor f rest with
       | none => none
       | some (e, rest2) => parseExprListTail f (acc ++ [e]) rest2)
    | _ => some (acc, s)

def parseDictTail :
    Nat → List (PyExpr × PyExpr) → List Char → Option (PyExpr × List Char)
  | 0, _, _ => none
  | f + 1, acc, s =>
    match s with
    | '}' :: rest => some (.dict acc, rest)
    | ',' :: ' ' :: rest =>
      (match parseBor f rest with
       | some (k, ':' :: ' ' :: rest2) =>
         (match parseBor f rest2 with
          | none => none
          | some (v, rest3) => parseDictTail f (acc ++ [(k, v)]) rest3)
       | _ => none)
    | _ => none

def parseSetTail : Nat → List PyExpr → List Char → Option (PyExpr × List Char)
  | 0, _, _ => none
  | f + 1, acc, s =>
    match s with
    | '}' :: rest => some (.setE acc, rest)
    | ',' :: ' ' :: rest =>
      (match parseBor f rest with
       | none => none
       | some (e, rest2) => parseSetTail f (acc ++ [e]) rest2)
    | _ => none

/-- One or more keyword arguments `name=value`. -/
def parseKwList :
    Nat → List Char → Option (List (Option String × PyExpr) × List Char)
  | 0, _ => none
  | f + 1, s =>
    match parseIdent s with
    | none => none
    | some (k, '=' :: rest) =>
      (match parseBor f rest with
       | none => none
       | some (v, rest2) => parseKwTail f [(some k, v)] rest2)
    | some _ => none

def parseKwTail :
    Nat → List (Option String × PyExpr) → List Char →
      Option (List (Option String × PyExpr) × List Char)
  | 0, _, _ => none
  | f + 1, acc, s =>
    match s with
    | ',' :: ' ' :: rest =>
      (match parseIdent rest with
       | some (k, '=' :: rest2) =>
         (match parseBor f rest2 with
          | none => none
          | some (v, rest3) => parseKwTail f (acc ++ [(some k, v)]) rest3)
       | _ => none)
    | _ => some (acc, s)

end

/-- The model's `ast.parse(s).body[0].value` on a full expression source:
run the grammar with ample fuel and demand that all input is consumed. -/
def pyParseExpr (s : String) : Option PyExpr :=
  match parseBor (8 * s.data.length + 16) s.data with
  | some (e, []) => some e
  | _ => none

/-! ## The canonical domain of the round trip

`canonE true` holds of the expressions whose `parse_annotation` output
re-parses (in CPython and in the model above) to the very same tree: ASCII
non-keyword identifiers, constants restricted to quote-free strings,
nonnegative integers, booleans and `None`, `|` chains nested to the left,
calls carrying keyword arguments only, no one-element tuples, no empty sets,
no `**` entries, attribute access not rooted at an integer literal, and
subscript slices that are either tuples of two or more elements or print
without the surrounding parentheses that `parse_annotation` strips. -/

def validIdentB (s : String) : Bool :=
  (match s.data with
   | [] => false
   | c :: _ => isIdentStart c)
  && s.data.all isIdentChar
  && !kwList.contains s

/-- Characters allowed in a canonical string constant: nothing that quoting
with `\x22...\x22` could misread. -/
def canonStrCharB (c : Char) : Bool :=
  c != '"' && c != '\\' && c != '\n' && c != '\r'

def canonConstB : PyConst → Bool
  | .str s => s.data.all canonStrCharB
  | .int n => decide (0 ≤ n)
  | .bool _ => true
  | .noneV => true
  | .other _ => false

/-- Whether a printed form both starts with `(` and ends with `)` — the
test `parse_annotation` applies before stripping a subscript slice. -/
def headParenB (s : String) : Bool :=
  (s.data.head? == some '(') && (s.data.getLast? == some ')')

def isIntConstB : PyExpr → Bool
  | .constant (.int _) => true
  | _ => false

mutual

/-- Canonical expressions; the flag tells whether a top-level `|` chain is
allowed in this position. -/
def canonE : Bool → PyExpr → Bool
  | b, .binOp l r => b && canonE true l && canonE false r
  | _, .name id => validIdentB id
  | _, .constant c => canonConstB c
  | _, .listE es => canonEList es
  | _, .dict ps => canonEPairs ps
  | _, .setE es => !es.isEmpty && canonEList es
  | _, .tuple es => (es.length != 1) && canonEList es
  | _, .attribute v a => canonE false v && validIdentB a && !isIntConstB v
  | _, .call f args kws => canonE false f && args.isEmpty && canonEKws kws
  | _, .subscript v sl =>
    canonE false v &&
    (match sl with
     | .tuple es => decide (2 ≤ es.length) && canonEList es
     | sl => canonE true sl && ! headParenB ( parse_annotation sl))
  | _, .unsupported => false
  | _, .noneNode => false
termination_by structural _ e => e

def canonEList : List PyExpr → Bool
  | [] => true
  | e :: es => canonE true e && canonEList es
termination_by structural l => l

def canonEPairs : List (PyExpr × PyExpr) → Bool
  | [] => true
  | (k, v) :: ps => canonE true k && canonE true v && canonEPairs ps
termination_by structural l => l

def canonEKws : List (Option String × PyExpr) → Bool
  | [] => true
  | (k, v) :: kws =>
    (match k with | some s => validIdentB s | none => false)
    && canonE true v && canonEKws kws
termination_by structural l => l

end

mutual

/-- Node count, the induction measure for the round-trip proof. -/
def sizeE : PyExpr → Nat
  | .attribute v _ => sizeE v + 1
  | .binOp l r => sizeE l + sizeE r + 1
  | .call f _ kws => sizeE f + sizeEKws kws + 1
  | .constant _ => 1
  | .dict ps => sizeEPairs ps + 1
  | .listE es => sizeEList es + 1
  | .name _ => 1
  | .subscript v sl => sizeE v + sizeE sl + 1
  | .setE es => sizeEList es + 1
  | .tuple es => sizeEList es + 1
  | .unsupported => 1
  | .noneNode => 1
termination_by structural e => e

def sizeEList : List PyExpr → Nat
  | [] => 0
  | e :: es => sizeE e + sizeEList es
termination_by structural l => l

def sizeEPairs : List (PyExpr × PyExpr) → Nat
  | [] => 0
  | (k, v) :: ps => sizeE k + sizeE v + sizeEPairs ps
termination_by structural l => l

def sizeEKws : List (Option String × PyExpr) → Nat
  | [] => 0
  | (_, v) :: kws => sizeE v + sizeEKws kws
termination_by structural l => l

end

/-! ## Spine decompositions used by the proof -/

/-- A postfix trailer: `.attr`, a keyword-argument call, or a subscript. -/
inductive Trl where
  | attr (a : String)
  | callK (kws : List (Option String × PyExpr))
  | sub (sl : PyExpr)

/-- The inner text of a printed subscript (`parse_annotation`'s `let
inner := ...`). -/
def subInner (sl : PyExpr) : String :=
  let vs := parse_annotation sl
  if vs.data.head? == some '(' && vs.data.getLast? == some ')' then
    (⟨(vs.data.drop 1).dropLast⟩ : String)
  else vs

def printTrl : Trl → List Char
  | .attr a => '.' :: a.data
  | .callK kws => '(' :: (pyJoin ", " (annKws kws)).data ++ [')']
  | .sub sl => '[' :: (subInner sl).data ++ [']']

def printTrs : List Trl → List Char
  | [] => []
  | t :: ts => printTrl t ++ printTrs ts

def spineBase : PyExpr → PyExpr
  | .attribute v _ => spineBase v
  | .call f _ _ => spineBase f
  | .subscript v _ => spineBase v
  | e => e

def spineTrs : PyExpr → List Trl
  | .attribute v a => spineTrs v ++ [.attr a]
  | .call f _ kws => spineTrs f ++ [.callK kws]
  | .subscript v sl => spineTrs v ++ [.sub sl]
  | _ => []

def applyTrl (e : PyExpr) : Trl → PyExpr
  | .attr a => .attribute e a
  | .callK kws => .call e [] kws
  | .sub sl => .subscript e sl

def applyTrs (e : PyExpr) (ts : List Trl) : PyExpr := ts.foldl applyTrl e

def isAtomE : PyExpr → Bool
  | .name _ => true
  | .constant _ => true
  | .listE _ => true
  | .dict _ => true
  | .setE _ => true
  | .tuple _ => true
  | _ => false

def canonTrlB : Trl → Bool
  | .attr a => validIdentB a
  | .callK kws => canonEKws kws
  | .sub sl =>
    match sl with
    | .tuple es => decide (2 ≤ es.length) && canonEList es
    | sl => canonE true sl && ! headParenB ( parse_annotation sl)

/-- The operands of a left-nested `|` chain, left to right. -/
def borOps : PyExpr → List PyExpr
  | .binOp l r => borOps l ++ [r]
  | e => [e]

/-! ## Continuation classes for the completeness statements -/

/-- Continuations on which a `|` chain stops. -/
def stopBorB : List Char → Bool
  | [] => true
  | c :: _ => c == ',' || c == ']' || c == ')' || c == '}' || c == ':'

/-- Continuations on which a postfix expression stops (a `|` chain may
continue). -/
def stopPostB (s : List Char) : Bool :=
  stopBorB s || s.take 3 == [' ', '|', ' ']

/-- Continuations that cannot extend an identifier or number token. -/
def atomStopB : List Char → Bool
  | [] => true
  | c :: _ => !isIdentChar c

/-- Completeness statement for `parseBor` at an expression. -/
def LBorS (e : PyExpr) : Prop :=
  ∀ rest g, stopBorB rest = true →
    8 * ( parse_annotation e).data.length + 16 ≤ g →
    parseBor g (( parse_annotation e).data ++ rest) = some (e, rest)

/-- Completeness statement for `parsePost` at an expression. -/
def LPostS (e : PyExpr) : Prop :=
  ∀ rest g, stopPostB rest = true →
    8 * ( parse_annotation e).data.length + 14 ≤ g →
    parsePost g (( parse_annotation e).data ++ rest) = some (e, rest)

/-- The printed text of the tail operands of a `|` chain. -/
def borTailStr : List PyExpr → List Char
  | [] => []
  | e :: es => ' ' :: '|' :: ' ' :: ( parse_annotation e).data ++ borTailStr es

/-- The printed text of the tail elements of a `", "`-separated list. -/
def listTailStr : List PyExpr → List Char
  | [] => []
  | e :: es => ',' :: ' ' :: ( parse_annotation e).data ++ listTailStr es

/-- The printed text of the tail entries of a dict display. -/
def pairsTailStr : List (PyExpr × PyExpr) → List Char
  | [] => []
  | (k, v) :: ps =>
    ',' :: ' ' :: ( parse_annotation k).data
      ++ ':' :: ' ' :: ( parse_annotation v).data ++ pairsTailStr ps

/-- The printed text of the tail keyword arguments of a call. -/
def kwTailStr : List (Option String × PyExpr) → List Char
  | [] => []
  | (k, v) :: kws =>
    ',' :: ' ' :: (kwNameStr k).data ++ '=' :: ( parse_annotation v).data
      ++ kwTailStr kws

/-- The `ast` tree of the Python annotation `X[(a,), b]`: a subscript whose
slice tuple contains the one-element tuple `(a,)`. -/
def c6Bad : PyExpr :=
  .subscript (.name "X") (.tuple [.tuple [.name "a"], .name "b"])

/-- The `ast` tree of the Python annotation `X[a, b]`. -/
def c6Reparsed : PyExpr :=
  .subscript (.name "X") (.tuple [.name "a", .name "b"])

/-- The `ast` tree of the Python annotation `Dict[str, int]`. -/
def c6Good : PyExpr :=
  .subscript (.name "Dict") (.tuple [.name "str", .name "int"])

end Astdocs

namespace Astdocs

/-! # Theorems

Helper lemmas first, then one theorem per claim (with witnesses where the
statement carries hypotheses). -/

theorem regSet_cons_of_ne {α : Type} (p : String × α) (r : Reg α)
    (k : String) (v : α) (hp : ¬(p.1 == k)) :
    regSet (p :: r) k v = p :: regSet r k v := by
  have hp' : p.1 ≠ k := by simpa using hp
  simp only [regSet, List.find?_cons_of_neg _ hp]
  cases hf : (r.find? (·.1 == k)).isSome
  · simp [hf, hp']
  · simp [hf, hp']

theorem regGet_regSet_self {α : Type} (r : Reg α) (k : String) (v : α) :
    regGet (regSet r k v) k = some v := by
  induction r with
  | nil => simp [regSet, regGet, List.find?]
  | cons p r ih =>
    by_cases hp : (p.1 == k) = true
    · have hd : List.find? (fun x => x.1 == k) (p :: r) = some p :=
        List.find?_cons_of_pos _ hp
      have hk : p.1 = k := by simpa using hp
      simp [regSet, regGet, hd, hk, List.find?_cons_of_pos]
    · rw [regSet_cons_of_ne p r k v hp]
      have hf : (p.1 == k) = false := by simpa using hp
      unfold regGet
      simp only [List.find?_cons, hf, cond_false]
      exact ih

theorem mem_regKeys_of_regGet {α : Type} {r : Reg α} {k : String} {v : α}
    (h : regGet r k = some v) : k ∈ regKeys r := by
  unfold regGet at h
  obtain ⟨pr, hf, -⟩ := Option.map_eq_some'.mp h
  have hm := List.mem_of_find?_eq_some hf
  have hk : pr.1 = k := by simpa using List.find?_some hf
  exact hk ▸ List.mem_map_of_mem (·.1) hm

/-- Indented-with-trailing-comma folding: joining the `"\n    "`-prefixed
parameters with `","` and appending `",\n"` puts one parameter per line,
four-space indented, each followed by a comma. -/
theorem pyJoin_fold_eq (ps : List String) (h : ps ≠ []) :
    pyJoin "," (ps.map (fun p => "\n    " ++ p)) ++ ",\n" =
      "\n    " ++ pyJoin ",\n    " ps ++ ",\n" := by
  induction ps with
  | nil => exact absurd rfl h
  | cons p rest ih =>
    cases rest with
    | nil =>
      apply String.ext
      simp [pyJoin, String.data_append, List.append_assoc]
    | cons q rest' =>
      have hd := congrArg String.data (ih (by simp))
      apply String.ext
      have hsep : (",\n    " : String).data =
          ("," : String).data ++ ("\n    " : String).data := by decide
      simp only [pyJoin, List.map_cons, String.data_append, List.append_assoc,
        hsep] at hd ⊢
      rw [hd]
      simp

end Astdocs

namespace Astdocs

/-! ## Concrete function definitions for witnesses -/

/-- `ast.parse("def f(x):\n    pass").body[0]` (shape only; line numbers 1-2). -/
def shortFn : PyFunc :=
  PyFunc.mk "f" (PyArguments.mk [PyArg.mk "x" none] [] none [] [] none)
    none [] none 1 2

/-- A definition whose single-line rendering exceeds 88 characters:
`def much_longer_function_name(first_argument: dict[str, int],
second_argument: bool = True, third: str = "yes") -> tuple[int, int]`. -/
def longFn : PyFunc :=
  PyFunc.mk "much_longer_function_name"
    (PyArguments.mk
      [PyArg.mk "first_argument"
         (some (PyExpr.subscript (PyExpr.name "dict")
           (PyExpr.tuple [PyExpr.name "str", PyExpr.name "int"]))),
       PyArg.mk "second_argument" (some (PyExpr.name "bool")),
       PyArg.mk "third" (some (PyExpr.name "str"))]
      [PyExpr.constant (PyConst.bool true), PyExpr.constant (PyConst.str "yes")]
      none [] [] none)
    (some (PyExpr.subscript (PyExpr.name "tuple")
      (PyExpr.tuple [PyExpr.name "int", PyExpr.name "int"])))
    [] none 1 3

end Astdocs

namespace Astdocs

/-- **C5** — `parse_annotation` is pure and total: it is a function returning
a string on every node, and yields the empty string both on node kinds with
no supported case (`PyExpr.unsupported` stands for all of them: the final
`return ""` of the source) and on an absent node (`PyExpr.noneNode`,
Python `None`). -/
theorem claim_C5_total (a : PyExpr) :
    (∃ s : String, parse_annotation a = s)
    ∧ parse_annotation PyExpr.unsupported = ""
    ∧ parse_annotation PyExpr.noneNode = "" :=
  ⟨⟨_, rfl⟩, rfl, rfl⟩

/-- **C7** — with an empty `filepath` and an empty `code` or `module`,
`render` returns exactly the sentinel `"Nothing to do."`, raising nothing and
leaving the global `objects` registry untouched. -/
theorem claim_C7_nothing_to_do (filepath remove_from_path code module : String)
    (tree : PyModule) (cwd : String) (cfg : Config) (objects : Objects)
    (h1 : filepath = "") (h2 : code = "" ∨ module = "") :
    render filepath remove_from_path code module tree cwd cfg objects =
      ("Nothing to do.", objects) := by
  subst h1
  unfold render
  rcases h2 with h | h <;> subst h <;> simp

/-- Witness for C7 at a concrete call. -/
theorem claim_C7_witness :
    render "" "" "" "mod" (PyModule.mk none []) "" config [] =
      ("Nothing to do.", []) :=
  claim_C7_nothing_to_do "" "" "" "mod" (PyModule.mk none []) "" config []
    rfl (Or.inl rfl)

/-- **C2** — parameter folding in `parse_function`: when the single-line
pre-render `name(p1, p2, ...) -> out` is within the `fold_args_after`
threshold the stored parameter string joins the parameters with comma-space;
when it exceeds the threshold the parameters are rendered one per line, each
indented four spaces, each followed by a comma (trailing comma included). -/
theorem claim_C2_folding (fn : PyFunc) (module ancestry : String)
    (functions : Reg FuncInfo) (objects : Objects) (cfg : Config) :
    ((unfoldedRender fn).length ≤ cfg.fold_args_after →
      (regGet (parse_function fn module ancestry functions objects cfg).1
          (ancestry ++ "." ++ fn.name)).map (·.params) =
        some (pyJoin ", " (paramStrings fn)))
    ∧ ((unfoldedRender fn).length > cfg.fold_args_after → paramStrings fn ≠ [] →
      (regGet (parse_function fn module ancestry functions objects cfg).1
          (ancestry ++ "." ++ fn.name)).map (·.params) =
        some ("\n    " ++ pyJoin ",\n    " (paramStrings fn) ++ ",\n")) := by
  constructor
  · intro hle
    have hn : ¬((unfoldedRender fn).length > cfg.fold_args_after) :=
      Nat.not_lt.mpr hle
    unfold parse_function
    rw [regGet_regSet_self]
    simp [paramsField, hn]
  · intro hgt hne
    unfold parse_function
    rw [regGet_regSet_self]
    simp only [paramsField, hgt, if_pos, Option.map_some]
    rw [← pyJoin_fold_eq _ hne]
    rfl

/-- Witness for C2: a short and a long definition, through both branches. -/
theorem claim_C2_witness :
    ((regGet (parse_function shortFn "m" "m" [] [] config).1 "m.f").map
        (·.params) = some (pyJoin ", " (paramStrings shortFn)))
    ∧ ((regGet (parse_function longFn "m" "m" [] [] config).1
          ("m." ++ longFn.name)).map (·.params) =
        some ("\n    " ++ pyJoin ",\n    " (paramStrings longFn) ++ ",\n")) :=
  ⟨(claim_C2_folding shortFn "m" "m" [] [] config).1 (by decide),
   (claim_C2_folding longFn "m" "m" [] [] config).2 (by decide) (by decide)⟩

end Astdocs

namespace Astdocs

/-- **C1** — evaluation of `format_docstring` at the failing input: a
docstring with eleven fenced code blocks.  Extraction does record the
eleventh block (` ```k``` `), but restoration — `s.replace("%%%BLOCK1", b1)`
— also rewrites `"%%%BLOCK1"` inside the placeholder `"%%%BLOCK10"`, so the
output duplicates the second block (followed by the stray `0`) and the
eleventh block's text is not restored anywhere: the round trip promised by
the claim fails. -/
theorem claim_C1_blocks_lost :
    format_docstring (some elevenBlocksDoc) = elevenBlocksOut
    ∧ ((extractBlocks [7, 6, 5, 4, 3] elevenBlocksDoc.data [] 0).2.contains
        "```k```".data) = true
    ∧ substrOf "```k```".data elevenBlocksOut.data = false
    ∧ elevenBlocksOut ≠ elevenBlocksDoc :=
  ⟨by decide, by decide, by decide, by decide⟩

end Astdocs

namespace Astdocs

theorem mMarker_none (pos : Nat) (s : List Char) : mMarker pos s = none := by
  unfold mMarker
  have h : (pos + (s.takeWhile (· == '\n')).length + 3 == 0) = false := by
    simp only [beq_eq_false_iff_ne, ne_eq]
    omega
  simp [h]

theorem collapseMarkersF_id (fuel : Nat) :
    ∀ (pos : Nat) (s : List Char), collapseMarkersF fuel pos s = s := by
  induction fuel with
  | zero => intro pos s; rfl
  | succ fuel ih =>
    intro pos s
    cases s with
    | nil => rfl
    | cons c cs => simp [collapseMarkersF, mMarker_none, ih]

/-- The pre-marker blank-line collapse never rewrites anything: the `^`
anchor inside the pattern's group cannot match. -/
theorem collapseMarkers_id (s : List Char) : collapseMarkers s = s :=
  collapseMarkersF_id s.length 0 s

theorem drop_length_takeWhile (p : Char → Bool) (s : List Char) :
    s.drop (s.takeWhile p).length = s.dropWhile p := by
  induction s with
  | nil => rfl
  | cons a s ih =>
    by_cases ha : p a
    · rw [List.takeWhile_cons_of_pos ha, List.dropWhile_cons_of_pos ha]
      simpa using ih
    · rw [List.takeWhile_cons_of_neg ha, List.dropWhile_cons_of_neg ha]
      rfl

theorem length_dropWhile_le' (p : Char → Bool) (s : List Char) :
    (s.dropWhile p).length ≤ s.length := by
  induction s with
  | nil => simp
  | cons a s ih =>
    by_cases ha : p a
    · rw [List.dropWhile_cons_of_pos ha]
      exact Nat.le_trans ih (Nat.le_succ _)
    · rw [List.dropWhile_cons_of_neg ha]

theorem dropWhile_head_false (p : Char → Bool) :
    ∀ (s : List Char) (c : Char) (cs : List Char),
      s.dropWhile p = c :: cs → p c = false := by
  intro s
  induction s with
  | nil => intro c cs h; simp [List.dropWhile] at h
  | cons a s ih =>
    intro c cs h
    by_cases ha : p a
    · rw [List.dropWhile_cons_of_pos ha] at h
      exact ih c cs h
    · rw [List.dropWhile_cons_of_neg ha] at h
      cases h
      exact Bool.not_eq_true _ ▸ (by simpa using ha)

theorem spec_go_eq (s : List Char) (n : Nat) :
    collapseNewlinesSpec.go s n =
      collapseNewlinesSpec.emit (n + (s.takeWhile (· == '\n')).length) ++
        (match s.dropWhile (· == '\n') with
         | [] => []
         | c :: cs => c :: collapseNewlinesSpec.go cs 0) := by
  induction s generalizing n with
  | nil => simp [collapseNewlinesSpec.go, List.takeWhile, List.dropWhile]
  | cons c cs ih =>
    by_cases hc : c = '\n'
    · subst hc
      rw [List.takeWhile_cons_of_pos (by decide), List.dropWhile_cons_of_pos (by decide)]
      rw [show collapseNewlinesSpec.go ('\n' :: cs) n = collapseNewlinesSpec.go cs (n + 1)
        from by simp [collapseNewlinesSpec.go]]
      rw [ih]
      have h : n + 1 + (cs.takeWhile (· == '\n')).length =
          n + ('\n' :: (cs.takeWhile (· == '\n'))).length := by
        simp
        omega
      rw [h]
    · have hc' : (c == '\n') = false := by simpa using hc
      rw [List.takeWhile_cons_of_neg (by simp [hc']), List.dropWhile_cons_of_neg (by simp [hc'])]
      simp [collapseNewlinesSpec.go, hc]

theorem emit_succ_of_le_one (r : Nat) (hr : r ≤ 1) :
    collapseNewlinesSpec.emit (1 + r) = '\n' :: collapseNewlinesSpec.emit r := by
  interval_cases r <;> decide

theorem mNL3_eq (s : List Char) :
    mNL3 s = (if (s.takeWhile (· == '\n')).length ≥ 3 then
        some (['\n', '\n'], s.dropWhile (· == '\n'))
      else none) := by
  show (if (s.takeWhile (· == '\n')).length ≥ 3 then
      some (['\n', '\n'], s.drop (s.takeWhile (· == '\n')).length)
    else none) = _
  rw [drop_length_takeWhile]

theorem reSubF_cons (fuel : Nat) (c : Char) (cs : List Char)
    (m : List Char → Option (List Char × List Char)) :
    reSubF m (fuel + 1) (c :: cs) =
      (match m (c :: cs) with
       | some (rep, rest) => rep ++ reSubF m fuel rest
       | none => c :: reSubF m fuel cs) := rfl

theorem reSubF_mNL3_eq (fuel : Nat) :
    ∀ s : List Char, s.length ≤ fuel →
      reSubF mNL3 fuel s = collapseNewlinesSpec s := by
  induction fuel with
  | zero =>
    intro s hs
    have h : s = [] := List.length_eq_zero.mp (Nat.le_zero.mp hs)
    subst h
    rfl
  | succ fuel ih =>
    intro s hs
    cases s with
    | nil => rfl
    | cons c cs =>
      by_cases hc : c = '\n'
      · subst hc
        have hrun : ('\n' :: cs).takeWhile (· == '\n') =
            '\n' :: cs.takeWhile (· == '\n') :=
          List.takeWhile_cons_of_pos (by decide)
        by_cases hk : (('\n' :: cs).takeWhile (· == '\n')).length ≥ 3
        · -- the matcher fires and swallows the whole run
          have hm : mNL3 ('\n' :: cs) =
              some (['\n', '\n'], ('\n' :: cs).dropWhile (· == '\n')) := by
            rw [mNL3_eq, if_pos hk]
          have hstep : reSubF mNL3 (fuel + 1) ('\n' :: cs) =
              ['\n', '\n'] ++ reSubF mNL3 fuel (('\n' :: cs).dropWhile (· == '\n')) := by
            rw [reSubF_cons, hm]
          rw [hstep]
          have hrest : (('\n' :: cs).dropWhile (· == '\n')).length ≤ fuel := by
            rw [List.dropWhile_cons_of_pos (by decide)]
            have h2 := length_dropWhile_le' (· == '\n') cs
            simp at hs
            omega
          rw [ih _ hrest]
          -- spec side
          rw [show collapseNewlinesSpec ('\n' :: cs) = collapseNewlinesSpec.go ('\n' :: cs) 0
            from rfl]
          rw [spec_go_eq]
          rw [show collapseNewlinesSpec.emit
                (0 + (('\n' :: cs).takeWhile (· == '\n')).length) = ['\n', '\n'] from by
            have hk' : 0 + (('\n' :: cs).takeWhile (· == '\n')).length ≥ 3 := by omega
            unfold collapseNewlinesSpec.emit
            rw [if_pos hk']]
          rw [List.dropWhile_cons_of_pos (p := (· == '\n')) (by decide)]
          cases hrest2 : cs.dropWhile (· == '\n') with
          | nil => rfl
          | cons d ds =>
            have hd : (d == '\n') = false := dropWhile_head_false _ cs d ds hrest2
            have hd' : ¬(d = '\n') := by simpa using hd
            rw [show collapseNewlinesSpec (d :: ds) = collapseNewlinesSpec.go (d :: ds) 0
              from rfl]
            rw [show collapseNewlinesSpec.go (d :: ds) 0 =
                collapseNewlinesSpec.emit 0 ++ d :: collapseNewlinesSpec.go ds 0 from by
              simp [collapseNewlinesSpec.go, hd']]
            rfl
        · -- short run: the matcher does not fire
          have hm : mNL3 ('\n' :: cs) = none := by
            rw [mNL3_eq, if_neg hk]
          have hstep : reSubF mNL3 (fuel + 1) ('\n' :: cs) =
              '\n' :: reSubF mNL3 fuel cs := by
            rw [reSubF_cons, hm]
          rw [hstep]
          have hcs : cs.length ≤ fuel := by simp at hs; omega
          rw [ih _ hcs]
          rw [show collapseNewlinesSpec ('\n' :: cs) = collapseNewlinesSpec.go cs 1 from by
            simp [collapseNewlinesSpec, collapseNewlinesSpec.go]]
          rw [show collapseNewlinesSpec cs = collapseNewlinesSpec.go cs 0 from rfl]
          rw [spec_go_eq cs 1, spec_go_eq cs 0]
          have hr : (cs.takeWhile (· == '\n')).length ≤ 1 := by
            rw [hrun] at hk
            simp at hk
            omega
          rw [emit_succ_of_le_one _ hr]
          simp
      · -- head is not a newline: both sides copy it
        have hc' : (c == '\n') = false := by simpa using hc
        have hm : mNL3 (c :: cs) = none := by
          rw [mNL3_eq, List.takeWhile_cons_of_neg (by simp [hc'])]
          simp
        have hstep : reSubF mNL3 (fuel + 1) (c :: cs) =
            c :: reSubF mNL3 fuel cs := by
          rw [reSubF_cons, hm]
        rw [hstep]
        have hcs : cs.length ≤ fuel := by simp at hs; omega
        rw [ih _ hcs]
        rw [show collapseNewlinesSpec (c :: cs) =
            collapseNewlinesSpec.emit 0 ++ c :: collapseNewlinesSpec.go cs 0 from by
          simp [collapseNewlinesSpec, collapseNewlinesSpec.go, hc]]
        rfl

/-- The newline-collapsing rewrite computes exactly the spec-side
normalization. -/
theorem reSub_mNL3_eq_spec (s : List Char) :
    reSub mNL3 s = collapseNewlinesSpec s :=
  reSubF_mNL3_eq s.length s (Nat.le_refl _)

theorem emit_cases (k : Nat) :
    collapseNewlinesSpec.emit k = [] ∨ collapseNewlinesSpec.emit k = ['\n'] ∨
      collapseNewlinesSpec.emit k = ['\n', '\n'] := by
  match k with
  | 0 => exact Or.inl (by decide)
  | 1 => exact Or.inr (Or.inl (by decide))
  | 2 => exact Or.inr (Or.inr (by decide))
  | n + 3 =>
    refine Or.inr (Or.inr ?_)
    simp [collapseNewlinesSpec.emit]

theorem hasTriple_emit (k : Nat) : hasTripleNL (collapseNewlinesSpec.emit k) = false := by
  rcases emit_cases k with h | h | h <;> rw [h] <;> decide

theorem hasTriple_emit_cons (k : Nat) (c : Char) (T : List Char) (hc : (c == '\n') = false) :
    hasTripleNL (collapseNewlinesSpec.emit k ++ c :: T) = hasTripleNL T := by
  rcases emit_cases k with h | h | h <;> rw [h] <;>
    simp [hasTripleNL, hc, List.take]

theorem hasTriple_spec_aux (n : Nat) :
    ∀ s : List Char, s.length ≤ n → hasTripleNL (collapseNewlinesSpec s) = false := by
  induction n with
  | zero =>
    intro s hs
    have : s = [] := List.length_eq_zero.mp (Nat.le_zero.mp hs)
    subst this
    decide
  | succ n ih =>
    intro s hs
    rw [show collapseNewlinesSpec s = collapseNewlinesSpec.go s 0 from rfl, spec_go_eq]
    cases hrest : s.dropWhile (· == '\n') with
    | nil => simpa using hasTriple_emit _
    | cons c cs =>
      have hc : (c == '\n') = false := dropWhile_head_false _ s c cs hrest
      rw [hasTriple_emit_cons _ _ _ hc]
      have hlen : cs.length ≤ n := by
        have h1 := length_dropWhile_le' (· == '\n') s
        rw [hrest] at h1
        simp at h1
        omega
      exact ih cs hlen

/-- No output of the newline normalization contains a triple newline. -/
theorem hasTriple_spec (s : List Char) :
    hasTripleNL (collapseNewlinesSpec s) = false :=
  hasTriple_spec_aux s.length s (Nat.le_refl _)

end Astdocs

namespace Astdocs

theorem hasTriple_renderCore (filepath module : String) (tree : PyModule)
    (cfg : Config) (objects : Objects) :
    hasTripleNL ((render.renderCore filepath module tree cfg objects).1).data =
      false := by
  unfold render.renderCore
  dsimp only
  rw [collapseMarkers_id, reSub_mNL3_eq_spec]
  exact hasTriple_spec _

/-- **C8 counterexample** — a `render` output in which a blank line
immediately precedes a `%%%SOURCE` marker and is *not* collapsed: the claim's
second clause fails on the code. -/
theorem claim_C8_counterexample :
    (render "" "" "x" "m" oneFuncTree "cwd" cfgLinenos []).1 = oneFuncOut
    ∧ substrOf "\n\n%%%SOURCE".data oneFuncOut.data = true :=
  ⟨by decide, by decide⟩

/-- **C8 amended** — the final page assembly collapses every maximal run of
three or more newline characters to exactly two (`reSub mNL3` computes the
spec-side normalization, and no output of it retains a triple newline, i.e.
more than one blank line); the blank-line-before-`%%%`-marker rewrite, by
contrast, never fires (its pattern's `^` anchor cannot match), so `render`'s
output never holds more than one consecutive blank line but keeps blank
lines that precede `%%%` markers. -/
theorem claim_C8_amended :
    (∀ s : List Char, collapseMarkers s = s)
    ∧ (∀ s : List Char, reSub mNL3 s = collapseNewlinesSpec s)
    ∧ (∀ s : List Char, hasTripleNL (reSub mNL3 s) = false)
    ∧ (∀ (filepath remove_from_path code module : String) (tree : PyModule)
        (cwd : String) (cfg : Config) (objects : Objects),
        hasTripleNL ((render filepath remove_from_path code module tree cwd cfg
          objects).1).data = false) := by
  refine ⟨collapseMarkers_id, reSub_mNL3_eq_spec, ?_, ?_⟩
  · intro s
    rw [reSub_mNL3_eq_spec]
    exact hasTriple_spec s
  · intro filepath remove_from_path code module tree cwd cfg objects
    unfold render
    split
    · exact hasTriple_renderCore _ _ _ _ _
    · split
      · exact hasTriple_renderCore _ _ _ _ _
      · show hasTripleNL ("Nothing to do." : String).data = false
        decide

end Astdocs

namespace Astdocs

/-- **C4** — the visibility rule.  `visibleKeys` is the one filter through
which `render` (top-level functions and classes), `render_class` (methods
section and methods bullet list) and `render_module` (both bullet lists)
select the entities they render: membership holds exactly for candidate keys
whose last path segment does not start with an underscore, unless
`show_private` is on.  In particular an underscore-named entity is selected
by none of those renderers when `show_private` is off, and every candidate
is selected when it is on. -/
theorem claim_C4_visibility (cfg : Config) (keys : List String) (f : String) :
    (f ∈ visibleKeys cfg keys ↔
      f ∈ keys ∧
        (((lastSegment f).data.head? == some '_') = false ∨ cfg.show_private = true))
    ∧ (((lastSegment f).data.head? == some '_') = true → cfg.show_private = false →
        f ∉ visibleKeys cfg keys)
    ∧ (cfg.show_private = true → f ∈ keys → f ∈ visibleKeys cfg keys) := by
  have base : f ∈ visibleKeys cfg keys ↔
      f ∈ keys ∧
        (((lastSegment f).data.head? == some '_') = false ∨ cfg.show_private = true) := by
    unfold visibleKeys
    rw [List.mem_filter]
    constructor
    · rintro ⟨hm, hp⟩
      refine ⟨hm, ?_⟩
      cases h : (lastSegment f).data.head? == some '_'
      · exact Or.inl rfl
      · rw [h] at hp
        simp at hp
        exact Or.inr hp
    · rintro ⟨hm, hp | hp⟩
      · exact ⟨hm, by simp [hp]⟩
      · exact ⟨hm, by simp [hp]⟩
  refine ⟨base, ?_, ?_⟩
  · intro hu hs hmem
    rcases base.mp hmem with ⟨-, h | h⟩
    · rw [hu] at h
      cases h
    · rw [hs] at h
      cases h
  · intro hs hm
    exact base.mpr ⟨hm, Or.inr hs⟩

/-- Witness for C4: a private and a public method key through the filter. -/
theorem claim_C4_witness :
    ("m.C._hidden" ∉ visibleKeys config ["m.C._hidden", "m.C.go"])
    ∧ ("m.C._hidden" ∈
        visibleKeys (Config.mk false 88 true "" false) ["m.C._hidden", "m.C.go"]) :=
  ⟨(claim_C4_visibility config ["m.C._hidden", "m.C.go"] "m.C._hidden").2.1
      (by decide) rfl,
   (claim_C4_visibility (Config.mk false 88 true "" false)
      ["m.C._hidden", "m.C.go"] "m.C._hidden").2.2 rfl (by decide)⟩

end Astdocs

namespace Astdocs

theorem mHash_ne (c : Char) (cs : List Char) (h : ¬(c = '\n')) :
    mHash (c :: cs) = none := by
  unfold mHash
  split <;> simp_all

theorem takeWhile_all (p : Char → Bool) :
    ∀ l : List Char, (∀ c ∈ l, p c = true) → l.takeWhile p = l := by
  intro l
  induction l with
  | nil => intro; rfl
  | cons c cs ih =>
    intro h
    rw [List.takeWhile_cons_of_pos (h c (by simp))]
    rw [ih (fun d hd => h d (by simp [hd]))]

theorem reSubF_skip (line : List Char) (hline : ∀ c ∈ line, c ≠ '\n') :
    ∀ (fuel : Nat) (s : List Char),
      reSubF mHash (line.length + fuel) (line ++ s) =
        line ++ reSubF mHash fuel s := by
  induction line with
  | nil => intro fuel s; simp
  | cons c cs ih =>
    intro fuel s
    have hc : ¬(c = '\n') := hline c (by simp)
    have hlen : (c :: cs).length + fuel = (cs.length + fuel) + 1 := by
      simp
      omega
    rw [hlen, List.cons_append, reSubF_cons, mHash_ne c _ hc]
    rw [ih (fun d hd => hline d (by simp [hd])) fuel s]
    rfl

/-- **C10** — the heading rewrite of `format_docstring` fires only at a `#`
that follows a newline.  First conjunct: a first line (no matter that it is
hash-prefixed) passes through the rewrite untouched, the substitution
continuing after it.  Second conjunct: the same hash-prefixed text placed
after a newline is rewritten to bold emphasis.  Third/fourth conjuncts: the
behaviour end to end on a whole docstring, through `format_docstring`
itself. -/
theorem claim_C10_first_line (line rest t : List Char)
    (hline : ∀ c ∈ line, c ≠ '\n') (_hhash : line.head? = some '#')
    (hnl : ∀ c ∈ t, c ≠ '\n')
    (hhead : ∀ c, t.head? = some c → c ≠ '#' ∧ pySpace c = false) :
    reSub mHash (line ++ '\n' :: rest) = line ++ reSub mHash ('\n' :: rest)
    ∧ reSub mHash ('\n' :: '#' :: t) = '\n' :: '*' :: '*' :: (t ++ ['*', '*'])
    ∧ format_docstring (some "# Title\nBody") = "# Title\nBody"
    ∧ format_docstring (some "Body\n# Title") = "Body\n**Title**" := by
  refine ⟨?_, ?_, by decide, by decide⟩
  · show reSubF mHash (line ++ '\n' :: rest).length (line ++ '\n' :: rest) = _
    rw [List.length_append]
    rw [reSubF_skip line hline]
    rfl
  · have h2 : ('#' :: t).dropWhile (· == '#') = t := by
      rw [List.dropWhile_cons_of_pos (by decide)]
      cases ht : t with
      | nil => rfl
      | cons d ds =>
        have := (hhead d (by simp [ht])).1
        rw [List.dropWhile_cons_of_neg (by simpa using this)]
    have h3 : t.dropWhile pySpace = t := by
      cases ht : t with
      | nil => rfl
      | cons d ds =>
        have := (hhead d (by simp [ht])).2
        rw [List.dropWhile_cons_of_neg (by simp [this])]
    have h4 : t.takeWhile (· != '\n') = t :=
      takeWhile_all _ t (fun c hc => by simpa using hnl c hc)
    have hred : mHash ('\n' :: '#' :: t) =
        (if (('#' :: t).head? == some '#') = true then
          some ('\n' :: ('*' :: '*' ::
              (((('#' :: t).dropWhile (· == '#')).dropWhile pySpace).takeWhile
                (· != '\n')) ++ ['*', '*']),
            ((('#' :: t).dropWhile (· == '#')).dropWhile pySpace).drop
              (((('#' :: t).dropWhile (· == '#')).dropWhile pySpace).takeWhile
                (· != '\n')).length)
        else none) := rfl
    have hmatch : mHash ('\n' :: '#' :: t) =
        some ('\n' :: ('*' :: '*' :: t ++ ['*', '*']), []) := by
      rw [hred, h2, h3, h4]
      simp [List.drop_length]
    show reSubF mHash ('\n' :: '#' :: t).length ('\n' :: '#' :: t) = _
    show reSubF mHash ((t.length + 1) + 1) ('\n' :: '#' :: t) = _
    rw [reSubF_cons, hmatch]
    show ('\n' :: ('*' :: '*' :: t ++ ['*', '*'])) ++ [] = _
    simp

/-- Witness for C10 at concrete text. -/
theorem claim_C10_witness :
    reSub mHash ("#T".data ++ '\n' :: "x".data) =
        "#T".data ++ reSub mHash ('\n' :: "x".data)
    ∧ reSub mHash ('\n' :: '#' :: "Ti".data) =
        '\n' :: '*' :: '*' :: ("Ti".data ++ ['*', '*']) := by
  have h := claim_C10_first_line "#T".data "x".data "Ti".data
    (by decide) (by decide) (by decide) (by decide)
  exact ⟨h.1, h.2.1⟩

end Astdocs

namespace Astdocs

theorem isPrefixOf_append_left (l : List Char) :
    ∀ a b : List Char, a.isPrefixOf b = true → (l ++ a).isPrefixOf (l ++ b) = true := by
  induction l with
  | nil => intro a b h; simpa using h
  | cons c cs ih =>
    intro a b h
    simpa [List.isPrefixOf] using ih a b h

theorem regGet_eq_none_of_not_mem {α : Type} {r : Reg α} {k : String}
    (h : k ∉ regKeys r) : regGet r k = none := by
  have hf : r.find? (·.1 == k) = none := by
    rw [List.find?_eq_none]
    intro p hp hpk
    have hk : p.1 = k := by simpa using hpk
    exact h (hk ▸ List.mem_map_of_mem (·.1) hp)
  simp [regGet, hf]

theorem regGet_regPop_self {α : Type} (r : Reg α) (k : String)
    (hnd : (regKeys r).Nodup) : regGet (regPop r k) k = none := by
  induction r with
  | nil => rfl
  | cons p rest ih =>
    have hnd' : (regKeys rest).Nodup ∧ p.1 ∉ regKeys rest := by
      have := hnd
      simp only [regKeys, List.map_cons, List.nodup_cons] at this
      exact ⟨this.2, this.1⟩
    by_cases hp : (p.1 == k) = true
    · have hk : p.1 = k := by simpa using hp
      unfold regPop
      simp only [List.eraseP_cons, hp, cond_true]
      exact regGet_eq_none_of_not_mem (hk ▸ hnd'.2)
    · have hp' : (p.1 == k) = false := by simpa using hp
      unfold regPop
      simp only [List.eraseP_cons, hp', cond_false]
      show regGet (p :: regPop rest k) k = none
      unfold regGet
      simp only [List.find?_cons, hp', cond_false]
      exact ih hnd'.1

theorem regGet_map_replace {α : Type} (r : Reg α) (k k' : String) (v : α)
    (h : k' ≠ k) :
    regGet (r.map (fun p => if p.1 == k then (k, v) else p)) k' = regGet r k' := by
  induction r with
  | nil => rfl
  | cons p rest ih =>
    by_cases hp : (p.1 == k) = true
    · have hk : p.1 = k := by simpa using hp
      have h1 : (((k, v) : String × α).1 == k') = false := by
        simp only [beq_eq_false_iff_ne]
        exact fun he => h he.symm
      have h2 : (p.1 == k') = false := by
        simp only [hk, beq_eq_false_iff_ne]
        exact fun he => h he.symm
      simp only [List.map_cons, if_pos hp]
      unfold regGet
      simp only [List.find?_cons, h1, h2, cond_false]
      exact ih
    · simp only [List.map_cons, if_neg hp]
      by_cases hpk : (p.1 == k') = true
      · unfold regGet
        simp only [List.find?_cons, hpk, cond_true]
      · have hpk' : (p.1 == k') = false := by simpa using hpk
        unfold regGet
        simp only [List.find?_cons, hpk', cond_false]
        exact ih

theorem regGet_regSet_of_ne {α : Type} (r : Reg α) (k k' : String) (v : α)
    (h : k' ≠ k) : regGet (regSet r k v) k' = regGet r k' := by
  unfold regSet
  by_cases hs : (r.find? (·.1 == k)).isSome = true
  · rw [if_pos hs]
    exact regGet_map_replace r k k' v h
  · rw [if_neg hs]
    have h1 : (((k, v) : String × α).1 == k') = false := by
      simp only [beq_eq_false_iff_ne]
      exact fun he => h he.symm
    unfold regGet
    rw [List.find?_append]
    have hsingle : ([((k, v) : String × α)].find? (·.1 == k')) = none := by
      simp only [List.find?_cons, h1, cond_false]
      rfl
    rw [hsingle]
    cases hr : r.find? (·.1 == k') <;> simp


theorem render_function_regGet_of_ne (filepath f : String) (fns : Reg FuncInfo)
    (cfg : Config) (g : String) (h : g ≠ f) :
    regGet (render_function filepath f fns cfg).2 g = regGet fns g := by
  unfold render_function
  cases he : regGet fns f
  · rfl
  · dsimp only
    exact regGet_regSet_of_ne _ _ _ _ h

theorem renderMethods_regGet_of_not_mem (filepath ht : String) (cfg : Config)
    (sel : List String) (g : String) (h : g ∉ sel) :
    ∀ fns : Reg FuncInfo,
      regGet (renderMethods filepath ht cfg sel fns).2 g = regGet fns g := by
  induction sel with
  | nil => intro fns; rfl
  | cons f rest ih =>
    intro fns
    have hgf : g ≠ f := fun he => h (he ▸ List.mem_cons_self f rest)
    have hgrest : g ∉ rest := fun he => h (List.mem_cons_of_mem f he)
    unfold renderMethods
    cases he : regGet fns f with
    | none => exact ih hgrest fns
    | some e =>
      dsimp only
      rcases hrf : render_function filepath f (regSet fns f
          ⟨e.ancestry, pyStrip ⟨subSelfOnce e.params.data⟩, e.decoration,
           e.endlineno, e.funcdocs, e.funcname, ht ++ "##", e.lineno, e.output,
           e.path⟩) cfg with ⟨s, fns1⟩
      rcases hrm : renderMethods filepath ht cfg rest fns1 with ⟨ms, fns2⟩
      dsimp only
      have e1 : regGet fns2 g = regGet fns1 g := by
        have hih := ih hgrest fns1
        rw [hrm] at hih
        exact hih
      have e2 : regGet fns1 g = regGet fns g := by
        have h' := render_function_regGet_of_ne filepath f (regSet fns f
          ⟨e.ancestry, pyStrip ⟨subSelfOnce e.params.data⟩, e.decoration,
           e.endlineno, e.funcdocs, e.funcname, ht ++ "##", e.lineno, e.output,
           e.path⟩) cfg g hgf
        rw [hrf] at h'
        rw [h', regGet_regSet_of_ne _ _ _ _ hgf]
      rw [e1, e2]

/-- **C3** — when the function registry holds an entry named
`f"{name}.__init__"`, `render_class` (i) leaves it out of the visible-method
selection that builds both the rendered methods section and the methods
bullet list, (ii) removes it from the function registry it returns, and
(iii) produces exactly the class entry whose constructor parameter string is
the `__init__` parameters with the leading `self` stripped and whose
constructor docstring is the `__init__` docstring — the methods section and
bullet list being built only over the remaining visible methods. -/
theorem claim_C3_constructor (filepath name : String) (classes : Reg ClassInfo)
    (functions : Reg FuncInfo) (cfg : Config) (cinfo : ClassInfo)
    (init : FuncInfo)
    (hc : regGet classes name = some cinfo)
    (hf : regGet functions (name ++ ".__init__") = some init)
    (hnd : (regKeys functions).Nodup) :
    (name ++ ".__init__") ∉
        visibleKeys cfg
          ((classMethodKeys name functions).erase (name ++ ".__init__"))
    ∧ regGet (render_class filepath name classes functions cfg).2.2
        (name ++ ".__init__") = none
    ∧ render_class filepath name classes functions cfg =
        (let sel := visibleKeys cfg
            ((classMethodKeys name functions).erase (name ++ ".__init__"));
         let rm := renderMethods filepath cinfo.hashtags cfg sel
            (regPop functions (name ++ ".__init__"));
         let ci' : ClassInfo :=
           ⟨cinfo.ancestry, cinfo.classname, cinfo.classdocs, cinfo.decoration,
            cinfo.endlineno, cinfo.hashtags, cinfo.lineno,
            constructorParams init, constructorDocs filepath cfg init,
            (if rm.1.isEmpty then ""
             else cinfo.hashtags ++ "# Methods\n\n" ++ pyJoin "\n\n" rm.1),
            (if (sel.map (funcBullet rm.2)).isEmpty then ""
             else "**Methods**\n\n" ++ pyJoin "\n" (sel.map (funcBullet rm.2))),
            filepath⟩;
         (pyStrip (tplClassdef cfg ci'), regSet classes name ci', rm.2)) := by
  have hpre : (name ++ ".").data.isPrefixOf (name ++ ".__init__").data = true := by
    rw [String.data_append, String.data_append]
    exact isPrefixOf_append_left name.data (".").data (".__init__").data (by decide)
  have hmem : (name ++ ".__init__") ∈ classMethodKeys name functions := by
    unfold classMethodKeys
    exact List.mem_filter.mpr ⟨mem_regKeys_of_regGet hf, hpre⟩
  have hcont : (classMethodKeys name functions).contains (name ++ ".__init__") = true :=
    List.elem_eq_true_of_mem hmem
  have hndk : (classMethodKeys name functions).Nodup := hnd.filter _
  have hnotmem : (name ++ ".__init__") ∉
      (classMethodKeys name functions).erase (name ++ ".__init__") :=
    hndk.not_mem_erase
  have hnotsel : (name ++ ".__init__") ∉
      visibleKeys cfg
        ((classMethodKeys name functions).erase (name ++ ".__init__")) := by
    intro hm
    exact hnotmem (List.mem_of_mem_filter hm)
  have hmain : render_class filepath name classes functions cfg =
      (let sel := visibleKeys cfg
          ((classMethodKeys name functions).erase (name ++ ".__init__"));
       let rm := renderMethods filepath cinfo.hashtags cfg sel
          (regPop functions (name ++ ".__init__"));
       let ci' : ClassInfo :=
         ⟨cinfo.ancestry, cinfo.classname, cinfo.classdocs, cinfo.decoration,
          cinfo.endlineno, cinfo.hashtags, cinfo.lineno,
          constructorParams init, constructorDocs filepath cfg init,
          (if rm.1.isEmpty then ""
           else cinfo.hashtags ++ "# Methods\n\n" ++ pyJoin "\n\n" rm.1),
          (if (sel.map (funcBullet rm.2)).isEmpty then ""
           else "**Methods**\n\n" ++ pyJoin "\n" (sel.map (funcBullet rm.2))),
          filepath⟩;
       (pyStrip (tplClassdef cfg ci'), regSet classes name ci', rm.2)) := by
    unfold render_class
    rw [hc]
    dsimp only
    rw [hcont]
    simp only [if_true]
    rw [hf]
  refine ⟨hnotsel, ?_, hmain⟩
  rw [hmain]
  dsimp only
  rw [renderMethods_regGet_of_not_mem _ _ _ _ _ hnotsel]
  exact regGet_regPop_self functions _ hnd

/-- Witness for C3 on a concrete one-class module. -/
theorem claim_C3_witness :
    regGet c3Classes "m.C" = some c3CInfo
    ∧ regGet c3Functions ("m.C" ++ ".__init__") = some c3Init
    ∧ (regKeys c3Functions).Nodup
    ∧ regGet (render_class "m.py" "m.C" c3Classes c3Functions config).2.2
        ("m.C" ++ ".__init__") = none :=
  ⟨by decide, by decide, by decide,
   (claim_C3_constructor "m.py" "m.C" c3Classes c3Functions config c3CInfo
      c3Init (by decide) (by decide) (by decide)).2.1⟩

theorem sortInsert_perm (x : String × PyModule) :
    ∀ l : List (String × PyModule), (sortInsert x l).Perm (x :: l) := by
  intro l
  induction l with
  | nil => exact List.Perm.refl _
  | cons y ys ih =>
    unfold sortInsert
    by_cases hxy : pyStrLeB x.1.data y.1.data = true
    · rw [if_pos hxy]
    · rw [if_neg hxy]
      exact (ih.cons y).trans (List.Perm.swap x y ys)

theorem sortFiles_perm :
    ∀ l : List (String × PyModule), (sortFiles l).Perm l := by
  intro l
  induction l with
  | nil => exact List.Perm.refl _
  | cons x xs ih =>
    unfold sortFiles
    exact (sortInsert_perm x (sortFiles xs)).trans (ih.cons x)

theorem pyStrLeB_total :
    ∀ a b : List Char, pyStrLeB a b = true ∨ pyStrLeB b a = true := by
  intro a
  induction a with
  | nil => intro b; left; rfl
  | cons c cs ih =>
    intro b
    cases b with
    | nil => right; rfl
    | cons d ds =>
      by_cases hcd : (c == d) = true
      · have hdc : (d == c) = true := by
          have : c = d := by simpa using hcd
          simp [this]
        unfold pyStrLeB
        rw [if_pos hcd, if_pos hdc]
        exact ih ds
      · have hne : c ≠ d := by simpa using hcd
        have hdc : (d == c) = false := by
          simp only [beq_eq_false_iff_ne]
          exact hne.symm
        unfold pyStrLeB
        rw [if_neg hcd, if_neg (by simp [hdc])]
        rcases lt_or_gt_of_ne hne with h | h
        · left; simpa using h
        · right; simpa using h

theorem pyStrLeB_trans :
    ∀ a b c : List Char, pyStrLeB a b = true → pyStrLeB b c = true →
      pyStrLeB a c = true := by
  intro a
  induction a with
  | nil => intro b c _ _; rfl
  | cons x xs ih =>
    intro b c hab hbc
    cases b with
    | nil => simp [pyStrLeB] at hab
    | cons y ys =>
      cases c with
      | nil => simp [pyStrLeB] at hbc
      | cons z zs =>
        unfold pyStrLeB at hab hbc ⊢
        by_cases hxy : (x == y) = true
        · have hxy' : x = y := by simpa using hxy
          rw [if_pos hxy] at hab
          by_cases hyz : (y == z) = true
          · have hyz' : y = z := by simpa using hyz
            rw [if_pos hyz] at hbc
            rw [if_pos (by simp [hxy', hyz'])]
            exact ih ys zs hab hbc
          · rw [if_neg hyz] at hbc
            have hlt : y < z := by simpa using hbc
            have hxz : x < z := hxy' ▸ hlt
            rw [if_neg (by simp; exact ne_of_lt hxz)]
            simpa using hxz
        · rw [if_neg hxy] at hab
          have hlt : x < y := by simpa using hab
          by_cases hyz : (y == z) = true
          · have hyz' : y = z := by simpa using hyz
            have hxz : x < z := hyz' ▸ hlt
            rw [if_neg (by simp; exact ne_of_lt hxz)]
            simpa using hxz
          · rw [if_neg hyz] at hbc
            have hlt2 : y < z := by simpa using hbc
            have hxz : x < z := lt_trans hlt hlt2
            rw [if_neg (by simp; exact ne_of_lt hxz)]
            simpa using hxz

theorem pairwise_sortInsert (x : String × PyModule) :
    ∀ l : List (String × PyModule),
      l.Pairwise (fun a b => pyStrLeB a.1.data b.1.data = true) →
      (sortInsert x l).Pairwise (fun a b => pyStrLeB a.1.data b.1.data = true) := by
  intro l
  induction l with
  | nil => intro _; exact List.pairwise_singleton _ x
  | cons y ys ih =>
    intro h
    rw [List.pairwise_cons] at h
    unfold sortInsert
    by_cases hxy : pyStrLeB x.1.data y.1.data = true
    · rw [if_pos hxy]
      rw [List.pairwise_cons]
      refine ⟨?_, List.pairwise_cons.mpr h⟩
      intro z hz
      cases hz with
      | head => exact hxy
      | tail _ hz => exact pyStrLeB_trans _ _ _ hxy (h.1 z hz)
    · rw [if_neg hxy]
      rw [List.pairwise_cons]
      refine ⟨?_, ih h.2⟩
      intro z hz
      have hz' : z = x ∨ z ∈ ys := by
        have := (sortInsert_perm x ys).mem_iff.mp hz
        simpa using this
      cases hz' with
      | inl he =>
        subst he
        rcases pyStrLeB_total z.1.data y.1.data with h1 | h1
        · exact absurd h1 hxy
        · exact h1
      | inr hm => exact h.1 z hm

theorem pairwise_sortFiles :
    ∀ l : List (String × PyModule),
      (sortFiles l).Pairwise (fun a b => pyStrLeB a.1.data b.1.data = true) := by
  intro l
  induction l with
  | nil => exact List.Pairwise.nil
  | cons x xs ih => exact pairwise_sortInsert x (sortFiles xs) ih

/-- **C9** — `render_recursively` selects, from the files found under the
path, exactly those whose basename passes `recurseKeep`; under
`show_private = false` a file is dropped precisely when its basename starts
with an underscore and is not exactly `__init__.py` (an `__init__.py` always
passes); the selected files stand in sorted path order; and the output is
the `%%%`-marker cleanup of the selected renderings joined with blank
lines — files outside the selection contribute nothing. -/
theorem claim_C9_selection (files : List (String × PyModule))
    (remove_from_path cwd : String) (cfg : Config) (objects : Objects)
    (hsp : cfg.show_private = false) :
    (∀ fp, fp ∈ (sortFiles files).filter (fun q => recurseKeep cfg q.1) ↔
        fp ∈ files ∧ recurseKeep cfg fp.1 = true)
    ∧ (∀ p : String, recurseKeep cfg p = false ↔
        ((lastSlashComp p).data.head? = some '_'
          ∧ lastSlashComp p ≠ "__init__.py"))
    ∧ (∀ p : String, lastSlashComp p = "__init__.py" →
        recurseKeep cfg p = true)
    ∧ ((sortFiles files).filter (fun q => recurseKeep cfg q.1)).Pairwise
        (fun a b => pyStrLeB a.1.data b.1.data = true)
    ∧ render_recursively files remove_from_path cwd cfg objects =
        ((⟨collapseMarkers
            (pyJoin "\n\n"
              (renderEach remove_from_path cwd cfg
                ((sortFiles files).filter (fun q => recurseKeep cfg q.1))
                objects).1).data⟩ : String),
         (renderEach remove_from_path cwd cfg
            ((sortFiles files).filter (fun q => recurseKeep cfg q.1))
            objects).2) := by
  refine ⟨?_, ?_, ?_, ?_, rfl⟩
  · intro fp
    rw [List.mem_filter, (sortFiles_perm files).mem_iff]
  · intro p
    simp only [recurseKeep, hsp, Bool.or_false]
    constructor
    · intro h
      rw [Bool.or_eq_false_iff] at h
      refine ⟨?_, ?_⟩
      · have := h.1
        simp only [Bool.not_eq_false'] at this
        simpa using this
      · intro he
        rw [he] at h
        simp at h
    · rintro ⟨h1, h2⟩
      rw [Bool.or_eq_false_iff]
      constructor
      · simp [h1]
      · simpa using h2
  · intro p hp
    simp [recurseKeep, hp]
  · exact (pairwise_sortFiles files).sublist (List.filter_sublist _)

/-- Witness for C9: the default configuration hides `_hidden.py` but keeps
`__init__.py`. -/
theorem claim_C9_witness :
    config.show_private = false
    ∧ recurseKeep config "pkg/_hidden.py" = false
    ∧ recurseKeep config "pkg/__init__.py" = true :=
  ⟨rfl,
   ((claim_C9_selection [] "" "" config [] rfl).2.1 "pkg/_hidden.py").mpr
     (by decide),
   (claim_C9_selection [] "" "" config [] rfl).2.2.1 "pkg/__init__.py"
     (by decide)⟩

end Astdocs

namespace Astdocs

theorem isAlpha_not_isDigit (c : Char) (h : c.isAlpha = true) : c.isDigit = false := by
  simp [Char.isAlpha, Char.isUpper, Char.isLower, Char.isDigit] at h ⊢
  rcases h with ⟨h1, _⟩ | ⟨h1, _⟩
  · intro _
    have h1' : (65 : UInt32).toNat ≤ c.val.toNat := h1
    show (57 : UInt32).toNat < c.val.toNat
    have e1 : (65 : UInt32).toNat = 65 := rfl
    have e2 : (57 : UInt32).toNat = 57 := rfl
    omega
  · intro _
    have h1' : (97 : UInt32).toNat ≤ c.val.toNat := h1
    show (57 : UInt32).toNat < c.val.toNat
    have e1 : (97 : UInt32).toNat = 97 := rfl
    have e2 : (57 : UInt32).toNat = 57 := rfl
    omega

theorem isIdentStart_not_isDigit (c : Char) (h : isIdentStart c = true) :
    c.isDigit = false := by
  simp [isIdentStart] at h
  rcases h with h | h
  · exact isAlpha_not_isDigit c h
  · subst h
    decide

theorem isDigit_isIdentChar (c : Char) (h : c.isDigit = true) :
    isIdentChar c = true := by
  simp [isIdentChar, Char.isAlphanum, h]

theorem isIdentStart_isIdentChar (c : Char) (h : isIdentStart c = true) :
    isIdentChar c = true := by
  simp [isIdentStart] at h
  rcases h with h | h
  · simp [isIdentChar, Char.isAlphanum, h]
  · simp [isIdentChar, h]

theorem ne_of_isDigit (c : Char) (d : Char) (h : c.isDigit = true)
    (hd : d.isDigit = false) : c ≠ d := by
  intro he
  rw [he] at h
  rw [h] at hd
  cases hd

theorem ne_of_isIdentStart (c : Char) (d : Char) (h : isIdentStart c = true)
    (hd : isIdentStart d = false) : c ≠ d := by
  intro he
  rw [he] at h
  rw [h] at hd
  cases hd

end Astdocs

namespace Astdocs

theorem takeWhile_append_eq (p : Char → Bool) (l r : List Char)
    (hl : ∀ c ∈ l, p c = true)
    (hr : ∀ c, r.head? = some c → p c = false) :
    (l ++ r).takeWhile p = l := by
  induction l with
  | nil =>
    cases r with
    | nil => rfl
    | cons c cs =>
      rw [List.nil_append]
      exact List.takeWhile_cons_of_neg (by simp [hr c rfl])
  | cons c cs ih =>
    rw [List.cons_append, List.takeWhile_cons_of_pos (hl c (by simp))]
    rw [ih (fun d hd => hl d (by simp [hd]))]

theorem parseIdent_complete (id : String) (rest : List Char)
    (h : validIdentB id = true)
    (hrest : ∀ c, rest.head? = some c → isIdentChar c = false) :
    parseIdent (id.data ++ rest) = some (id, rest) := by
  rcases hd : id.data with _ | ⟨c, cs⟩
  · unfold validIdentB at h
    rw [hd] at h
    simp at h
  · have h' := h
    unfold validIdentB at h'
    rw [hd] at h'
    simp only [Bool.and_eq_true] at h'
    obtain ⟨⟨hstart, hall⟩, hkw⟩ := h'
    have hallm : ∀ d ∈ c :: cs, isIdentChar d = true := by
      intro d hdm
      exact (List.all_eq_true.mp hall) d hdm
    have htk : ((c :: cs) ++ rest).takeWhile isIdentChar = c :: cs :=
      takeWhile_append_eq _ _ _ hallm hrest
    show parseIdent (c :: (cs ++ rest)) = some (id, rest)
    unfold parseIdent
    dsimp only
    rw [List.cons_append] at htk
    rw [if_pos hstart, htk]
    have hmk : (⟨c :: cs⟩ : String) = id := by rw [← hd]
    rw [hmk]
    have hc : kwList.contains id = false := by simpa using hkw
    have hnc : ¬(kwList.contains id = true) := by
      rw [hc]
      exact Bool.false_ne_true
    rw [if_neg hnc]
    rw [← List.cons_append c cs rest, List.drop_left]

theorem parseBor_succ (f : Nat) (s : List Char) :
    parseBor (f + 1) s =
      match parsePost f s with
      | none => none
      | some (e, rest) => parseBorTail f e rest := rfl

theorem parseBorTail_succ (f : Nat) (e : PyExpr) (s : List Char) :
    parseBorTail (f + 1) e s =
      if s.take 3 = [' ', '|', ' '] then
        match parsePost f (s.drop 3) with
        | none => none
        | some (e2, rest) => parseBorTail f (.binOp e e2) rest
      else some (e, s) := rfl

theorem parsePost_succ (f : Nat) (s : List Char) :
    parsePost (f + 1) s =
      match parseAtom f s with
      | none => none
      | some (a, rest) => parseTrailers f a rest := rfl

theorem parseExprList_succ (f : Nat) (s : List Char) :
    parseExprList (f + 1) s =
      match parseBor f s with
      | none => none
      | some (e, rest) => parseExprListTail f [e] rest := rfl

end Astdocs

namespace Astdocs

theorem digitChar_spec (k : Nat) (hk : k < 10) :
    (Nat.digitChar k).isDigit = true ∧ (Nat.digitChar k).toNat - 48 = k := by
  interval_cases k <;> exact ⟨by decide, by decide⟩

theorem digitsVal_concat (l : List Char) (c : Char) :
    digitsVal (l ++ [c]) = 10 * digitsVal l + (c.toNat - 48) := by
  unfold digitsVal
  rw [List.foldl_append]
  rfl

theorem toDigitsCore_spec :
    ∀ n f acc, n < f →
      ∃ ds, Nat.toDigitsCore 10 f n acc = ds ++ acc
        ∧ ds ≠ [] ∧ (∀ c ∈ ds, c.isDigit = true) ∧ digitsVal ds = n := by
  intro n
  induction n using Nat.strong_induction_on with
  | _ n IH =>
    intro f acc hf
    obtain ⟨f', rfl⟩ : ∃ f', f = f' + 1 := ⟨f - 1, by omega⟩
    unfold Nat.toDigitsCore
    dsimp only
    by_cases h0 : n / 10 = 0
    · rw [if_pos h0]
      refine ⟨[Nat.digitChar (n % 10)], rfl, by simp, ?_, ?_⟩
      · intro c hc
        simp only [List.mem_singleton] at hc
        subst hc
        exact (digitChar_spec (n % 10) (Nat.mod_lt _ (by omega))).1
      · have hn : n % 10 = n := by omega
        unfold digitsVal
        simp only [List.foldl_cons, List.foldl_nil]
        rw [Nat.mul_zero, Nat.zero_add]
        rw [(digitChar_spec (n % 10) (Nat.mod_lt _ (by omega))).2, hn]
    · rw [if_neg h0]
      have hlt : n / 10 < n := Nat.div_lt_self (by omega) (by omega)
      obtain ⟨ds', hds, hne, hdig, hval⟩ :=
        IH (n / 10) hlt f' (Nat.digitChar (n % 10) :: acc) (by omega)
      refine ⟨ds' ++ [Nat.digitChar (n % 10)], ?_, by simp, ?_, ?_⟩
      · rw [hds, List.append_assoc]
        rfl
      · intro c hc
        rcases List.mem_append.mp hc with hm | hm
        · exact hdig c hm
        · simp only [List.mem_singleton] at hm
          subst hm
          exact (digitChar_spec (n % 10) (Nat.mod_lt _ (by omega))).1
      · rw [digitsVal_concat, hval,
          (digitChar_spec (n % 10) (Nat.mod_lt _ (by omega))).2]
        omega

theorem natRepr_spec (m : Nat) :
    (Nat.repr m).data ≠ []
    ∧ (∀ c ∈ (Nat.repr m).data, c.isDigit = true)
    ∧ digitsVal (Nat.repr m).data = m := by
  obtain ⟨ds, hds, hne, hdig, hval⟩ := toDigitsCore_spec m (m + 1) [] (by omega)
  have he : (Nat.repr m).data = ds := by
    show (Nat.toDigits 10 m).asString.data = ds
    unfold Nat.toDigits
    rw [hds]
    simp [List.asString]
  rw [he]
  exact ⟨hne, hdig, hval⟩

theorem intRepr_spec (n : Int) (hn : 0 ≤ n) :
    (toString n).data ≠ []
    ∧ (∀ c ∈ (toString n).data, c.isDigit = true)
    ∧ (digitsVal (toString n).data : Int) = n := by
  obtain ⟨m, rfl⟩ : ∃ m : Nat, n = Int.ofNat m := ⟨n.toNat, (Int.toNat_of_nonneg hn).symm⟩
  have he : toString (Int.ofNat m) = Nat.repr m := rfl
  rw [he]
  obtain ⟨h1, h2, h3⟩ := natRepr_spec m
  exact ⟨h1, h2, by rw [h3]; rfl⟩

end Astdocs

namespace Astdocs

theorem sizeE_pos (e : PyExpr) : 1 ≤ sizeE e := by
  cases e <;> simp [sizeE]

theorem printTrs_concat (ts : List Trl) (t : Trl) :
    printTrs (ts ++ [t]) = printTrs ts ++ printTrl t := by
  induction ts with
  | nil => simp [printTrs]
  | cons u us ih =>
    show printTrl u ++ printTrs (us ++ [t]) = (printTrl u ++ printTrs us) ++ printTrl t
    rw [ih, List.append_assoc]

theorem spine_print :
    ∀ n e, sizeE e ≤ n →
      ( parse_annotation e).data =
        ( parse_annotation (spineBase e)).data ++ printTrs (spineTrs e) := by
  intro n
  induction n with
  | zero =>
    intro e he
    exact absurd he (by have := sizeE_pos e; omega)
  | succ n IH =>
    intro e he
    cases e with
    | «attribute» v a =>
      have hv : sizeE v ≤ n := by
        have hs : sizeE (.attribute v a) = sizeE v + 1 := rfl
        omega
      show ( parse_annotation v ++ "." ++ a).data = _
      rw [String.data_append, String.data_append, IH v hv]
      show _ = ( parse_annotation (spineBase v)).data ++ printTrs (spineTrs v ++ [.attr a])
      rw [printTrs_concat, List.append_assoc, List.append_assoc]
      rfl
    | call f args kws =>
      have hv : sizeE f ≤ n := by
        have hs : sizeE (.call f args kws) = sizeE f + sizeEKws kws + 1 := rfl
        omega
      show ( parse_annotation f ++ "(" ++ pyJoin ", " (annKws kws) ++ ")").data = _
      rw [String.data_append, String.data_append, String.data_append, IH f hv]
      show _ = ( parse_annotation (spineBase f)).data
        ++ printTrs (spineTrs f ++ [.callK kws])
      rw [printTrs_concat, List.append_assoc, List.append_assoc, List.append_assoc]
      show _ ++ (_ ++ (("(" : String).data ++ ((pyJoin ", " (annKws kws)).data
        ++ (")" : String).data))) = _ ++ (_ ++ printTrl (.callK kws))
      rfl
    | subscript v sl =>
      have hv : sizeE v ≤ n := by
        have hs : sizeE (.subscript v sl) = sizeE v + sizeE sl + 1 := rfl
        omega
      show ( parse_annotation v ++ "[" ++ subInner sl ++ "]").data = _
      rw [String.data_append, String.data_append, String.data_append, IH v hv]
      show _ = ( parse_annotation (spineBase v)).data
        ++ printTrs (spineTrs v ++ [.sub sl])
      rw [printTrs_concat, List.append_assoc, List.append_assoc, List.append_assoc]
      rfl
    | binOp l r => simp [spineBase, spineTrs, printTrs]
    | name id => simp [spineBase, spineTrs, printTrs]
    | constant c => simp [spineBase, spineTrs, printTrs]
    | dict ps => simp [spineBase, spineTrs, printTrs]
    | listE es => simp [spineBase, spineTrs, printTrs]
    | setE es => simp [spineBase, spineTrs, printTrs]
    | tuple es => simp [spineBase, spineTrs, printTrs]
    | unsupported => simp [spineBase, spineTrs, printTrs]
    | noneNode => simp [spineBase, spineTrs, printTrs]

end Astdocs

namespace Astdocs

theorem canonE_binOp (b : Bool) (l r : PyExpr) :
    canonE b (.binOp l r) = (b && canonE true l && canonE false r) := rfl

theorem canonE_subscript (b : Bool) (v sl : PyExpr) :
    canonE b (.subscript v sl) = (canonE false v && canonTrlB (Trl.sub sl)) := by
  cases sl <;> rfl

theorem applyTrs_concat (e : PyExpr) (ts : List Trl) (t : Trl) :
    applyTrs e (ts ++ [t]) = applyTrl (applyTrs e ts) t := by
  unfold applyTrs
  rw [List.foldl_append]
  rfl

theorem spine_canon :
    ∀ n e, sizeE e ≤ n → canonE false e = true →
      canonE false (spineBase e) = true ∧ isAtomE (spineBase e) = true
      ∧ ∀ t ∈ spineTrs e, canonTrlB t = true := by
  intro n
  induction n with
  | zero =>
    intro e he
    exact absurd he (by have := sizeE_pos e; omega)
  | succ n IH =>
    intro e he hc
    cases e with
    | «attribute» v a =>
      have hc' : (canonE false v && validIdentB a && !isIntConstB v) = true := hc
      simp only [Bool.and_eq_true] at hc'
      obtain ⟨⟨h1, h2⟩, _⟩ := hc'
      have hv := IH v
        (by have hs : sizeE (.attribute v a) = sizeE v + 1 := rfl; omega) h1
      refine ⟨hv.1, hv.2.1, ?_⟩
      intro t ht
      have ht' : t ∈ spineTrs v ++ [Trl.attr a] := ht
      rcases List.mem_append.mp ht' with hm | hm
      · exact hv.2.2 t hm
      · simp only [List.mem_singleton] at hm
        subst hm
        exact h2
    | call f args kws =>
      have hc' : (canonE false f && args.isEmpty && canonEKws kws) = true := hc
      simp only [Bool.and_eq_true] at hc'
      obtain ⟨⟨h1, _⟩, h3⟩ := hc'
      have hv := IH f
        (by have hs : sizeE (.call f args kws) = sizeE f + sizeEKws kws + 1 := rfl
            omega) h1
      refine ⟨hv.1, hv.2.1, ?_⟩
      intro t ht
      have ht' : t ∈ spineTrs f ++ [Trl.callK kws] := ht
      rcases List.mem_append.mp ht' with hm | hm
      · exact hv.2.2 t hm
      · simp only [List.mem_singleton] at hm
        subst hm
        exact h3
    | subscript v sl =>
      rw [canonE_subscript] at hc
      simp only [Bool.and_eq_true] at hc
      obtain ⟨h1, h2⟩ := hc
      have hv := IH v
        (by have hs : sizeE (.subscript v sl) = sizeE v + sizeE sl + 1 := rfl
            omega) h1
      refine ⟨hv.1, hv.2.1, ?_⟩
      intro t ht
      have ht' : t ∈ spineTrs v ++ [Trl.sub sl] := ht
      rcases List.mem_append.mp ht' with hm | hm
      · exact hv.2.2 t hm
      · simp only [List.mem_singleton] at hm
        subst hm
        exact h2
    | binOp l r =>
      rw [canonE_binOp] at hc
      simp at hc
    | name id => exact ⟨hc, rfl, fun t ht => absurd ht (List.not_mem_nil t)⟩
    | constant c => exact ⟨hc, rfl, fun t ht => absurd ht (List.not_mem_nil t)⟩
    | dict ps => exact ⟨hc, rfl, fun t ht => absurd ht (List.not_mem_nil t)⟩
    | listE es => exact ⟨hc, rfl, fun t ht => absurd ht (List.not_mem_nil t)⟩
    | setE es => exact ⟨hc, rfl, fun t ht => absurd ht (List.not_mem_nil t)⟩
    | tuple es => exact ⟨hc, rfl, fun t ht => absurd ht (List.not_mem_nil t)⟩
    | unsupported => exact absurd hc (by decide)
    | noneNode => exact absurd hc (by decide)

theorem spine_apply :
    ∀ n e, sizeE e ≤ n → canonE false e = true →
      applyTrs (spineBase e) (spineTrs e) = e := by
  intro n
  induction n with
  | zero =>
    intro e he
    exact absurd he (by have := sizeE_pos e; omega)
  | succ n IH =>
    intro e he hc
    cases e with
    | «attribute» v a =>
      have hc' : (canonE false v && validIdentB a && !isIntConstB v) = true := hc
      simp only [Bool.and_eq_true] at hc'
      show applyTrs (spineBase v) (spineTrs v ++ [Trl.attr a]) = _
      rw [applyTrs_concat,
        IH v (by have hs : sizeE (.attribute v a) = sizeE v + 1 := rfl; omega)
          hc'.1.1]
      rfl
    | call f args kws =>
      have hc' : (canonE false f && args.isEmpty && canonEKws kws) = true := hc
      simp only [Bool.and_eq_true] at hc'
      have hargs : args = [] := by
        have := hc'.1.2
        cases args with
        | nil => rfl
        | cons x xs => simp [List.isEmpty] at this
      subst hargs
      show applyTrs (spineBase f) (spineTrs f ++ [Trl.callK kws]) = _
      rw [applyTrs_concat,
        IH f (by have hs : sizeE (.call f [] kws) = sizeE f + sizeEKws kws + 1 := rfl
                 omega) hc'.1.1]
      rfl
    | subscript v sl =>
      rw [canonE_subscript] at hc
      simp only [Bool.and_eq_true] at hc
      show applyTrs (spineBase v) (spineTrs v ++ [Trl.sub sl]) = _
      rw [applyTrs_concat,
        IH v (by have hs : sizeE (.subscript v sl) = sizeE v + sizeE sl + 1 := rfl
                 omega) hc.1]
      rfl
    | binOp l r =>
      rw [canonE_binOp] at hc
      simp at hc
    | name id => rfl
    | constant c => rfl
    | dict ps => rfl
    | listE es => rfl
    | setE es => rfl
    | tuple es => rfl
    | unsupported => exact absurd hc (by decide)
    | noneNode => exact absurd hc (by decide)

end Astdocs

namespace Astdocs

theorem sizeE_mem_list : ∀ es : List PyExpr, ∀ x ∈ es, sizeE x ≤ sizeEList es := by
  intro es
  induction es with
  | nil => intro x hx; exact absurd hx (List.not_mem_nil x)
  | cons e es ih =>
    intro x hx
    have hs : sizeEList (e :: es) = sizeE e + sizeEList es := rfl
    rcases List.mem_cons.mp hx with h | h
    · subst h; omega
    · have := ih x h; omega

theorem sizeE_mem_kws :
    ∀ kws : List (Option String × PyExpr), ∀ p ∈ kws, sizeE p.2 ≤ sizeEKws kws := by
  intro kws
  induction kws with
  | nil => intro p hp; exact absurd hp (List.not_mem_nil p)
  | cons q qs ih =>
    intro p hp
    obtain ⟨k, v⟩ := q
    have hs : sizeEKws ((k, v) :: qs) = sizeE v + sizeEKws qs := rfl
    rcases List.mem_cons.mp hp with h | h
    · subst h; simp only [hs]; omega
    · have := ih p h; omega

theorem sizeE_mem_pairs :
    ∀ ps : List (PyExpr × PyExpr), ∀ p ∈ ps,
      sizeE p.1 ≤ sizeEPairs ps ∧ sizeE p.2 ≤ sizeEPairs ps := by
  intro ps
  induction ps with
  | nil => intro p hp; exact absurd hp (List.not_mem_nil p)
  | cons q qs ih =>
    intro p hp
    obtain ⟨k, v⟩ := q
    have hs : sizeEPairs ((k, v) :: qs) = sizeE k + sizeE v + sizeEPairs qs := rfl
    rcases List.mem_cons.mp hp with h | h
    · subst h; constructor <;> (simp only [hs]; omega)
    · have := ih p h; omega

theorem spine_sizes :
    ∀ n e, sizeE e ≤ n →
      sizeE (spineBase e) ≤ sizeE e
      ∧ ∀ t ∈ spineTrs e,
          (∀ sl, t = .sub sl → sizeE sl < sizeE e)
          ∧ (∀ kws, t = .callK kws → sizeEKws kws < sizeE e) := by
  intro n
  induction n with
  | zero =>
    intro e he
    exact absurd he (by have := sizeE_pos e; omega)
  | succ n IH =>
    intro e he
    cases e with
    | «attribute» v a =>
      have hs : sizeE (.attribute v a) = sizeE v + 1 := rfl
      have hb : sizeE (spineBase (.attribute v a)) = sizeE (spineBase v) := rfl
      have hv := IH v (by omega)
      refine ⟨by have := hv.1; omega, ?_⟩
      intro t ht
      have ht' : t ∈ spineTrs v ++ [Trl.attr a] := ht
      rcases List.mem_append.mp ht' with hm | hm
      · have := hv.2 t hm
        constructor
        · intro sl hsl
          have := (this.1) sl hsl
          omega
        · intro kws hkws
          have := (this.2) kws hkws
          omega
      · simp only [List.mem_singleton] at hm
        subst hm
        exact ⟨fun sl hsl => (by cases hsl), fun kws hkws => (by cases hkws)⟩
    | call f args kws =>
      have hs : sizeE (.call f args kws) = sizeE f + sizeEKws kws + 1 := rfl
      have hb : sizeE (spineBase (.call f args kws)) = sizeE (spineBase f) := rfl
      have hv := IH f (by omega)
      refine ⟨by have := hv.1; omega, ?_⟩
      intro t ht
      have ht' : t ∈ spineTrs f ++ [Trl.callK kws] := ht
      rcases List.mem_append.mp ht' with hm | hm
      · have := hv.2 t hm
        constructor
        · intro sl hsl
          have := (this.1) sl hsl
          omega
        · intro ks hks
          have := (this.2) ks hks
          omega
      · simp only [List.mem_singleton] at hm
        subst hm
        refine ⟨fun sl hsl => (by cases hsl), fun ks hks => ?_⟩
        cases hks
        omega
    | subscript v sl =>
      have hs : sizeE (.subscript v sl) = sizeE v + sizeE sl + 1 := rfl
      have hb : sizeE (spineBase (.subscript v sl)) = sizeE (spineBase v) := rfl
      have hv := IH v (by omega)
      refine ⟨by have := hv.1; omega, ?_⟩
      intro t ht
      have ht' : t ∈ spineTrs v ++ [Trl.sub sl] := ht
      rcases List.mem_append.mp ht' with hm | hm
      · have := hv.2 t hm
        constructor
        · intro s2 hs2
          have := (this.1) s2 hs2
          omega
        · intro ks hks
          have := (this.2) ks hks
          omega
      · simp only [List.mem_singleton] at hm
        subst hm
        refine ⟨fun s2 hs2 => ?_, fun ks hks => (by cases hks)⟩
        cases hs2
        omega
    | binOp l r =>
      exact ⟨le_rfl, fun t ht => absurd ht (List.not_mem_nil t)⟩
    | name id => exact ⟨le_rfl, fun t ht => absurd ht (List.not_mem_nil t)⟩
    | constant c => exact ⟨le_rfl, fun t ht => absurd ht (List.not_mem_nil t)⟩
    | dict ps => exact ⟨le_rfl, fun t ht => absurd ht (List.not_mem_nil t)⟩
    | listE es => exact ⟨le_rfl, fun t ht => absurd ht (List.not_mem_nil t)⟩
    | setE es => exact ⟨le_rfl, fun t ht => absurd ht (List.not_mem_nil t)⟩
    | tuple es => exact ⟨le_rfl, fun t ht => absurd ht (List.not_mem_nil t)⟩
    | unsupported => exact ⟨le_rfl, fun t ht => absurd ht (List.not_mem_nil t)⟩
    | noneNode => exact ⟨le_rfl, fun t ht => absurd ht (List.not_mem_nil t)⟩

end Astdocs

namespace Astdocs

theorem stopPost_of_stopBor (rest : List Char) (h : stopBorB rest = true) :
    stopPostB rest = true := by
  simp [stopPostB, h]

theorem stopBor_no_bar (rest : List Char) (h : stopBorB rest = true) :
    ¬(rest.take 3 = [' ', '|', ' ']) := by
  cases rest with
  | nil => intro he; simp at he
  | cons c σ =>
    intro he
    have hc : c = ' ' := by
      have h3 : (c :: σ).take 3 = c :: σ.take 2 := rfl
      rw [h3] at he
      exact (List.cons.injEq _ _ _ _).mp he |>.1
    subst hc
    simp [stopBorB] at h

theorem stopPost_cases (rest : List Char) (h : stopPostB rest = true) :
    rest = [] ∨ ∃ c σ, rest = c :: σ
      ∧ (c = ',' ∨ c = ']' ∨ c = ')' ∨ c = '}' ∨ c = ':' ∨ c = ' ') := by
  cases rest with
  | nil => exact Or.inl rfl
  | cons c σ =>
    refine Or.inr ⟨c, σ, rfl, ?_⟩
    unfold stopPostB at h
    rcases Bool.or_eq_true _ _ |>.mp h with h1 | h2
    · unfold stopBorB at h1
      simp only [Bool.or_eq_true, beq_iff_eq] at h1
      tauto
    · have h3 : (c :: σ).take 3 = c :: σ.take 2 := rfl
      rw [h3] at h2
      simp only [beq_iff_eq] at h2
      have := (List.cons.injEq _ _ _ _).mp h2 |>.1
      tauto

theorem stopPost_not_trailer (c : Char) (σ : List Char)
    (h : stopPostB (c :: σ) = true) :
    c ≠ '.' ∧ c ≠ '(' ∧ c ≠ '[' ∧ isIdentChar c = false := by
  rcases stopPost_cases _ h with he | ⟨c', σ', heq, hc⟩
  · cases he
  · have hcc : c = c' := ((List.cons.injEq _ _ _ _).mp heq).1.symm ▸ rfl
    obtain ⟨rfl, -⟩ := (List.cons.injEq _ _ _ _).mp heq
    rcases hc with rfl | rfl | rfl | rfl | rfl | rfl <;>
      exact ⟨by decide, by decide, by decide, by decide⟩

theorem atomStop_of_stopPost (rest : List Char) (h : stopPostB rest = true) :
    atomStopB rest = true := by
  cases rest with
  | nil => rfl
  | cons c σ =>
    have := (stopPost_not_trailer c σ h).2.2.2
    simp [atomStopB, this]

theorem atomStop_trailer (t : Trl) (ts : List Trl) (rest : List Char) :
    atomStopB (printTrs (t :: ts) ++ rest) = true := by
  cases t <;> rfl

theorem canonE_flag (b b' : Bool) (e : PyExpr) (h : ∀ l r, e ≠ .binOp l r) :
    canonE b e = canonE b' e := by
  cases e <;>
    first
      | rfl
      | rw [canonE_subscript, canonE_subscript]
      | exact absurd rfl (h _ _)

theorem borTailStr_concat (xs : List PyExpr) (y : PyExpr) :
    borTailStr (xs ++ [y]) =
      borTailStr xs ++ ' ' :: '|' :: ' ' :: ( parse_annotation y).data := by
  induction xs with
  | nil => simp [borTailStr]
  | cons x xs ih =>
    show ' ' :: '|' :: ' ' :: ( parse_annotation x).data ++ borTailStr (xs ++ [y]) = _
    rw [ih]
    simp [borTailStr]

theorem borOps_decomp :
    ∀ n e, sizeE e ≤ n → canonE true e = true →
      ∃ x xs, borOps e = x :: xs
        ∧ canonE false x = true
        ∧ (∀ y ∈ xs, canonE false y = true)
        ∧ ( parse_annotation e).data = ( parse_annotation x).data ++ borTailStr xs
        ∧ xs.foldl PyExpr.binOp x = e
        ∧ sizeE x ≤ sizeE e ∧ (∀ y ∈ xs, sizeE y < sizeE e) := by
  intro n
  induction n with
  | zero =>
    intro e he
    exact absurd he (by have := sizeE_pos e; omega)
  | succ n IH =>
    intro e he hc
    cases e with
    | binOp l r =>
      rw [canonE_binOp] at hc
      simp only [Bool.true_and, Bool.and_eq_true] at hc
      obtain ⟨hl, hr⟩ := hc
      have hs : sizeE (.binOp l r) = sizeE l + sizeE r + 1 := rfl
      obtain ⟨x, xs, hops, hx, hxs, hprint, hfold, hxsz, hyssz⟩ :=
        IH l (by omega) hl
      refine ⟨x, xs ++ [r], ?_, hx, ?_, ?_, ?_, ?_, ?_⟩
      · show borOps l ++ [r] = x :: (xs ++ [r])
        rw [hops]
        rfl
      · intro y hy
        rcases List.mem_append.mp hy with hm | hm
        · exact hxs y hm
        · simp only [List.mem_singleton] at hm
          subst hm
          exact hr
      · show ( parse_annotation l ++ " | " ++ parse_annotation r).data = _
        rw [String.data_append, String.data_append, hprint, borTailStr_concat]
        simp [List.append_assoc]
      · rw [List.foldl_append, hfold]
        rfl
      · omega
      · intro y hy
        rcases List.mem_append.mp hy with hm | hm
        · have := hyssz y hm
          omega
        · simp only [List.mem_singleton] at hm
          subst hm
          have := sizeE_pos l
          omega
    | «attribute» v a =>
      exact ⟨_, [], rfl,
        (by rw [canonE_flag false true _ (fun l r he => (by cases he))]; exact hc),
        fun y hy => absurd hy (List.not_mem_nil y),
        by simp [borTailStr], rfl, le_rfl,
        fun y hy => absurd hy (List.not_mem_nil y)⟩
    | call f args kws =>
      exact ⟨_, [], rfl,
        (by rw [canonE_flag false true _ (fun l r he => (by cases he))]; exact hc),
        fun y hy => absurd hy (List.not_mem_nil y),
        by simp [borTailStr], rfl, le_rfl,
        fun y hy => absurd hy (List.not_mem_nil y)⟩
    | subscript v sl =>
      exact ⟨_, [], rfl,
        (by rw [canonE_flag false true _ (fun l r he => (by cases he))]; exact hc),
        fun y hy => absurd hy (List.not_mem_nil y),
        by simp [borTailStr], rfl, le_rfl,
        fun y hy => absurd hy (List.not_mem_nil y)⟩
    | name id =>
      exact ⟨_, [], rfl,
        (by rw [canonE_flag false true _ (fun l r he => (by cases he))]; exact hc),
        fun y hy => absurd hy (List.not_mem_nil y),
        by simp [borTailStr], rfl, le_rfl,
        fun y hy => absurd hy (List.not_mem_nil y)⟩
    | constant c =>
      exact ⟨_, [], rfl,
        (by rw [canonE_flag false true _ (fun l r he => (by cases he))]; exact hc),
        fun y hy => absurd hy (List.not_mem_nil y),
        by simp [borTailStr], rfl, le_rfl,
        fun y hy => absurd hy (List.not_mem_nil y)⟩
    | dict ps =>
      exact ⟨_, [], rfl,
        (by rw [canonE_flag false true _ (fun l r he => (by cases he))]; exact hc),
        fun y hy => absurd hy (List.not_mem_nil y),
        by simp [borTailStr], rfl, le_rfl,
        fun y hy => absurd hy (List.not_mem_nil y)⟩
    | listE es =>
      exact ⟨_, [], rfl,
        (by rw [canonE_flag false true _ (fun l r he => (by cases he))]; exact hc),
        fun y hy => absurd hy (List.not_mem_nil y),
        by simp [borTailStr], rfl, le_rfl,
        fun y hy => absurd hy (List.not_mem_nil y)⟩
    | setE es =>
      exact ⟨_, [], rfl,
        (by rw [canonE_flag false true _ (fun l r he => (by cases he))]; exact hc),
        fun y hy => absurd hy (List.not_mem_nil y),
        by simp [borTailStr], rfl, le_rfl,
        fun y hy => absurd hy (List.not_mem_nil y)⟩
    | tuple es =>
      exact ⟨_, [], rfl,
        (by rw [canonE_flag false true _ (fun l r he => (by cases he))]; exact hc),
        fun y hy => absurd hy (List.not_mem_nil y),
        by simp [borTailStr], rfl, le_rfl,
        fun y hy => absurd hy (List.not_mem_nil y)⟩
    | unsupported => exact absurd hc (by decide)
    | noneNode => exact absurd hc (by decide)

end Astdocs

namespace Astdocs

theorem pyJoin_annList (e : PyExpr) :
    ∀ es, (pyJoin ", " (annList (e :: es))).data =
      ( parse_annotation e).data ++ listTailStr es := by
  intro es
  induction es generalizing e with
  | nil => simp [annList, pyJoin, listTailStr]
  | cons e2 es ih =>
    show (pyJoin ", " ( parse_annotation e :: annList (e2 :: es))).data = _
    have h2 : annList (e2 :: es) = parse_annotation e2 :: annList es := rfl
    rw [h2]
    show ( parse_annotation e ++ ", " ++ pyJoin ", " ( parse_annotation e2 :: annList es)).data = _
    rw [String.data_append, String.data_append]
    rw [← h2, ih e2]
    simp [listTailStr]

theorem pyJoin_annPairs (k v : PyExpr) :
    ∀ ps, (pyJoin ", " (annPairs ((k, v) :: ps))).data =
      ( parse_annotation k).data ++ ':' :: ' ' :: ( parse_annotation v).data
        ++ pairsTailStr ps := by
  intro ps
  induction ps generalizing k v with
  | nil =>
    show (( parse_annotation k ++ ": " ++ parse_annotation v)).data = _
    rw [String.data_append, String.data_append]
    simp [pairsTailStr]
  | cons p ps ih =>
    obtain ⟨k2, v2⟩ := p
    show (pyJoin ", " (( parse_annotation k ++ ": " ++ parse_annotation v)
      :: annPairs ((k2, v2) :: ps))).data = _
    have h2 : annPairs ((k2, v2) :: ps) =
      ( parse_annotation k2 ++ ": " ++ parse_annotation v2) :: annPairs ps := rfl
    rw [h2]
    show (( parse_annotation k ++ ": " ++ parse_annotation v) ++ ", "
      ++ pyJoin ", " (( parse_annotation k2 ++ ": " ++ parse_annotation v2)
        :: annPairs ps)).data = _
    rw [String.data_append]
    rw [← h2, ih k2 v2]
    rw [String.data_append, String.data_append]
    simp [pairsTailStr]

theorem pyJoin_annKws (k : Option String) (v : PyExpr) :
    ∀ kws, (pyJoin ", " (annKws ((k, v) :: kws))).data =
      (kwNameStr k).data ++ '=' :: ( parse_annotation v).data ++ kwTailStr kws := by
  intro kws
  induction kws generalizing k v with
  | nil =>
    show ((kwNameStr k ++ "=" ++ parse_annotation v)).data = _
    rw [String.data_append, String.data_append]
    simp [kwTailStr]
  | cons p kws ih =>
    obtain ⟨k2, v2⟩ := p
    show (pyJoin ", " ((kwNameStr k ++ "=" ++ parse_annotation v)
      :: annKws ((k2, v2) :: kws))).data = _
    have h2 : annKws ((k2, v2) :: kws) =
      (kwNameStr k2 ++ "=" ++ parse_annotation v2) :: annKws kws := rfl
    rw [h2]
    show ((kwNameStr k ++ "=" ++ parse_annotation v) ++ ", "
      ++ pyJoin ", " ((kwNameStr k2 ++ "=" ++ parse_annotation v2)
        :: annKws kws)).data = _
    rw [String.data_append]
    rw [← h2, ih k2 v2]
    rw [String.data_append, String.data_append]
    simp [kwTailStr]

theorem canonEList_mem :
    ∀ es, canonEList es = true → ∀ x ∈ es, canonE true x = true := by
  intro es
  induction es with
  | nil => intro _ x hx; exact absurd hx (List.not_mem_nil x)
  | cons e es ih =>
    intro h x hx
    have h' : (canonE true e && canonEList es) = true := h
    simp only [Bool.and_eq_true] at h'
    rcases List.mem_cons.mp hx with rfl | hm
    · exact h'.1
    · exact ih h'.2 x hm

theorem canonEPairs_mem :
    ∀ ps, canonEPairs ps = true →
      ∀ p ∈ ps, canonE true (p : PyExpr × PyExpr).1 = true ∧ canonE true p.2 = true := by
  intro ps
  induction ps with
  | nil => intro _ p hp; exact absurd hp (List.not_mem_nil p)
  | cons q qs ih =>
    intro h p hp
    obtain ⟨k, v⟩ := q
    have h' : (canonE true k && canonE true v && canonEPairs qs) = true := h
    simp only [Bool.and_eq_true] at h'
    rcases List.mem_cons.mp hp with rfl | hm
    · exact ⟨h'.1.1, h'.1.2⟩
    · exact ih h'.2 p hm

theorem canonEKws_mem :
    ∀ kws, canonEKws kws = true →
      ∀ p ∈ kws, (∃ s, (p : Option String × PyExpr).1 = some s ∧ validIdentB s = true)
        ∧ canonE true p.2 = true := by
  intro kws
  induction kws with
  | nil => intro _ p hp; exact absurd hp (List.not_mem_nil p)
  | cons q qs ih =>
    intro h p hp
    obtain ⟨k, v⟩ := q
    cases k with
    | none =>
      have h' : (false && canonE true v && canonEKws qs) = true := h
      simp at h'
    | some s =>
      have h' : (validIdentB s && canonE true v && canonEKws qs) = true := h
      simp only [Bool.and_eq_true] at h'
      rcases List.mem_cons.mp hp with rfl | hm
      · exact ⟨⟨s, rfl, h'.1.1⟩, h'.1.2⟩
      · exact ih h'.2 p hm

end Astdocs

namespace Astdocs

theorem canonE_weaken (b : Bool) (e : PyExpr) (h : canonE b e = true) :
    canonE true e = true := by
  cases e <;> cases b <;>
    first
      | exact h
      | (rw [canonE_subscript] at h ⊢; exact h)
      | (rw [canonE_binOp] at h; simp at h)

theorem canon_head :
    ∀ n e, sizeE e ≤ n → canonE true e = true →
      ∃ c σ, ( parse_annotation e).data = c :: σ
        ∧ (c = '"' ∨ c = '[' ∨ c = '{' ∨ c = '(' ∨ c.isDigit = true
            ∨ isIdentStart c = true) := by
  intro n
  induction n with
  | zero =>
    intro e he
    exact absurd he (by have := sizeE_pos e; omega)
  | succ n IH =>
    intro e he hc
    cases e with
    | name id =>
      have h' : validIdentB id = true := hc
      unfold validIdentB at h'
      simp only [Bool.and_eq_true] at h'
      rcases hd : id.data with _ | ⟨c, cs⟩
      · rw [hd] at h'
        simp at h'
      · have hs := h'.1.1
        rw [hd] at hs
        exact ⟨c, cs, hd, Or.inr (Or.inr (Or.inr (Or.inr (Or.inr hs))))⟩
    | constant c =>
      cases c with
      | str s =>
        refine ⟨'"', s.data ++ ("\"" : String).data, ?_, Or.inl rfl⟩
        show ("\"" ++ s ++ "\"").data = _
        rw [String.data_append, String.data_append]
        rfl
      | int m =>
        have h' : canonConstB (.int m) = true := hc
        have hm : 0 ≤ m := by simpa [canonConstB] using h'
        obtain ⟨hne, hdig, -⟩ := intRepr_spec m hm
        rcases hd : (toString m).data with _ | ⟨c, cs⟩
        · exact absurd hd hne
        · refine ⟨c, cs, hd, Or.inr (Or.inr (Or.inr (Or.inr (Or.inl ?_))))⟩
          apply hdig
          rw [hd]
          simp
      | bool b =>
        cases b
        · exact ⟨'F', "alse".data, rfl, by decide⟩
        · exact ⟨'T', "rue".data, rfl, by decide⟩
      | noneV => exact ⟨'N', "one".data, rfl, by decide⟩
      | other r =>
        have h' : canonConstB (.other r) = true := hc
        simp [canonConstB] at h'
    | listE es =>
      refine ⟨'[', ((pyJoin ", " (annList es)) ++ "]").data, ?_, by decide⟩
      show ("[" ++ pyJoin ", " (annList es) ++ "]").data = _
      rw [String.data_append, String.data_append, String.data_append]
      rfl
    | dict ps =>
      refine ⟨'{', ((pyJoin ", " (annPairs ps)) ++ "\x7d").data, ?_, by decide⟩
      show ("\x7b" ++ pyJoin ", " (annPairs ps) ++ "\x7d").data = _
      rw [String.data_append, String.data_append, String.data_append]
      rfl
    | setE es =>
      refine ⟨'{', ((pyJoin ", " (annList es)) ++ "\x7d").data, ?_, by decide⟩
      show ("\x7b" ++ pyJoin ", " (annList es) ++ "\x7d").data = _
      rw [String.data_append, String.data_append, String.data_append]
      rfl
    | tuple es =>
      refine ⟨'(', ((pyJoin ", " (annList es)) ++ ")").data, ?_, by decide⟩
      show ("(" ++ pyJoin ", " (annList es) ++ ")").data = _
      rw [String.data_append, String.data_append, String.data_append]
      rfl
    | binOp l r =>
      rw [canonE_binOp] at hc
      simp only [Bool.true_and, Bool.and_eq_true] at hc
      have hs : sizeE (.binOp l r) = sizeE l + sizeE r + 1 := rfl
      have hr := sizeE_pos r
      obtain ⟨c, σ, hd, hcl⟩ := IH l (by omega) hc.1
      refine ⟨c, σ ++ (" | " ++ parse_annotation r).data, ?_, hcl⟩
      show ( parse_annotation l ++ " | " ++ parse_annotation r).data = _
      rw [String.append_assoc, String.data_append, hd]
      rfl
    | «attribute» v a =>
      have hc' : (canonE false v && validIdentB a && !isIntConstB v) = true := hc
      simp only [Bool.and_eq_true] at hc'
      have hs : sizeE (.attribute v a) = sizeE v + 1 := rfl
      obtain ⟨c, σ, hd, hcl⟩ :=
        IH v (by omega) (canonE_weaken false v hc'.1.1)
      refine ⟨c, σ ++ ("." ++ a).data, ?_, hcl⟩
      show ( parse_annotation v ++ "." ++ a).data = _
      rw [String.append_assoc, String.data_append, hd]
      rfl
    | call f args kws =>
      have hc' : (canonE false f && args.isEmpty && canonEKws kws) = true := hc
      simp only [Bool.and_eq_true] at hc'
      have hs : sizeE (.call f args kws) = sizeE f + sizeEKws kws + 1 := rfl
      obtain ⟨c, σ, hd, hcl⟩ :=
        IH f (by omega) (canonE_weaken false f hc'.1.1)
      refine ⟨c, σ ++ ("(" ++ pyJoin ", " (annKws kws) ++ ")").data, ?_, hcl⟩
      show ( parse_annotation f ++ "(" ++ pyJoin ", " (annKws kws) ++ ")").data = _
      rw [String.append_assoc, String.append_assoc, String.data_append, hd]
      rfl
    | subscript v sl =>
      rw [canonE_subscript] at hc
      simp only [Bool.and_eq_true] at hc
      have hs : sizeE (.subscript v sl) = sizeE v + sizeE sl + 1 := rfl
      obtain ⟨c, σ, hd, hcl⟩ :=
        IH v (by omega) (canonE_weaken false v hc.1)
      refine ⟨c, σ ++ ("[" ++ subInner sl ++ "]").data, ?_, hcl⟩
      show ( parse_annotation v ++ "[" ++ subInner sl ++ "]").data = _
      rw [String.append_assoc, String.append_assoc, String.data_append, hd]
      rfl
    | unsupported => exact absurd hc (by decide)
    | noneNode => exact absurd hc (by decide)

end Astdocs

namespace Astdocs

theorem canon_head_ne (c : Char)
    (hcl : c = '"' ∨ c = '[' ∨ c = '{' ∨ c = '(' ∨ c.isDigit = true
      ∨ isIdentStart c = true)
    (d : Char) (h1 : d ≠ '"') (h2 : d ≠ '[') (h3 : d ≠ '{') (h4 : d ≠ '(')
    (h5 : d.isDigit = false) (h6 : isIdentStart d = false) : c ≠ d := by
  rcases hcl with rfl | rfl | rfl | rfl | h | h
  · exact fun he => h1 he.symm
  · exact fun he => h2 he.symm
  · exact fun he => h3 he.symm
  · exact fun he => h4 he.symm
  · exact ne_of_isDigit c d h h5
  · exact ne_of_isIdentStart c d h h6

theorem stopBor_listTail (ys : List PyExpr) (rest : List Char)
    (hrest : rest.head? = some ']' ∨ rest.head? = some ')'
      ∨ rest.head? = some '}') :
    stopBorB (listTailStr ys ++ rest) = true := by
  cases ys with
  | nil =>
    show stopBorB ([] ++ rest) = true
    rw [List.nil_append]
    rcases hrest with h | h | h <;>
      (cases rest with
       | nil => simp at h
       | cons c σ =>
         have hc := by simpa using h
         subst hc
         rfl)
  | cons y ys => rfl

theorem parseExprListTail_complete :
    ∀ (ys acc : List PyExpr) (rest : List Char) (g : Nat),
      (∀ y ∈ ys, LBorS y) →
      (rest.head? = some ']' ∨ rest.head? = some ')') →
      8 * (listTailStr ys).length + 14 ≤ g →
      parseExprListTail g acc (listTailStr ys ++ rest) = some (acc ++ ys, rest) := by
  intro ys
  induction ys with
  | nil =>
    intro acc rest g _ hrest hg
    obtain ⟨g', rfl⟩ : ∃ g', g = g' + 1 := ⟨g - 1, by omega⟩
    show parseExprListTail (g' + 1) acc ([] ++ rest) = some (acc ++ [], rest)
    rw [List.nil_append, List.append_nil]
    rcases hrest with h | h <;>
      (cases rest with
       | nil => simp at h
       | cons c σ =>
         have hc := by simpa using h
         subst hc
         rfl)
  | cons y ys ih =>
    intro acc rest g hel hrest hg
    obtain ⟨g', rfl⟩ : ∃ g', g = g' + 1 := ⟨g - 1, by omega⟩
    have hlen : (listTailStr (y :: ys)).length =
        2 + ( parse_annotation y).data.length + (listTailStr ys).length := by
      simp only [listTailStr, List.length_cons, List.length_append]
      omega
    show parseExprListTail (g' + 1) acc
      ((',' :: ' ' :: ( parse_annotation y).data ++ listTailStr ys) ++ rest) = _
    simp only [List.cons_append, List.append_assoc]
    have hstep : ∀ X : List Char, parseExprListTail (g' + 1) acc (',' :: ' ' :: X) =
        (match parseBor g' X with
         | none => none
         | some (e, rest2) => parseExprListTail g' (acc ++ [e]) rest2) :=
      fun X => rfl
    rw [hstep]
    have hbor := hel y (List.mem_cons_self y ys) (listTailStr ys ++ rest) g'
      (stopBor_listTail ys rest (by tauto)) (by omega)
    rw [hbor]
    have htl := ih (acc ++ [y]) rest g'
      (fun z hz => hel z (List.mem_cons_of_mem y hz)) hrest (by omega)
    show parseExprListTail g' (acc ++ [y]) (listTailStr ys ++ rest) = _
    rw [htl]
    simp

theorem parseExprList_complete (x : PyExpr) (ys : List PyExpr) (rest : List Char)
    (g : Nat) (hx : LBorS x) (hys : ∀ y ∈ ys, LBorS y)
    (hrest : rest.head? = some ']' ∨ rest.head? = some ')')
    (hg : 8 * (( parse_annotation x).data.length + (listTailStr ys).length) + 18 ≤ g) :
    parseExprList g (( parse_annotation x).data ++ listTailStr ys ++ rest) =
      some (x :: ys, rest) := by
  obtain ⟨g', rfl⟩ : ∃ g', g = g' + 1 := ⟨g - 1, by omega⟩
  rw [parseExprList_succ, List.append_assoc]
  have hbor := hx (listTailStr ys ++ rest) g'
    (stopBor_listTail ys rest (by tauto)) (by omega)
  rw [hbor]
  have htl := parseExprListTail_complete ys [x] rest g' hys hrest (by omega)
  show parseExprListTail g' [x] (listTailStr ys ++ rest) = _
  rw [htl]
  simp

end Astdocs

namespace Astdocs

theorem stopBor_kwTail (kws : List (Option String × PyExpr)) (rest : List Char)
    (hrest : rest.head? = some ')') : stopBorB (kwTailStr kws ++ rest) = true := by
  cases kws with
  | nil =>
    rw [show kwTailStr [] = [] from rfl, List.nil_append]
    cases rest with
    | nil => simp at hrest
    | cons c σ =>
      have hc : c = ')' := by simpa using hrest
      subst hc
      rfl
  | cons q kws =>
    obtain ⟨k, v⟩ := q
    rfl

theorem stopBor_pairsTail (ps : List (PyExpr × PyExpr)) (rest : List Char)
    (hrest : rest.head? = some '}') : stopBorB (pairsTailStr ps ++ rest) = true := by
  cases ps with
  | nil =>
    rw [show pairsTailStr [] = [] from rfl, List.nil_append]
    cases rest with
    | nil => simp at hrest
    | cons c σ =>
      have hc : c = '}' := by simpa using hrest
      subst hc
      rfl
  | cons q ps =>
    obtain ⟨k, v⟩ := q
    rfl

theorem parseKwTail_complete :
    ∀ (kws acc : List (Option String × PyExpr)) (rest : List Char) (g : Nat),
      (∀ p ∈ kws, ∃ s, (p : Option String × PyExpr).1 = some s
        ∧ validIdentB s = true ∧ LBorS p.2) →
      rest.head? = some ')' →
      8 * (kwTailStr kws).length + 14 ≤ g →
      parseKwTail g acc (kwTailStr kws ++ rest) = some (acc ++ kws, rest) := by
  intro kws
  induction kws with
  | nil =>
    intro acc rest g _ hrest hg
    obtain ⟨g', rfl⟩ : ∃ g', g = g' + 1 := ⟨g - 1, by omega⟩
    rw [show kwTailStr [] = [] from rfl, List.nil_append, List.append_nil]
    cases rest with
    | nil => simp at hrest
    | cons c σ =>
      have hc : c = ')' := by simpa using hrest
      subst hc
      rfl
  | cons q tl ih =>
    intro acc rest g hel hrest hg
    obtain ⟨g', rfl⟩ : ∃ g', g = g' + 1 := ⟨g - 1, by omega⟩
    obtain ⟨k, v⟩ := q
    obtain ⟨s, hk, hvs, hvb0⟩ := hel (k, v) (List.mem_cons_self _ _)
    subst hk
    have hvb : LBorS v := hvb0
    have hkn : kwNameStr (some s) = s := rfl
    have hlen : (kwTailStr ((some s, v) :: tl)).length =
        2 + s.data.length + 1 + ( parse_annotation v).data.length
          + (kwTailStr tl).length := by
      simp only [kwTailStr, hkn, List.length_cons, List.length_append]
      omega
    show parseKwTail (g' + 1) acc
      ((',' :: ' ' :: (kwNameStr (some s)).data ++ '=' :: ( parse_annotation v).data
        ++ kwTailStr tl) ++ rest) = _
    rw [hkn]
    simp only [List.cons_append, List.append_assoc]
    have hstep : ∀ X : List Char, parseKwTail (g' + 1) acc (',' :: ' ' :: X) =
        (match parseIdent X with
         | some (k2, '=' :: rest2) =>
           (match parseBor g' rest2 with
            | none => none
            | some (v2, rest3) => parseKwTail g' (acc ++ [(some k2, v2)]) rest3)
         | _ => none) :=
      fun X => rfl
    rw [hstep]
    have hident := parseIdent_complete s
      ('=' :: (( parse_annotation v).data ++ (kwTailStr tl ++ rest))) hvs
      (fun c hc => by
        have h2 : '=' = c := by simpa using hc
        rw [← h2]
        decide)
    rw [hident]
    show (match parseBor g' (( parse_annotation v).data ++ (kwTailStr tl ++ rest)) with
          | none => none
          | some (v2, rest3) => parseKwTail g' (acc ++ [(some s, v2)]) rest3) = _
    have hbor := hvb (kwTailStr tl ++ rest) g' (stopBor_kwTail tl rest hrest)
      (by omega)
    rw [hbor]
    have htl := ih (acc ++ [(some s, v)]) rest g'
      (fun p hp => hel p (List.mem_cons_of_mem _ hp)) hrest (by omega)
    show parseKwTail g' (acc ++ [(some s, v)]) (kwTailStr tl ++ rest) = _
    rw [htl]
    simp

theorem parseKwList_complete (s : String) (v : PyExpr)
    (tl : List (Option String × PyExpr)) (rest : List Char) (g : Nat)
    (hvs : validIdentB s = true) (hv : LBorS v)
    (htl : ∀ p ∈ tl, ∃ s2, (p : Option String × PyExpr).1 = some s2
      ∧ validIdentB s2 = true ∧ LBorS p.2)
    (hrest : rest.head? = some ')')
    (hg : 8 * (s.data.length + 1 + ( parse_annotation v).data.length
      + (kwTailStr tl).length) + 18 ≤ g) :
    parseKwList g (s.data ++ '=' :: ( parse_annotation v).data ++ kwTailStr tl ++ rest) =
      some ((some s, v) :: tl, rest) := by
  obtain ⟨g', rfl⟩ : ∃ g', g = g' + 1 := ⟨g - 1, by omega⟩
  simp only [List.cons_append, List.append_assoc]
  have hstep : ∀ X : List Char, parseKwList (g' + 1) X =
      (match parseIdent X with
       | none => none
       | some (k2, '=' :: rest2) =>
         (match parseBor g' rest2 with
          | none => none
          | some (v2, rest3) => parseKwTail g' [(some k2, v2)] rest3)
       | some _ => none) :=
    fun X => rfl
  rw [hstep]
  have hident := parseIdent_complete s
    ('=' :: (( parse_annotation v).data ++ (kwTailStr tl ++ rest))) hvs
    (fun c hc => by
      have h2 : '=' = c := by simpa using hc
      rw [← h2]
      decide)
  rw [hident]
  show (match parseBor g' (( parse_annotation v).data ++ (kwTailStr tl ++ rest)) with
        | none => none
        | some (v2, rest3) => parseKwTail g' [(some s, v2)] rest3) = _
  have hbor := hv (kwTailStr tl ++ rest) g' (stopBor_kwTail tl rest hrest) (by omega)
  rw [hbor]
  have htl2 := parseKwTail_complete tl [(some s, v)] rest g' htl hrest (by omega)
  show parseKwTail g' [(some s, v)] (kwTailStr tl ++ rest) = _
  rw [htl2]
  simp

end Astdocs

namespace Astdocs

theorem parseDictTail_complete :
    ∀ (ps acc : List (PyExpr × PyExpr)) (rest : List Char) (g : Nat),
      (∀ p ∈ ps, LBorS (p : PyExpr × PyExpr).1 ∧ LBorS p.2) →
      8 * (pairsTailStr ps).length + 14 ≤ g →
      parseDictTail g acc (pairsTailStr ps ++ '}' :: rest) =
        some (.dict (acc ++ ps), rest) := by
  intro ps
  induction ps with
  | nil =>
    intro acc rest g _ hg
    obtain ⟨g', rfl⟩ : ∃ g', g = g' + 1 := ⟨g - 1, by omega⟩
    rw [show pairsTailStr [] = [] from rfl, List.nil_append, List.append_nil]
    rfl
  | cons q tl ih =>
    intro acc rest g hel hg
    obtain ⟨g', rfl⟩ : ∃ g', g = g' + 1 := ⟨g - 1, by omega⟩
    obtain ⟨k, v⟩ := q
    obtain ⟨hk0, hv0⟩ := hel (k, v) (List.mem_cons_self _ _)
    have hk : LBorS k := hk0
    have hv : LBorS v := hv0
    have hlen : (pairsTailStr ((k, v) :: tl)).length =
        2 + ( parse_annotation k).data.length + 2
          + ( parse_annotation v).data.length + (pairsTailStr tl).length := by
      simp only [pairsTailStr, List.length_cons, List.length_append]
      omega
    show parseDictTail (g' + 1) acc
      ((',' :: ' ' :: ( parse_annotation k).data
        ++ ':' :: ' ' :: ( parse_annotation v).data ++ pairsTailStr tl)
        ++ '}' :: rest) = _
    simp only [List.cons_append, List.append_assoc]
    have hstep : ∀ X : List Char, parseDictTail (g' + 1) acc (',' :: ' ' :: X) =
        (match parseBor g' X with
         | some (k2, ':' :: ' ' :: rest2) =>
           (match parseBor g' rest2 with
            | none => none
            | some (v2, rest3) => parseDictTail g' (acc ++ [(k2, v2)]) rest3)
         | _ => none) :=
      fun X => rfl
    rw [hstep]
    have hbk := hk (':' :: ' ' :: (( parse_annotation v).data
      ++ (pairsTailStr tl ++ '}' :: rest))) g' rfl (by omega)
    rw [hbk]
    show (match parseBor g' (( parse_annotation v).data
          ++ (pairsTailStr tl ++ '}' :: rest)) with
         | none => none
         | some (v2, rest3) => parseDictTail g' (acc ++ [(k, v2)]) rest3) = _
    have hbv := hv (pairsTailStr tl ++ '}' :: rest) g'
      (stopBor_pairsTail tl ('}' :: rest) rfl) (by omega)
    rw [hbv]
    have htl := ih (acc ++ [(k, v)]) rest g'
      (fun p hp => hel p (List.mem_cons_of_mem _ hp)) (by omega)
    show parseDictTail g' (acc ++ [(k, v)]) (pairsTailStr tl ++ '}' :: rest) = _
    rw [htl]
    simp

theorem parseSetTail_complete :
    ∀ (es acc : List PyExpr) (rest : List Char) (g : Nat),
      (∀ y ∈ es, LBorS y) →
      8 * (listTailStr es).length + 14 ≤ g →
      parseSetTail g acc (listTailStr es ++ '}' :: rest) =
        some (.setE (acc ++ es), rest) := by
  intro es
  induction es with
  | nil =>
    intro acc rest g _ hg
    obtain ⟨g', rfl⟩ : ∃ g', g = g' + 1 := ⟨g - 1, by omega⟩
    rw [show listTailStr [] = [] from rfl, List.nil_append, List.append_nil]
    rfl
  | cons y tl ih =>
    intro acc rest g hel hg
    obtain ⟨g', rfl⟩ : ∃ g', g = g' + 1 := ⟨g - 1, by omega⟩
    have hlen : (listTailStr (y :: tl)).length =
        2 + ( parse_annotation y).data.length + (listTailStr tl).length := by
      simp only [listTailStr, List.length_cons, List.length_append]
      omega
    show parseSetTail (g' + 1) acc
      ((',' :: ' ' :: ( parse_annotation y).data ++ listTailStr tl)
        ++ '}' :: rest) = _
    simp only [List.cons_append, List.append_assoc]
    have hstep : ∀ X : List Char, parseSetTail (g' + 1) acc (',' :: ' ' :: X) =
        (match parseBor g' X with
         | none => none
         | some (e, rest2) => parseSetTail g' (acc ++ [e]) rest2) :=
      fun X => rfl
    rw [hstep]
    have hb := hel y (List.mem_cons_self _ _) (listTailStr tl ++ '}' :: rest) g'
      (stopBor_listTail tl ('}' :: rest) (by simp)) (by omega)
    rw [hb]
    have htl := ih (acc ++ [y]) rest g'
      (fun z hz => hel z (List.mem_cons_of_mem _ hz)) (by omega)
    show parseSetTail g' (acc ++ [y]) (listTailStr tl ++ '}' :: rest) = _
    rw [htl]
    simp

end Astdocs

namespace Astdocs

theorem validIdent_ne_kw (id : String) (h : validIdentB id = true) :
    id ≠ "True" ∧ id ≠ "False" ∧ id ≠ "None" ∧ kwList.contains id = false := by
  unfold validIdentB at h
  simp only [Bool.and_eq_true] at h
  have hc : kwList.contains id = false := by simpa using h.2
  refine ⟨?_, ?_, ?_, hc⟩ <;>
    · intro he
      rw [he] at hc
      exact absurd hc (by decide)

theorem atomStop_no_digit (rest : List Char) (h : atomStopB rest = true) :
    ∀ c, rest.head? = some c → c.isDigit = false := by
  intro c hc
  cases rest with
  | nil => simp at hc
  | cons d σ =>
    have hd : d = c := by simpa using hc
    subst hd
    simp only [atomStopB, Bool.not_eq_true'] at h
    cases hdig : d.isDigit
    · rfl
    · rw [isDigit_isIdentChar d hdig] at h
      cases h

theorem atomStop_no_identChar (rest : List Char) (h : atomStopB rest = true) :
    ∀ c, rest.head? = some c → isIdentChar c = false := by
  intro c hc
  cases rest with
  | nil => simp at hc
  | cons d σ =>
    have hd : d = c := by simpa using hc
    subst hd
    simpa [atomStopB] using h

theorem subInner_nostrip (sl : PyExpr)
    (h : headParenB ( parse_annotation sl) = false) : subInner sl = parse_annotation sl := by
  unfold subInner
  dsimp only
  have hcond : (( parse_annotation sl).data.head? == some '('
      && ( parse_annotation sl).data.getLast? == some ')') = headParenB ( parse_annotation sl) := rfl
  rw [hcond, h]
  rfl

theorem subInner_tuple (es : List PyExpr) :
    (subInner (.tuple es)).data = (pyJoin ", " (annList es)).data := by
  have hp : parse_annotation (.tuple es) =
      "(" ++ pyJoin ", " (annList es) ++ ")" := rfl
  have hd : ( parse_annotation (.tuple es)).data =
      '(' :: ((pyJoin ", " (annList es)).data ++ [')']) := by
    rw [hp, String.data_append, String.data_append]
    rfl
  unfold subInner
  dsimp only
  rw [hd]
  have hh : (('(' :: ((pyJoin ", " (annList es)).data ++ [')'])).head? == some '(') = true := by
    simp
  have hl : (('(' :: ((pyJoin ", " (annList es)).data ++ [')'])).getLast? == some ')') = true := by
    have : ('(' :: ((pyJoin ", " (annList es)).data ++ [')'])).getLast? = some ')' := by
      rw [show ('(' :: ((pyJoin ", " (annList es)).data ++ [')']))
        = ('(' :: (pyJoin ", " (annList es)).data) ++ [')'] from by simp,
        List.getLast?_concat]
    simp [this]
  rw [hh, hl]
  show (⟨(('(' :: ((pyJoin ", " (annList es)).data ++ [')'])).drop 1).dropLast⟩ : String).data = _
  show ((((pyJoin ", " (annList es)).data ++ [')'])).dropLast) = _
  rw [List.dropLast_concat]

end Astdocs

namespace Astdocs

theorem parseAtom_complete :
    ∀ b : PyExpr, canonE false b = true → isAtomE b = true →
      (∀ x, sizeE x < sizeE b → canonE true x = true → LBorS x) →
      ∀ rest g, atomStopB rest = true →
        8 * ( parse_annotation b).data.length + 12 ≤ g →
        parseAtom g (( parse_annotation b).data ++ rest) = some (b, rest) := by
  intro b hc hatom hel rest g hstop hg
  obtain ⟨g', rfl⟩ : ∃ g', g = g' + 1 := ⟨g - 1, by omega⟩
  cases b with
  | name id =>
    have hv : validIdentB id = true := hc
    obtain ⟨hT, hF, hN, hkw⟩ := validIdent_ne_kw id hv
    rcases hd : id.data with _ | ⟨c, cs⟩
    · unfold validIdentB at hv
      rw [hd] at hv
      simp at hv
    · have hv' := hv
      unfold validIdentB at hv'
      rw [hd] at hv'
      simp only [Bool.and_eq_true] at hv'
      obtain ⟨⟨hstart, hall⟩, -⟩ := hv'
      have hallm : ∀ d ∈ c :: cs, isIdentChar d = true :=
        fun d hdm => (List.all_eq_true.mp hall) d hdm
      have htk : ((c :: cs) ++ rest).takeWhile isIdentChar = c :: cs :=
        takeWhile_append_eq _ _ _ hallm (atomStop_no_identChar rest hstop)
      rw [List.cons_append] at htk
      have hP : ( parse_annotation (.name id)).data = c :: cs := hd
      rw [hP, List.cons_append]
      unfold parseAtom
      dsimp only
      rw [if_neg (ne_of_isIdentStart c '"' hstart (by decide)),
          if_neg (ne_of_isIdentStart c '[' hstart (by decide)),
          if_neg (ne_of_isIdentStart c '{' hstart (by decide)),
          if_neg (ne_of_isIdentStart c '(' hstart (by decide)),
          if_neg (by rw [isIdentStart_not_isDigit c hstart]
                     exact Bool.false_ne_true),
          if_pos hstart, htk]
      have hmk : (⟨c :: cs⟩ : String) = id := by rw [← hd]
      rw [hmk, if_neg hT, if_neg hF, if_neg hN,
          if_neg (by rw [hkw]; exact Bool.false_ne_true)]
      rw [← List.cons_append c cs rest, List.drop_left]
  | constant cst =>
    cases cst with
    | str s =>
      have hcs : s.data.all canonStrCharB = true := hc
      have hP : ( parse_annotation (.constant (.str s))).data =
          '"' :: (s.data ++ ['"']) := by
        show ("\"" ++ s ++ "\"").data = _
        rw [String.data_append, String.data_append]
        rfl
      rw [hP, List.cons_append, List.append_assoc]
      simp only [List.singleton_append]
      unfold parseAtom
      dsimp only
      rw [if_pos rfl]
      have htk : (s.data ++ '"' :: rest).takeWhile (· != '"') = s.data :=
        takeWhile_append_eq _ _ _
          (fun d hdm => by
            have hcc := (List.all_eq_true.mp hcs) d hdm
            unfold canonStrCharB at hcc
            simp only [Bool.and_eq_true] at hcc
            exact hcc.1.1.1)
          (fun d hdm => by
            have hd2 : '"' = d := by simpa using hdm
            rw [← hd2]
            decide)
      rw [htk, List.drop_left]
      rw [show (⟨s.data⟩ : String) = s from rfl]
      rfl
    | int n =>
      have hcn : canonConstB (.int n) = true := hc
      have hn : 0 ≤ n := by simpa [canonConstB] using hcn
      obtain ⟨hne, hdig, hval⟩ := intRepr_spec n hn
      have hP : parse_annotation (.constant (.int n)) = toString n := rfl
      rcases hd : (toString n).data with _ | ⟨c, cs⟩
      · exact absurd hd hne
      · have hcdig : c.isDigit = true := hdig c (by rw [hd]; simp)
        have hallm : ∀ d ∈ c :: cs, d.isDigit = true :=
          fun d hdm => hdig d (hd ▸ hdm)
        rw [hP, hd, List.cons_append]
        unfold parseAtom
        dsimp only
        rw [if_neg (ne_of_isDigit c '"' hcdig (by decide)),
            if_neg (ne_of_isDigit c '[' hcdig (by decide)),
            if_neg (ne_of_isDigit c '{' hcdig (by decide)),
            if_neg (ne_of_isDigit c '(' hcdig (by decide)),
            if_pos hcdig]
        have htk : ((c :: cs) ++ rest).takeWhile (·.isDigit) = c :: cs :=
          takeWhile_append_eq _ _ _ hallm (atomStop_no_digit rest hstop)
        rw [List.cons_append] at htk
        rw [htk, ← List.cons_append c cs rest, List.drop_left]
        have hv2 : (digitsVal (c :: cs) : Int) = n := by rw [← hd]; exact hval
        rw [hv2]
    | bool bv =>
      cases bv with
      | false =>
        have hP : ( parse_annotation (.constant (.bool false))).data =
            "False".data := rfl
        rw [hP]
        have htk : ("False".data ++ rest).takeWhile isIdentChar = "False".data :=
          takeWhile_append_eq _ _ _ (by decide)
            (atomStop_no_identChar rest hstop)
        rw [show ("False".data ++ rest : List Char)
          = 'F' :: ("alse".data ++ rest) from rfl] at htk ⊢
        unfold parseAtom
        dsimp only
        rw [if_neg (by decide), if_neg (by decide), if_neg (by decide),
            if_neg (by decide), if_neg (by decide), if_pos (by decide), htk]
        rw [show (⟨("False".data : List Char)⟩ : String) = "False" from rfl]
        rw [if_neg (by decide), if_pos rfl]
        rw [show ('F' :: ("alse".data ++ rest) : List Char)
          = "False".data ++ rest from rfl, List.drop_left]
      | true =>
        have hP : ( parse_annotation (.constant (.bool true))).data =
            "True".data := rfl
        rw [hP]
        have htk : ("True".data ++ rest).takeWhile isIdentChar = "True".data :=
          takeWhile_append_eq _ _ _ (by decide)
            (atomStop_no_identChar rest hstop)
        rw [show ("True".data ++ rest : List Char)
          = 'T' :: ("rue".data ++ rest) from rfl] at htk ⊢
        unfold parseAtom
        dsimp only
        rw [if_neg (by decide), if_neg (by decide), if_neg (by decide),
            if_neg (by decide), if_neg (by decide), if_pos (by decide), htk]
        rw [show (⟨("True".data : List Char)⟩ : String) = "True" from rfl]
        rw [if_pos rfl]
        rw [show ('T' :: ("rue".data ++ rest) : List Char)
          = "True".data ++ rest from rfl, List.drop_left]
    | noneV =>
      have hP : ( parse_annotation (.constant .noneV)).data = "None".data := rfl
      rw [hP]
      have htk : ("None".data ++ rest).takeWhile isIdentChar = "None".data :=
        takeWhile_append_eq _ _ _ (by decide)
          (atomStop_no_identChar rest hstop)
      rw [show ("None".data ++ rest : List Char)
        = 'N' :: ("one".data ++ rest) from rfl] at htk ⊢
      unfold parseAtom
      dsimp only
      rw [if_neg (by decide), if_neg (by decide), if_neg (by decide),
          if_neg (by decide), if_neg (by decide), if_pos (by decide), htk]
      rw [show (⟨("None".data : List Char)⟩ : String) = "None" from rfl]
      rw [if_neg (by decide), if_neg (by decide), if_pos rfl]
      rw [show ('N' :: ("one".data ++ rest) : List Char)
        = "None".data ++ rest from rfl, List.drop_left]
    | other r =>
      have h' : canonConstB (.other r) = true := hc
      simp [canonConstB] at h'
  | listE es =>
    cases es with
    | nil =>
      have hP : ( parse_annotation (.listE [])).data = ['[', ']'] := rfl
      rw [hP]
      show parseAtom (g' + 1) ('[' :: (']' :: rest)) = _
      unfold parseAtom
      dsimp only
      rw [if_neg (by decide), if_pos rfl]
      rw [if_pos rfl]
    | cons x ys =>
      have hcl : canonEList (x :: ys) = true := hc
      have hmem := canonEList_mem _ hcl
      have hszL : sizeE (.listE (x :: ys)) = sizeEList (x :: ys) + 1 := rfl
      have hels : ∀ y ∈ x :: ys, LBorS y := fun y hy =>
        hel y (by have := sizeE_mem_list _ y hy; omega) (hmem y hy)
      have hP : ( parse_annotation (.listE (x :: ys))).data =
          '[' :: (( parse_annotation x).data ++ listTailStr ys ++ [']']) := by
        show ("[" ++ pyJoin ", " (annList (x :: ys)) ++ "]").data = _
        rw [String.data_append, String.data_append, pyJoin_annList]
        simp [List.append_assoc]
      have hlenP : ( parse_annotation (.listE (x :: ys))).data.length =
          1 + (( parse_annotation x).data.length + (listTailStr ys).length + 1) := by
        rw [hP]
        simp [List.length_append]
        omega
      rw [hP]
      simp only [List.cons_append, List.append_assoc, List.singleton_append, List.nil_append]
      obtain ⟨c2, σ2, hd2, hcl2⟩ := canon_head (sizeE x) x le_rfl (hmem x (by simp))
      have hEL := parseExprList_complete x ys (']' :: rest) g'
        (hels x (by simp)) (fun y hy => hels y (by simp [hy]))
        (Or.inl rfl) (by omega)
      rw [hd2] at hEL ⊢
      simp only [List.cons_append, List.append_assoc, List.nil_append] at hEL ⊢
      unfold parseAtom
      dsimp only
      rw [if_neg (by decide), if_pos rfl]
      rw [if_neg (canon_head_ne c2 hcl2 ']' (by decide) (by decide) (by decide)
        (by decide) (by decide) (by decide))]
      rw [hEL]
      rfl
  | dict ps =>
    cases ps with
    | nil =>
      have hP : ( parse_annotation (.dict [])).data = ['{', '}'] := rfl
      rw [hP]
      show parseAtom (g' + 1) ('{' :: ('}' :: rest)) = _
      unfold parseAtom
      dsimp only
      rw [if_neg (by decide), if_neg (by decide), if_pos rfl]
      rw [if_pos rfl]
    | cons q tl =>
      obtain ⟨k, v⟩ := q
      have hcp : canonEPairs ((k, v) :: tl) = true := hc
      have hmem := canonEPairs_mem _ hcp
      have hszD : sizeE (.dict ((k, v) :: tl)) = sizeEPairs ((k, v) :: tl) + 1 := rfl
      have help : ∀ p ∈ (k, v) :: tl, LBorS (p : PyExpr × PyExpr).1 ∧ LBorS p.2 := by
        intro p hp
        have hsp := sizeE_mem_pairs _ p hp
        have hcm := hmem p hp
        exact ⟨hel p.1 (by omega) hcm.1, hel p.2 (by omega) hcm.2⟩
      have hP : ( parse_annotation (.dict ((k, v) :: tl))).data =
          '{' :: (( parse_annotation k).data
            ++ ':' :: ' ' :: ( parse_annotation v).data ++ pairsTailStr tl
            ++ ['}']) := by
        show ("\x7b" ++ pyJoin ", " (annPairs ((k, v) :: tl)) ++ "\x7d").data = _
        rw [String.data_append, String.data_append, pyJoin_annPairs]
        simp [List.append_assoc]
      have hlenP : ( parse_annotation (.dict ((k, v) :: tl))).data.length =
          1 + (( parse_annotation k).data.length + 2
            + ( parse_annotation v).data.length + (pairsTailStr tl).length + 1) := by
        rw [hP]
        simp [List.length_append]
        omega
      rw [hP]
      simp only [List.cons_append, List.append_assoc, List.singleton_append, List.nil_append]
      obtain ⟨c2, σ2, hd2, hcl2⟩ := canon_head (sizeE k) k le_rfl
        (hmem (k, v) (by simp)).1
      have hkb : LBorS k := (help (k, v) (by simp)).1
      have hvb : LBorS v := (help (k, v) (by simp)).2
      have hbk := hkb
        (':' :: ' ' :: (( parse_annotation v).data
          ++ (pairsTailStr tl ++ '}' :: rest))) g' rfl (by omega)
      have hbv := hvb
        (pairsTailStr tl ++ '}' :: rest) g'
        (stopBor_pairsTail tl ('}' :: rest) rfl) (by omega)
      have hdt := parseDictTail_complete tl [(k, v)] rest g'
        (fun p hp => help p (by simp [hp])) (by omega)
      rw [hd2] at hbk ⊢
      simp only [List.cons_append, List.append_assoc, List.nil_append] at hbk ⊢
      unfold parseAtom
      dsimp only
      rw [if_neg (by decide), if_neg (by decide), if_pos rfl]
      rw [if_neg (canon_head_ne c2 hcl2 '}' (by decide) (by decide) (by decide)
        (by decide) (by decide) (by decide))]
      rw [hbk]
      show (match parseBor g' (( parse_annotation v).data
            ++ (pairsTailStr tl ++ '}' :: rest)) with
          | none => none
          | some (v2, rest5) => parseDictTail g' [(k, v2)] rest5) = _
      rw [hbv]
      show parseDictTail g' [(k, v)] (pairsTailStr tl ++ '}' :: rest) = _
      rw [hdt]
      simp
  | setE es =>
    have hcs : (!(es : List PyExpr).isEmpty && canonEList es) = true := hc
    simp only [Bool.and_eq_true] at hcs
    cases es with
    | nil => simp at hcs
    | cons x tl =>
      have hmem := canonEList_mem _ hcs.2
      have hszS : sizeE (.setE (x :: tl)) = sizeEList (x :: tl) + 1 := rfl
      have hels : ∀ y ∈ x :: tl, LBorS y := fun y hy =>
        hel y (by have := sizeE_mem_list _ y hy; omega) (hmem y hy)
      have hP : ( parse_annotation (.setE (x :: tl))).data =
          '{' :: (( parse_annotation x).data ++ listTailStr tl ++ ['}']) := by
        show ("\x7b" ++ pyJoin ", " (annList (x :: tl)) ++ "\x7d").data = _
        rw [String.data_append, String.data_append, pyJoin_annList]
        simp [List.append_assoc]
      have hlenP : ( parse_annotation (.setE (x :: tl))).data.length =
          1 + (( parse_annotation x).data.length + (listTailStr tl).length + 1) := by
        rw [hP]
        simp [List.length_append]
        omega
      rw [hP]
      simp only [List.cons_append, List.append_assoc, List.singleton_append, List.nil_append]
      obtain ⟨c2, σ2, hd2, hcl2⟩ := canon_head (sizeE x) x le_rfl (hmem x (by simp))
      have hbx := hels x (by simp) (listTailStr tl ++ '}' :: rest) g'
        (stopBor_listTail tl ('}' :: rest) (by simp)) (by omega)
      have hst := parseSetTail_complete tl [x] rest g'
        (fun y hy => hels y (by simp [hy])) (by omega)
      rw [hd2] at hbx ⊢
      simp only [List.cons_append, List.append_assoc, List.nil_append] at hbx ⊢
      unfold parseAtom
      dsimp only
      rw [if_neg (by decide), if_neg (by decide), if_pos rfl]
      rw [if_neg (canon_head_ne c2 hcl2 '}' (by decide) (by decide) (by decide)
        (by decide) (by decide) (by decide))]
      rw [hbx]
      cases tl with
      | nil =>
        show parseSetTail g' [x] (listTailStr [] ++ '}' :: rest) = _
        rw [hst]
        simp
      | cons q tl' =>
        show parseSetTail g' [x] (listTailStr (q :: tl') ++ '}' :: rest) = _
        rw [hst]
        simp
  | tuple es =>
    have hct : ((es : List PyExpr).length != 1 && canonEList es) = true := hc
    simp only [Bool.and_eq_true] at hct
    cases es with
    | nil =>
      have hP : ( parse_annotation (.tuple [])).data = ['(', ')'] := rfl
      rw [hP]
      show parseAtom (g' + 1) ('(' :: (')' :: rest)) = _
      unfold parseAtom
      dsimp only
      rw [if_neg (by decide), if_neg (by decide), if_neg (by decide), if_pos rfl]
      rw [if_pos rfl]
    | cons x ys =>
      cases ys with
      | nil => simp at hct
      | cons y tl =>
        have hmem := canonEList_mem _ hct.2
        have hszT : sizeE (.tuple (x :: y :: tl)) = sizeEList (x :: y :: tl) + 1 := rfl
        have hels : ∀ z ∈ x :: y :: tl, LBorS z := fun z hz =>
          hel z (by have := sizeE_mem_list _ z hz; omega) (hmem z hz)
        have hP : ( parse_annotation (.tuple (x :: y :: tl))).data =
            '(' :: (( parse_annotation x).data ++ listTailStr (y :: tl) ++ [')']) := by
          show ("(" ++ pyJoin ", " (annList (x :: y :: tl)) ++ ")").data = _
          rw [String.data_append, String.data_append, pyJoin_annList]
          simp [List.append_assoc]
        have hlenP : ( parse_annotation (.tuple (x :: y :: tl))).data.length =
            1 + (( parse_annotation x).data.length
              + (listTailStr (y :: tl)).length + 1) := by
          rw [hP]
          simp [List.length_append]
          omega
        rw [hP]
        simp only [List.cons_append, List.append_assoc, List.singleton_append, List.nil_append]
        obtain ⟨c2, σ2, hd2, hcl2⟩ := canon_head (sizeE x) x le_rfl (hmem x (by simp))
        have hEL := parseExprList_complete x (y :: tl) (')' :: rest) g'
          (hels x (by simp)) (fun z hz => hels z (by simp [hz]))
          (Or.inr rfl) (by omega)
        rw [hd2] at hEL ⊢
        simp only [List.cons_append, List.append_assoc, List.nil_append] at hEL ⊢
        unfold parseAtom
        dsimp only
        rw [if_neg (by decide), if_neg (by decide), if_neg (by decide), if_pos rfl]
        rw [if_neg (canon_head_ne c2 hcl2 ')' (by decide) (by decide) (by decide)
          (by decide) (by decide) (by decide))]
        rw [hEL]
        rfl
  | binOp l r => simp [isAtomE] at hatom
  | «attribute» v a => simp [isAtomE] at hatom
  | call f args kws => simp [isAtomE] at hatom
  | subscript v sl => simp [isAtomE] at hatom
  | unsupported => simp [isAtomE] at hatom
  | noneNode => simp [isAtomE] at hatom

end Astdocs

namespace Astdocs

theorem trailer_head_not_identChar (t : Trl) (ts : List Trl) (rest : List Char) :
    ∀ c, (printTrs (t :: ts) ++ rest).head? = some c → isIdentChar c = false := by
  intro c hc
  cases t with
  | attr a =>
    have h2 : '.' = c := by
      simp only [printTrs, printTrl, List.cons_append, List.head?_cons] at hc
      simpa using hc
    rw [← h2]
    decide
  | callK kws =>
    have h2 : '(' = c := by
      simp only [printTrs, printTrl, List.cons_append, List.head?_cons] at hc
      simpa using hc
    rw [← h2]
    decide
  | sub sl =>
    have h2 : '[' = c := by
      simp only [printTrs, printTrl, List.cons_append, List.head?_cons] at hc
      simpa using hc
    rw [← h2]
    decide

theorem validIdent_head (s : String) (h : validIdentB s = true) :
    ∃ c cs, s.data = c :: cs ∧ isIdentStart c = true := by
  unfold validIdentB at h
  simp only [Bool.and_eq_true] at h
  rcases hd : s.data with _ | ⟨c, cs⟩
  · rw [hd] at h
    simp at h
  · have := h.1.1
    rw [hd] at this
    exact ⟨c, cs, rfl, this⟩

theorem canonTrl_sub_cases (sl : PyExpr) (h : canonTrlB (.sub sl) = true) :
    (∃ es, sl = .tuple es ∧ 2 ≤ es.length ∧ canonEList es = true)
    ∨ ((∀ es, sl ≠ .tuple es) ∧ canonE true sl = true
        ∧ headParenB ( parse_annotation sl) = false) := by
  cases sl with
  | tuple es =>
    have h' : (decide (2 ≤ es.length) && canonEList es) = true := h
    simp only [Bool.and_eq_true, decide_eq_true_eq] at h'
    exact Or.inl ⟨es, rfl, h'.1, h'.2⟩
  | name id =>
    have h' : (canonE true (.name id)
        && ! headParenB ( parse_annotation (.name id))) = true := h
    simp only [Bool.and_eq_true, Bool.not_eq_true'] at h'
    exact Or.inr ⟨fun es he => (by cases he), h'.1, h'.2⟩
  | binOp l r =>
    have h' : (canonE true (.binOp l r)
        && ! headParenB ( parse_annotation (.binOp l r))) = true := h
    simp only [Bool.and_eq_true, Bool.not_eq_true'] at h'
    exact Or.inr ⟨fun es he => (by cases he), h'.1, h'.2⟩
  | «attribute» v a =>
    have h' : (canonE true (.attribute v a)
        && ! headParenB ( parse_annotation (.attribute v a))) = true := h
    simp only [Bool.and_eq_true, Bool.not_eq_true'] at h'
    exact Or.inr ⟨fun es he => (by cases he), h'.1, h'.2⟩
  | call f args kws =>
    have h' : (canonE true (.call f args kws)
        && ! headParenB ( parse_annotation (.call f args kws))) = true := h
    simp only [Bool.and_eq_true, Bool.not_eq_true'] at h'
    exact Or.inr ⟨fun es he => (by cases he), h'.1, h'.2⟩
  | constant c =>
    have h' : (canonE true (.constant c)
        && ! headParenB ( parse_annotation (.constant c))) = true := h
    simp only [Bool.and_eq_true, Bool.not_eq_true'] at h'
    exact Or.inr ⟨fun es he => (by cases he), h'.1, h'.2⟩
  | dict ps =>
    have h' : (canonE true (.dict ps)
        && ! headParenB ( parse_annotation (.dict ps))) = true := h
    simp only [Bool.and_eq_true, Bool.not_eq_true'] at h'
    exact Or.inr ⟨fun es he => (by cases he), h'.1, h'.2⟩
  | listE es =>
    have h' : (canonE true (.listE es)
        && ! headParenB ( parse_annotation (.listE es))) = true := h
    simp only [Bool.and_eq_true, Bool.not_eq_true'] at h'
    exact Or.inr ⟨fun es2 he => (by cases he), h'.1, h'.2⟩
  | subscript v sl2 =>
    have h' : (canonE true (.subscript v sl2)
        && ! headParenB ( parse_annotation (.subscript v sl2))) = true := h
    simp only [Bool.and_eq_true, Bool.not_eq_true'] at h'
    exact Or.inr ⟨fun es he => (by cases he), h'.1, h'.2⟩
  | setE es =>
    have h' : (canonE true (.setE es)
        && ! headParenB ( parse_annotation (.setE es))) = true := h
    simp only [Bool.and_eq_true, Bool.not_eq_true'] at h'
    exact Or.inr ⟨fun es2 he => (by cases he), h'.1, h'.2⟩
  | unsupported =>
    have h' : (canonE true .unsupported
        && ! headParenB ( parse_annotation .unsupported)) = true := h
    simp only [Bool.and_eq_true, Bool.not_eq_true'] at h'
    exact Or.inr ⟨fun es he => (by cases he), h'.1, h'.2⟩
  | noneNode =>
    have h' : (canonE true .noneNode
        && ! headParenB ( parse_annotation .noneNode)) = true := h
    simp only [Bool.and_eq_true, Bool.not_eq_true'] at h'
    exact Or.inr ⟨fun es he => (by cases he), h'.1, h'.2⟩

end Astdocs

namespace Astdocs

theorem parseTrailers_complete :
    ∀ (ts : List Trl) (a : PyExpr) (rest : List Char) (g : Nat),
      (∀ t ∈ ts, canonTrlB t = true) →
      (∀ kws, Trl.callK kws ∈ ts → ∀ p ∈ kws, LBorS (p : Option String × PyExpr).2) →
      (∀ es, Trl.sub (.tuple es) ∈ ts → ∀ x ∈ es, LBorS x) →
      (∀ sl, Trl.sub sl ∈ ts → (∀ es, sl ≠ .tuple es) → LBorS sl) →
      stopPostB rest = true →
      8 * (printTrs ts).length + 10 ≤ g →
      parseTrailers g a (printTrs ts ++ rest) = some (applyTrs a ts, rest) := by
  intro ts
  induction ts with
  | nil =>
    intro a rest g _ _ _ _ hstop hg
    obtain ⟨g', rfl⟩ : ∃ g', g = g' + 1 := ⟨g - 1, by omega⟩
    rw [show printTrs [] = [] from rfl, List.nil_append]
    show parseTrailers (g' + 1) a rest = some (a, rest)
    have hstep : ∀ (a2 : PyExpr) (c : Char) (X : List Char),
        parseTrailers (g' + 1) a2 (c :: X) =
          (if c = '.' then
            match parseIdent X with
            | none => none
            | some (id, rest2) => parseTrailers g' (.attribute a2 id) rest2
          else if c = '(' then
            match X with
            | [] => none
            | c2 :: rest2 =>
              if c2 = ')' then parseTrailers g' (.call a2 [] []) rest2
              else
                match parseKwList g' X with
                | none => none
                | some (kws, rest3) =>
                  match rest3 with
                  | ')' :: rest4 => parseTrailers g' (.call a2 [] kws) rest4
                  | _ => none
          else if c = '[' then
            match parseExprList g' X with
            | none => none
            | some (es, rest2) =>
              match rest2 with
              | ']' :: rest3 =>
                (match es with
                 | [e] => parseTrailers g' (.subscript a2 e) rest3
                 | _ => parseTrailers g' (.subscript a2 (.tuple es)) rest3)
              | _ => none
          else some (a2, c :: X)) :=
      fun a2 c X => rfl
    cases rest with
    | nil => rfl
    | cons c σ =>
      obtain ⟨h1, h2, h3, -⟩ := stopPost_not_trailer c σ hstop
      rw [hstep, if_neg h1, if_neg h2, if_neg h3]
  | cons t ts ih =>
    intro a rest g hcan hkwsP htupP hothP hstop hg
    obtain ⟨g', rfl⟩ : ∃ g', g = g' + 1 := ⟨g - 1, by omega⟩
    have hct := hcan t (List.mem_cons_self _ _)
    have ihA : ∀ a2 : PyExpr, 8 * (printTrs ts).length + 10 ≤ g' →
        parseTrailers g' a2 (printTrs ts ++ rest) = some (applyTrs a2 ts, rest) :=
      fun a2 hgg => ih a2 rest g'
        (fun u hu => hcan u (List.mem_cons_of_mem _ hu))
        (fun kws hk => hkwsP kws (List.mem_cons_of_mem _ hk))
        (fun es hk => htupP es (List.mem_cons_of_mem _ hk))
        (fun sl hk => hothP sl (List.mem_cons_of_mem _ hk))
        hstop hgg
    have hstep : ∀ (a2 : PyExpr) (c : Char) (X : List Char),
        parseTrailers (g' + 1) a2 (c :: X) =
          (if c = '.' then
            match parseIdent X with
            | none => none
            | some (id, rest2) => parseTrailers g' (.attribute a2 id) rest2
          else if c = '(' then
            match X with
            | [] => none
            | c2 :: rest2 =>
              if c2 = ')' then parseTrailers g' (.call a2 [] []) rest2
              else
                match parseKwList g' X with
                | none => none
                | some (kws, rest3) =>
                  match rest3 with
                  | ')' :: rest4 => parseTrailers g' (.call a2 [] kws) rest4
                  | _ => none
          else if c = '[' then
            match parseExprList g' X with
            | none => none
            | some (es, rest2) =>
              match rest2 with
              | ']' :: rest3 =>
                (match es with
                 | [e] => parseTrailers g' (.subscript a2 e) rest3
                 | _ => parseTrailers g' (.subscript a2 (.tuple es)) rest3)
              | _ => none
          else some (a2, c :: X)) :=
      fun a2 c X => rfl
    cases t with
    | attr s =>
      have hval : validIdentB s = true := hct
      have hlen : (printTrs (Trl.attr s :: ts)).length =
          1 + s.data.length + (printTrs ts).length := by
        simp only [printTrs, printTrl, List.cons_append, List.length_append,
          List.length_cons, List.length_nil, List.length_singleton]
        omega
      show parseTrailers (g' + 1) a
        ((('.' :: s.data) ++ printTrs ts) ++ rest) = _
      simp only [List.cons_append, List.append_assoc]
      rw [hstep, if_pos rfl]
      have hid := parseIdent_complete s (printTrs ts ++ rest) hval
        (fun c hc => by
          cases ts with
          | nil =>
            rw [show printTrs [] = [] from rfl, List.nil_append] at hc
            exact atomStop_no_identChar rest (atomStop_of_stopPost rest hstop) c hc
          | cons t2 ts2 => exact trailer_head_not_identChar t2 ts2 rest c hc)
      rw [hid]
      show parseTrailers g' (.attribute a s) (printTrs ts ++ rest) = _
      rw [ihA (.attribute a s) (by omega)]
      rfl
    | callK kws =>
      cases kws with
      | nil =>
        have hlen : (printTrs (Trl.callK [] :: ts)).length =
            2 + (printTrs ts).length := by
          simp only [printTrs, printTrl, List.cons_append, List.length_append,
            List.length_cons, List.length_nil, List.length_singleton,
            show (pyJoin ", " (annKws [])).data = ([] : List Char) from rfl]
          omega
        show parseTrailers (g' + 1) a
          ((('(' :: ((pyJoin ", " (annKws [])).data ++ [')'])) ++ printTrs ts)
            ++ rest) = _
        rw [show (pyJoin ", " (annKws [])).data = [] from rfl]
        simp only [List.cons_append, List.append_assoc, List.singleton_append,
          List.nil_append]
        rw [hstep, if_neg (by decide), if_pos rfl]
        dsimp only
        rw [if_pos rfl]
        rw [ihA (.call a [] []) (by omega)]
        rfl
      | cons q ktl =>
        obtain ⟨k0, v0⟩ := q
        have hck : canonEKws ((k0, v0) :: ktl) = true := hct
        obtain ⟨⟨s0, hk0, hvalS⟩, -⟩ :=
          canonEKws_mem _ hck (k0, v0) (List.mem_cons_self _ _)
        subst hk0
        have hLB : ∀ p ∈ (some s0, v0) :: ktl, LBorS (p : Option String × PyExpr).2 :=
          hkwsP _ (List.mem_cons_self _ _)
        have hv0 : LBorS v0 := hLB (some s0, v0) (List.mem_cons_self _ _)
        have hktl : ∀ p ∈ ktl, ∃ s2, (p : Option String × PyExpr).1 = some s2
            ∧ validIdentB s2 = true ∧ LBorS p.2 := by
          intro p hp
          obtain ⟨⟨s2, hs2, hvs2⟩, -⟩ :=
            canonEKws_mem _ hck p (List.mem_cons_of_mem _ hp)
          exact ⟨s2, hs2, hvs2, hLB p (List.mem_cons_of_mem _ hp)⟩
        have hJk := pyJoin_annKws (some s0) v0 ktl
        rw [show kwNameStr (some s0) = s0 from rfl] at hJk
        have hlen : (printTrs (Trl.callK ((some s0, v0) :: ktl) :: ts)).length =
            2 + (s0.data.length + 1 + ( parse_annotation v0).data.length
              + (kwTailStr ktl).length) + (printTrs ts).length := by
          simp only [printTrs, printTrl, List.cons_append, List.length_append,
            List.length_cons, List.length_nil, List.length_singleton, hJk]
          omega
        obtain ⟨cS, csS, hdS, hstS⟩ := validIdent_head s0 hvalS
        show parseTrailers (g' + 1) a
          ((('(' :: ((pyJoin ", " (annKws ((some s0, v0) :: ktl))).data ++ [')']))
            ++ printTrs ts) ++ rest) = _
        rw [hJk]
        simp only [List.cons_append, List.append_assoc, List.singleton_append,
          List.nil_append]
        have hKL := parseKwList_complete s0 v0 ktl (')' :: (printTrs ts ++ rest))
          g' hvalS hv0 hktl rfl (by omega)
        rw [hdS] at hKL ⊢
        simp only [List.cons_append, List.append_assoc, List.nil_append] at hKL ⊢
        rw [hstep, if_neg (by decide), if_pos rfl]
        dsimp only
        rw [if_neg (ne_of_isIdentStart cS ')' hstS (by decide))]
        rw [hKL]
        show parseTrailers g' (.call a [] ((some s0, v0) :: ktl))
          (printTrs ts ++ rest) = _
        rw [ihA (.call a [] ((some s0, v0) :: ktl)) (by omega)]
        rfl
    | sub sl =>
      rcases canonTrl_sub_cases sl hct with ⟨es, rfl, hlen2, hces⟩ | ⟨hne, hcsl, hhp⟩
      · obtain ⟨e1, es1⟩ : ∃ e1 es1, es = e1 :: es1 := by
          cases es with
          | nil => simp at hlen2
          | cons e1 es1 => exact ⟨e1, es1, rfl⟩
        obtain ⟨es1, rfl⟩ := es1
        obtain ⟨e2, etl, rfl⟩ : ∃ e2 etl, es1 = e2 :: etl := by
          cases es1 with
          | nil => simp at hlen2
          | cons e2 etl => exact ⟨e2, etl, rfl⟩
        have hmemE := canonEList_mem _ hces
        have hLBe : ∀ x ∈ e1 :: e2 :: etl, LBorS x :=
          htupP _ (List.mem_cons_self _ _)
        have hsubI : (subInner (.tuple (e1 :: e2 :: etl))).data =
            ( parse_annotation e1).data ++ listTailStr (e2 :: etl) := by
          rw [subInner_tuple, pyJoin_annList]
        have hlen : (printTrs (Trl.sub (.tuple (e1 :: e2 :: etl)) :: ts)).length =
            2 + (( parse_annotation e1).data.length
              + (listTailStr (e2 :: etl)).length) + (printTrs ts).length := by
          simp only [printTrs, printTrl, List.cons_append, List.length_append,
            List.length_cons, List.length_nil, List.length_singleton, hsubI]
          omega
        show parseTrailers (g' + 1) a
          ((('[' :: ((subInner (.tuple (e1 :: e2 :: etl))).data ++ [']']))
            ++ printTrs ts) ++ rest) = _
        rw [hsubI]
        simp only [List.cons_append, List.append_assoc, List.singleton_append,
          List.nil_append]
        have hEL := parseExprList_complete e1 (e2 :: etl)
          (']' :: (printTrs ts ++ rest)) g'
          (hLBe e1 (by simp)) (fun y hy => hLBe y (by simp [hy]))
          (Or.inl rfl) (by omega)
        simp only [List.cons_append, List.append_assoc, List.nil_append] at hEL ⊢
        rw [hstep, if_neg (by decide), if_neg (by decide), if_pos rfl]
        rw [hEL]
        show parseTrailers g' (.subscript a (.tuple (e1 :: e2 :: etl)))
          (printTrs ts ++ rest) = _
        rw [ihA (.subscript a (.tuple (e1 :: e2 :: etl))) (by omega)]
        rfl
      · have hLBs : LBorS sl := hothP sl (List.mem_cons_self _ _) hne
        have hsubI : (subInner sl).data = ( parse_annotation sl).data := by
          rw [subInner_nostrip sl hhp]
        have hlen : (printTrs (Trl.sub sl :: ts)).length =
            2 + ( parse_annotation sl).data.length + (printTrs ts).length := by
          simp only [printTrs, printTrl, List.cons_append, List.length_append,
            List.length_cons, List.length_nil, List.length_singleton, hsubI]
          omega
        show parseTrailers (g' + 1) a
          ((('[' :: ((subInner sl).data ++ [']'])) ++ printTrs ts) ++ rest) = _
        rw [hsubI]
        simp only [List.cons_append, List.append_assoc, List.singleton_append,
          List.nil_append]
        have hEL := parseExprList_complete sl [] (']' :: (printTrs ts ++ rest)) g'
          hLBs (fun y hy => absurd hy (List.not_mem_nil y))
          (Or.inl rfl) (by simp only [show listTailStr [] = [] from rfl,
            List.length_nil]; omega)
        rw [show listTailStr [] = [] from rfl, List.append_nil] at hEL
        rw [hstep, if_neg (by decide), if_neg (by decide), if_pos rfl]
        rw [hEL]
        show parseTrailers g' (.subscript a sl) (printTrs ts ++ rest) = _
        rw [ihA (.subscript a sl) (by omega)]
        rfl

end Astdocs

namespace Astdocs

theorem stopPost_bar (σ : List Char) :
    stopPostB (' ' :: '|' :: ' ' :: σ) = true := by
  simp [stopPostB, stopBorB]

theorem stopPost_borTail (xs : List PyExpr) (rest : List Char)
    (h : stopBorB rest = true) : stopPostB (borTailStr xs ++ rest) = true := by
  cases xs with
  | nil =>
    rw [show borTailStr [] = [] from rfl, List.nil_append]
    exact stopPost_of_stopBor rest h
  | cons y ys =>
    show stopPostB (' ' :: '|' :: ' ' :: (( parse_annotation y).data
      ++ borTailStr ys ++ rest)) = true
    exact stopPost_bar _

theorem parsePost_complete :
    ∀ e : PyExpr, canonE false e = true →
      (∀ x, sizeE x < sizeE e → canonE true x = true → LBorS x) →
      LPostS e := by
  intro e hc hel
  unfold LPostS
  intro rest g hstop hg
  obtain ⟨g', rfl⟩ : ∃ g', g = g' + 1 := ⟨g - 1, by omega⟩
  have hsp := spine_print (sizeE e) e le_rfl
  have hsc := spine_canon (sizeE e) e le_rfl hc
  have hsa := spine_apply (sizeE e) e le_rfl hc
  have hss := spine_sizes (sizeE e) e le_rfl
  have hlen : ( parse_annotation e).data.length =
      ( parse_annotation (spineBase e)).data.length
        + (printTrs (spineTrs e)).length := by
    rw [hsp, List.length_append]
  rw [hsp, List.append_assoc, parsePost_succ]
  have hatomStop : atomStopB (printTrs (spineTrs e) ++ rest) = true := by
    cases hts : spineTrs e with
    | nil =>
      rw [show printTrs [] = [] from rfl, List.nil_append]
      exact atomStop_of_stopPost rest hstop
    | cons t ts' => exact atomStop_trailer t ts' rest
  have hA := parseAtom_complete (spineBase e) hsc.1 hsc.2.1
    (fun x hx hcx => hel x (by have := hss.1; omega) hcx)
    (printTrs (spineTrs e) ++ rest) g' hatomStop (by omega)
  rw [hA]
  have hT := parseTrailers_complete (spineTrs e) (spineBase e) rest g'
    hsc.2.2
    (fun kws hk p hp => by
      have hkc : canonEKws kws = true := hsc.2.2 _ hk
      have hszk := (hss.2 _ hk).2 kws rfl
      have hmemk := canonEKws_mem kws hkc p hp
      exact hel p.2
        (by have := sizeE_mem_kws kws p hp; omega) hmemk.2)
    (fun es hk x hx => by
      have hkc : (decide (2 ≤ es.length) && canonEList es) = true := hsc.2.2 _ hk
      simp only [Bool.and_eq_true] at hkc
      have hszk := (hss.2 _ hk).1 (.tuple es) rfl
      have hse : sizeE (.tuple es) = sizeEList es + 1 := rfl
      exact hel x
        (by have := sizeE_mem_list es x hx; omega)
        (canonEList_mem es hkc.2 x hx))
    (fun sl hk hne => by
      have hkc : canonTrlB (.sub sl) = true := hsc.2.2 _ hk
      rcases canonTrl_sub_cases sl hkc with ⟨es, he, -⟩ | ⟨-, hcs, -⟩
      · exact absurd he (hne es)
      · have hszk := (hss.2 _ hk).1 sl rfl
        exact hel sl (by omega) hcs)
    hstop (by omega)
  show parseTrailers g' (spineBase e) (printTrs (spineTrs e) ++ rest) = _
  rw [hT, hsa]

theorem parseBorTail_complete :
    ∀ (ys : List PyExpr) (e0 : PyExpr) (rest : List Char) (g : Nat),
      (∀ y ∈ ys, LPostS y) →
      stopBorB rest = true →
      8 * (borTailStr ys).length + 12 ≤ g →
      parseBorTail g e0 (borTailStr ys ++ rest) =
        some (ys.foldl PyExpr.binOp e0, rest) := by
  intro ys
  induction ys with
  | nil =>
    intro e0 rest g _ hstop hg
    obtain ⟨g', rfl⟩ : ∃ g', g = g' + 1 := ⟨g - 1, by omega⟩
    rw [show borTailStr [] = [] from rfl, List.nil_append, parseBorTail_succ,
      if_neg (stopBor_no_bar rest hstop)]
    rfl
  | cons y ys ih =>
    intro e0 rest g hPost hstop hg
    obtain ⟨g', rfl⟩ : ∃ g', g = g' + 1 := ⟨g - 1, by omega⟩
    have hlen : (borTailStr (y :: ys)).length =
        3 + ( parse_annotation y).data.length + (borTailStr ys).length := by
      simp only [borTailStr, List.cons_append, List.length_cons,
        List.length_append]
      omega
    show parseBorTail (g' + 1) e0
      (' ' :: '|' :: ' ' :: (( parse_annotation y).data ++ borTailStr ys)
        ++ rest) = _
    simp only [List.cons_append, List.append_assoc]
    rw [parseBorTail_succ,
      if_pos (show List.take 3 (' ' :: '|' :: ' '
        :: (( parse_annotation y).data ++ (borTailStr ys ++ rest)))
        = [' ', '|', ' '] from rfl)]
    have hP := hPost y (List.mem_cons_self _ _)
      (borTailStr ys ++ rest) g' (stopPost_borTail ys rest hstop) (by omega)
    show (match parsePost g' (( parse_annotation y).data
          ++ (borTailStr ys ++ rest)) with
        | none => none
        | some (e2, rest2) => parseBorTail g' (.binOp e0 e2) rest2) = _
    rw [hP]
    have htl := ih (.binOp e0 y) rest g'
      (fun z hz => hPost z (List.mem_cons_of_mem _ hz)) hstop (by omega)
    show parseBorTail g' (.binOp e0 y) (borTailStr ys ++ rest) = _
    rw [htl]
    rfl

theorem parseBor_complete_main :
    ∀ n e, sizeE e ≤ n → canonE true e = true → LBorS e := by
  intro n
  induction n with
  | zero =>
    intro e he
    exact absurd he (by have := sizeE_pos e; omega)
  | succ n IH =>
    intro e he hc
    have hel : ∀ x, sizeE x < sizeE e → canonE true x = true → LBorS x :=
      fun x hx hcx => IH x (by omega) hcx
    unfold LBorS
    intro rest g hstop hg
    obtain ⟨g', rfl⟩ : ∃ g', g = g' + 1 := ⟨g - 1, by omega⟩
    obtain ⟨x, xs, hops, hx, hxs, hprint, hfold, hxsz, hyssz⟩ :=
      borOps_decomp (sizeE e) e le_rfl hc
    have hlen : ( parse_annotation e).data.length =
        ( parse_annotation x).data.length + (borTailStr xs).length := by
      rw [hprint, List.length_append]
    rw [hprint, List.append_assoc, parseBor_succ]
    have hPostx : LPostS x := parsePost_complete x hx
      (fun z hz hcz => hel z (by omega) hcz)
    have hP := hPostx (borTailStr xs ++ rest) g'
      (stopPost_borTail xs rest hstop) (by omega)
    rw [hP]
    have hTail := parseBorTail_complete xs x rest g'
      (fun y hy => parsePost_complete y (hxs y hy)
        (fun z hz hcz => hel z (by have := hyssz y hy; omega) hcz))
      hstop (by omega)
    show parseBorTail g' x (borTailStr xs ++ rest) = _
    rw [hTail, hfold]

theorem pyParseExpr_roundtrip (e : PyExpr) (hc : canonE true e = true) :
    pyParseExpr ( parse_annotation e) = some e := by
  unfold pyParseExpr
  have hL := parseBor_complete_main (sizeE e) e le_rfl hc []
    (8 * ( parse_annotation e).data.length + 16) rfl le_rfl
  rw [List.append_nil] at hL
  rw [hL]

end Astdocs

namespace Astdocs

/-- Claim C6 (counterexample): `parse_annotation` is not idempotent through a
re-parse.  The supported shape `X[(a,), b]` — a subscript whose slice tuple
contains the one-element tuple `(a,)` — prints as `X[(a), b]` (the printer
joins tuple elements with `", "` and never emits a trailing comma); that
output re-parses as a syntactically valid expression, namely the tree of
`X[a, b]` (the parentheses now read as grouping, not as a tuple), and
applying `parse_annotation` to the re-parsed tree yields `X[a, b]`, which
differs from the first application's output `X[(a), b]`. -/
theorem claim_C6_counterexample :
    parse_annotation c6Bad = "X[(a), b]" ∧
    pyParseExpr "X[(a), b]" = some c6Reparsed ∧
    parse_annotation c6Reparsed = "X[a, b]" ∧
    parse_annotation c6Reparsed ≠ parse_annotation c6Bad :=
  ⟨rfl, rfl, rfl, by decide⟩

/-- Claim C6 (amended): over the canonical domain `canonE true` of supported
annotation shapes — ASCII non-keyword identifiers, quote-, backslash- and
newline-free string constants, non-negative integer, boolean and `None`
constants, left-nested `|` unions, attribute access not rooted at an integer
literal, calls with keyword arguments, list, set, dict and tuple displays
without one-element tuples, and subscripts whose slice is not itself printed
parenthesised unless it is a multi-element tuple — `parse_annotation` is
idempotent through a re-parse: its output parses back to the very tree it
was printed from, so every re-parse of the output prints to the same text. -/
theorem claim_C6_amended (e : PyExpr) (hc : canonE true e = true) :
    pyParseExpr ( parse_annotation e) = some e ∧
    ∀ e', pyParseExpr ( parse_annotation e) = some e' →
      parse_annotation e' = parse_annotation e := by
  have h := pyParseExpr_roundtrip e hc
  refine ⟨h, fun e' he' => ?_⟩
  rw [h] at he'
  injection he' with h2
  rw [← h2]

/-- Claim C6 witness: the annotation `Dict[str, int]` lies in the canonical
domain and round-trips. -/
theorem claim_C6_witness :
    canonE true c6Good = true ∧
    (pyParseExpr ( parse_annotation c6Good) = some c6Good ∧
     ∀ e', pyParseExpr ( parse_annotation c6Good) = some e' →
       parse_annotation e' = parse_annotation c6Good) :=
  ⟨by decide, claim_C6_amended c6Good (by decide)⟩

end Astdocs
